import Mathlib

/-!
Verification development for the `chessgen` chess move-generation engine.

The Rust sources are shallowly embedded: 64-bit words (`u64`) become `Nat`
values kept below `2 ^ 64`, with wrapping operations made explicit; board
squares are `Nat` indices `0..63` (bit `k` of a bitboard is square `k`,
`a1 = 0`, `h8 = 63`); fallible operations return `Option` (with `none`
standing for a Rust `panic!`/`unwrap` failure or a returned error).
-/

namespace Chessgen

/-- `2 ^ 64`, the modulus of Rust `u64` arithmetic. -/
def U64MOD : Nat := 2 ^ 64

/-- All 64 bits set (`u64::MAX`, `BitBoard::UNIVERSE`). -/
def UNIVERSE : Nat := U64MOD - 1

/-- Wrapping 64-bit left shift (`state << n` on `u64`). -/
def shl64 (a n : Nat) : Nat := (a <<< n) % U64MOD

/-- Wrapping 64-bit multiplication (`a * b` on `u64`, release semantics). -/
def mul64 (a b : Nat) : Nat := (a * b) % U64MOD

/-- Bitwise complement on 64 bits (`!x` on `u64`). -/
def not64 (a : Nat) : Nat := a ^^^ UNIVERSE

/-- The single-bit board of square `i` (`Index::as_bitboard`, `1 << index`). -/
def idxBB (i : Nat) : Nat := shl64 1 i

/-- Fueled helper for `ctz`: the fuel only serves structural recursion and is
irrelevant as long as it is at least the argument. -/
def ctzGo : Nat → Nat → Nat
  | 0, _ => 0
  | f + 1, n => if n % 2 = 1 ∨ n = 0 then 0 else 1 + ctzGo f (n / 2)

/-- Count of trailing zero bits (`u64::trailing_zeros` on a nonzero word). -/
def ctz (n : Nat) : Nat := ctzGo n n

/-- `BitBoard::bitscan`: index of the least set bit, `none` on the empty board. -/
def bitscan (n : Nat) : Option Nat :=
  if n = 0 then none else some (ctz n)

/-- `BitBoard::bitpop`: least set bit index and the board with that bit cleared. -/
def bitpop (n : Nat) : Option Nat × Nat :=
  if n = 0 then (none, 0) else (bitscan n, n &&& (n - 1))

/-- Fueled helper for `bitIndices` (clearing the least set bit strictly
decreases a positive word, so fuel `n` is always enough). -/
def bitIndicesGo : Nat → Nat → List Nat
  | 0, _ => []
  | f + 1, n => if n = 0 then [] else ctz n :: bitIndicesGo f (n &&& (n - 1))

/-- The list of set-bit indices in ascending order, as produced by the
`while let (Some(i), next) = b.bitpop()` loops of the source. -/
def bitIndices (n : Nat) : List Nat := bitIndicesGo n n

/-! ### Square indices (`Index::A1` … `Index::H8`, `index = rank*8 + file`) -/

def Idx.A1 : Nat := 0
def Idx.B1 : Nat := 1
def Idx.C1 : Nat := 2
def Idx.D1 : Nat := 3
def Idx.E1 : Nat := 4
def Idx.F1 : Nat := 5
def Idx.G1 : Nat := 6
def Idx.H1 : Nat := 7
def Idx.A2 : Nat := 8
def Idx.B2 : Nat := 9
def Idx.C2 : Nat := 10
def Idx.D2 : Nat := 11
def Idx.E2 : Nat := 12
def Idx.F2 : Nat := 13
def Idx.G2 : Nat := 14
def Idx.H2 : Nat := 15
def Idx.A3 : Nat := 16
def Idx.B3 : Nat := 17
def Idx.C3 : Nat := 18
def Idx.D3 : Nat := 19
def Idx.E3 : Nat := 20
def Idx.F3 : Nat := 21
def Idx.G3 : Nat := 22
def Idx.H3 : Nat := 23
def Idx.A4 : Nat := 24
def Idx.B4 : Nat := 25
def Idx.C4 : Nat := 26
def Idx.D4 : Nat := 27
def Idx.E4 : Nat := 28
def Idx.F4 : Nat := 29
def Idx.G4 : Nat := 30
def Idx.H4 : Nat := 31
def Idx.A5 : Nat := 32
def Idx.B5 : Nat := 33
def Idx.C5 : Nat := 34
def Idx.D5 : Nat := 35
def Idx.E5 : Nat := 36
def Idx.F5 : Nat := 37
def Idx.G5 : Nat := 38
def Idx.H5 : Nat := 39
def Idx.A6 : Nat := 40
def Idx.B6 : Nat := 41
def Idx.C6 : Nat := 42
def Idx.D6 : Nat := 43
def Idx.E6 : Nat := 44
def Idx.F6 : Nat := 45
def Idx.G6 : Nat := 46
def Idx.H6 : Nat := 47
def Idx.A7 : Nat := 48
def Idx.B7 : Nat := 49
def Idx.C7 : Nat := 50
def Idx.D7 : Nat := 51
def Idx.E7 : Nat := 52
def Idx.F7 : Nat := 53
def Idx.G7 : Nat := 54
def Idx.H7 : Nat := 55
def Idx.A8 : Nat := 56
def Idx.B8 : Nat := 57
def Idx.C8 : Nat := 58
def Idx.D8 : Nat := 59
def Idx.E8 : Nat := 60
def Idx.F8 : Nat := 61
def Idx.G8 : Nat := 62
def Idx.H8 : Nat := 63

/-- `Index::file` (`index % 8`). -/
def idxFile (i : Nat) : Nat := i % 8

/-- `Index::rank` (`index / 8`). -/
def idxRank (i : Nat) : Nat := i / 8

/-- `Index::from_rank_and_file`. -/
def from_rank_and_file (rank file : Nat) : Nat := rank * 8 + file

/-- `Index::distance_to`: absolute difference of the two indices. -/
def distance_to (a b : Nat) : Nat := if b < a then a - b else b - a

/-- `Index::shifted_south`: one rank down, `none` off the board. -/
def idx_shifted_south (i : Nat) : Option Nat :=
  if i < 8 then none else some (i - 8)

/-- `Index::shifted_north`: one rank up, `none` off the board. -/
def idx_shifted_north (i : Nat) : Option Nat :=
  if i + 8 ≥ 64 then none else some (i + 8)

/-! ### BitBoard constants and shifts (`bitboard.rs`, `bitboard_constants.rs`) -/

/-- `BitBoard::from_index_array`: union of the given squares. -/
def from_index_array (l : List Nat) : Nat := l.foldl (fun b i => b ||| idxBB i) 0

def FILE_A : Nat :=
  from_index_array [Idx.A1, Idx.A2, Idx.A3, Idx.A4, Idx.A5, Idx.A6, Idx.A7, Idx.A8]

def FILE_H : Nat :=
  from_index_array [Idx.H1, Idx.H2, Idx.H3, Idx.H4, Idx.H5, Idx.H6, Idx.H7, Idx.H8]

def RANK_1 : Nat :=
  from_index_array [Idx.A1, Idx.B1, Idx.C1, Idx.D1, Idx.E1, Idx.F1, Idx.G1, Idx.H1]

def RANK_8 : Nat :=
  from_index_array [Idx.A8, Idx.B8, Idx.C8, Idx.D8, Idx.E8, Idx.F8, Idx.G8, Idx.H8]

def FRAME : Nat := RANK_1 ||| RANK_8 ||| FILE_A ||| FILE_H

/-- `BitBoard::A1H8`: the fifteen A1-H8 (rising) diagonals, entry `k` holds the
diagonal whose squares satisfy `file + 7 - rank = k`. -/
def A1H8 (k : Nat) : Nat :=
  from_index_array
    (((List.range 64).filter (fun i => idxFile i + 7 - idxRank i = k ∧ idxFile i + 7 ≥ idxRank i)))

/-- `BitBoard::A8H1`: the fifteen A8-H1 (falling) diagonals, entry `k` holds the
diagonal whose squares satisfy `file + rank = k`. -/
def A8H1 (k : Nat) : Nat :=
  from_index_array ((List.range 64).filter (fun i => idxFile i + idxRank i = k))

def shifted_north (b : Nat) : Nat := shl64 b 8

def shifted_south (b : Nat) : Nat := b >>> 8

def shifted_east (b : Nat) : Nat := shl64 b 1 &&& not64 FILE_A

def shifted_northeast (b : Nat) : Nat := shl64 b 9 &&& not64 FILE_A

def shifted_southeast (b : Nat) : Nat := (b >>> 7) &&& not64 FILE_A

def shifted_west (b : Nat) : Nat := (b >>> 1) &&& not64 FILE_H

def shifted_southwest (b : Nat) : Nat := (b >>> 9) &&& not64 FILE_H

def shifted_northwest (b : Nat) : Nat := shl64 b 7 &&& not64 FILE_H

/-- The `dx > 0` loop of `BitBoard::shifted`: east-shift one file at a time. -/
def shiftedEastTimes (b : Nat) : Nat → Nat
  | 0 => b
  | k + 1 => shiftedEastTimes (shl64 b 1 &&& not64 FILE_A) k

/-- The `dx < 0` loop of `BitBoard::shifted`: west-shift one file at a time. -/
def shiftedWestTimes (b : Nat) : Nat → Nat
  | 0 => b
  | k + 1 => shiftedWestTimes ((b >>> 1) &&& not64 FILE_H) k

/-- `BitBoard::shifted(dx, dy)`. -/
def shifted (b : Nat) (dx dy : Int) : Nat :=
  let b1 := if 0 < dy then shl64 b (8 * dy.toNat)
            else if dy < 0 then b >>> (8 * (-dy).toNat) else b
  if 0 < dx then shiftedEastTimes b1 dx.toNat
  else if dx < 0 then shiftedWestTimes b1 (-dx).toNat else b1

/-- `BitBoard::mirrored_vertically` (swap rank `i` and rank `7 - i`). -/
def mirrored_vertically (b : Nat) : Nat :=
  ((b >>> 56) &&& RANK_1) |||
  (shl64 ((b >>> 48) &&& RANK_1) 8) |||
  (shl64 ((b >>> 40) &&& RANK_1) 16) |||
  (shl64 ((b >>> 32) &&& RANK_1) 24) |||
  (shl64 ((b >>> 24) &&& RANK_1) 32) |||
  (shl64 ((b >>> 16) &&& RANK_1) 40) |||
  (shl64 ((b >>> 8) &&& RANK_1) 48) |||
  (shl64 (b &&& RANK_1) 56)

/-- `BitBoard::mirrored_horizontally` (bit-reverse within each rank byte). -/
def mirrored_horizontally (b : Nat) : Nat :=
  let K1 : Nat := 0x5555555555555555
  let K2 : Nat := 0x3333333333333333
  let K4 : Nat := 0x0f0f0f0f0f0f0f0f
  let b1 := ((b >>> 1) &&& K1) ||| shl64 (b &&& K1) 1
  let b2 := ((b1 >>> 2) &&& K2) ||| shl64 (b1 &&& K2) 2
  ((b2 >>> 4) &&& K4) ||| shl64 (b2 &&& K4) 4

/-- `BitBoard::mirrored_a1h8` (flip around the A1-H8 diagonal). -/
def mirrored_a1h8 (b : Nat) : Nat :=
  let K1 : Nat := 0x5500550055005500
  let K2 : Nat := 0x3333000033330000
  let K4 : Nat := 0x0f0f0f0f00000000
  let t1 := K4 &&& (b ^^^ shl64 b 28)
  let b1 := b ^^^ (t1 ^^^ (t1 >>> 28))
  let t2 := K2 &&& (b1 ^^^ shl64 b1 14)
  let b2 := b1 ^^^ (t2 ^^^ (t2 >>> 14))
  let t3 := K1 &&& (b2 ^^^ shl64 b2 7)
  b2 ^^^ (t3 ^^^ (t3 >>> 7))

/-- `BitBoard::mirrored_a8h1` (flip around the A8-H1 diagonal). -/
def mirrored_a8h1 (b : Nat) : Nat :=
  let K1 : Nat := 0xaa00aa00aa00aa00
  let K2 : Nat := 0xcccc0000cccc0000
  let K4 : Nat := 0xf0f0f0f00f0f0f0f
  let t1 := b ^^^ shl64 b 36
  let b1 := b ^^^ (K4 &&& (t1 ^^^ (b >>> 36)))
  let t2 := K2 &&& (b1 ^^^ shl64 b1 18)
  let b2 := b1 ^^^ (t2 ^^^ (t2 >>> 18))
  let t3 := K1 &&& (b2 ^^^ shl64 b2 9)
  b2 ^^^ (t3 ^^^ (t3 >>> 9))

/-- `BitBoard::has_bit`. -/
def has_bit (b i : Nat) : Bool := (b &&& idxBB i) != 0

/-! ### Colors and pieces (`color.rs`, `piece.rs`) -/

inductive Color where
  | White
  | Black
deriving DecidableEq, Fintype

def Color.VALUES : List Color := [Color.White, Color.Black]

/-- `Color::opponent`. -/
def Color.opponent : Color → Color
  | Color.White => Color.Black
  | Color.Black => Color.White

inductive Piece where
  | King
  | Queen
  | Bishop
  | Knight
  | Rook
  | Pawn
deriving DecidableEq, Fintype

def Piece.VALUES : List Piece :=
  [Piece.King, Piece.Queen, Piece.Bishop, Piece.Knight, Piece.Rook, Piece.Pawn]

/-- `Move` (`move.rs`): from square, to square, optional promotion piece. -/
structure Move where
  fromSq : Nat
  toSq : Nat
  promotion : Option Piece
deriving DecidableEq


/-! ### The chessboard (`chessboard.rs`) -/

/-- Pointwise update of one entry of the `pieces` array. -/
def updPieces (pcs : Color → Piece → Nat) (c : Color) (p : Piece) (v : Nat) :
    Color → Piece → Nat :=
  fun c2 p2 => if c2 = c ∧ p2 = p then v else pcs c2 p2

/-- Pointwise update of one castling flag (`castling_options[color][piece]`). -/
def updCast (co : Color → Piece → Bool) (c : Color) (p : Piece) (v : Bool) :
    Color → Piece → Bool :=
  fun c2 p2 => if c2 = c ∧ p2 = p then v else co c2 p2

/-- Pointwise update of one `piece_cache` entry. -/
def updCache (cache : Nat → Option (Color × Piece)) (i : Nat)
    (v : Option (Color × Piece)) : Nat → Option (Color × Piece) :=
  fun j => if j = i then v else cache j

/-- `ChessBoard`: bitboards per (color, piece), side to move, castling flags
(only the `King` and `Queen` entries are meaningful, as in the source's
2-element arrays), en-passant target, clocks, and the piece-at cache. -/
structure ChessBoard where
  pieces : Color → Piece → Nat
  next_move : Color
  castling_options : Color → Piece → Bool
  en_passant_target : Option Nat
  half_move_clock : Nat
  full_move_number : Nat
  piece_cache : Nat → Option (Color × Piece)

/-- `ChessBoard::pieces(color)`: union of the six boards of one color. -/
def ChessBoard.pieces_of (b : ChessBoard) (c : Color) : Nat :=
  Piece.VALUES.foldl (fun res p => res ||| b.pieces c p) 0

/-- `ChessBoard::all_pieces`. -/
def ChessBoard.all_pieces (b : ChessBoard) : Nat :=
  b.pieces_of Color.White ||| b.pieces_of Color.Black

/-- `ChessBoard::my_pieces`. -/
def ChessBoard.my_pieces (b : ChessBoard) : Nat := b.pieces_of b.next_move

/-- `ChessBoard::opponent_pieces`. -/
def ChessBoard.opponent_pieces (b : ChessBoard) : Nat :=
  b.pieces_of b.next_move.opponent

/-- `ChessBoard::board_to_attack` (complement of own pieces). -/
def ChessBoard.board_to_attack (b : ChessBoard) : Nat := not64 b.my_pieces

/-- `ChessBoard::my_king`. -/
def ChessBoard.my_king (b : ChessBoard) : Option Nat :=
  bitscan (b.pieces b.next_move Piece.King)

/-- `ChessBoard::opponent_king`. -/
def ChessBoard.opponent_king (b : ChessBoard) : Option Nat :=
  bitscan (b.pieces b.next_move.opponent Piece.King)

/-- `ChessBoard::piece_at` (reads the cache). -/
def ChessBoard.piece_at (b : ChessBoard) (i : Nat) : Option (Color × Piece) :=
  b.piece_cache i

/-- `ChessBoard::new_piece_cache`: rebuild the piece-at cache by walking all
twelve bitboards (later entries overwrite earlier ones, as in the source). -/
def new_piece_cache (pcs : Color → Piece → Nat) : Nat → Option (Color × Piece) :=
  Color.VALUES.foldl
    (fun cache c =>
      Piece.VALUES.foldl
        (fun cache p =>
          (bitIndices (pcs c p)).foldl (fun cache i => updCache cache i (some (c, p))) cache)
        cache)
    (fun _ => none)

/-- All (color, piece) pairs in the scan order of `new_piece_cache`. -/
def colorPiecePairs : List (Color × Piece) :=
  Color.VALUES.foldr (fun c acc => (Piece.VALUES.map (fun p => (c, p))) ++ acc) []

/-- The occupant of square `i` found by scanning the twelve bitboards
(first match in scan order). -/
def scanPieceAt (pcs : Color → Piece → Nat) (i : Nat) : Option (Color × Piece) :=
  colorPiecePairs.find? (fun cp => (pcs cp.1 cp.2).testBit i)

/-- The piece-at cache agrees with the twelve bitboards on every square. -/
def CacheAgrees (b : ChessBoard) : Prop :=
  ∀ i < 64, b.piece_cache i = scanPieceAt b.pieces i

/-- The capture loop of `apply_move`: clear the bit `t` from the first board
(in `Piece::VALUES` order) of color `oc` that has it set. -/
def clearCaptured (pcs : Color → Piece → Nat) (oc : Color) (t : Nat) :
    Color → Piece → Nat :=
  match Piece.VALUES.find? (fun p => has_bit (pcs oc p) t) with
  | some p => updPieces pcs oc p (pcs oc p ^^^ idxBB t)
  | none => pcs

/-- The `match piece` block of `apply_move`: returns the updated
(pieces, castling, en-passant target, half-move clock, cache); `none` models
the `unwrap` panic of an off-board double-push shift. The boards/cache passed
in already contain the generic from/to update. -/
def applyPieceBranch (b : ChessBoard) (m : Move) (piece : Piece)
    (pieces1 : Color → Piece → Nat) (cache1 : Nat → Option (Color × Piece)) :
    Option ((Color → Piece → Nat) × (Color → Piece → Bool) × Option Nat × Nat ×
      (Nat → Option (Color × Piece))) :=
  let color := b.next_move
  match piece with
  | Piece.Rook =>
    let castling2 :=
      match color with
      | Color.White =>
        if m.fromSq = Idx.A1 then updCast b.castling_options Color.White Piece.Queen false
        else if m.fromSq = Idx.H1 then updCast b.castling_options Color.White Piece.King false
        else b.castling_options
      | Color.Black =>
        if m.fromSq = Idx.A8 then updCast b.castling_options Color.Black Piece.Queen false
        else if m.fromSq = Idx.H8 then updCast b.castling_options Color.Black Piece.King false
        else b.castling_options
    some (pieces1, castling2, none, b.half_move_clock + 1, cache1)
  | Piece.King =>
    let castling2 :=
      updCast (updCast b.castling_options color Piece.Queen false) color Piece.King false
    match color with
    | Color.White =>
      if m.fromSq = Idx.E1 then
        if m.toSq = Idx.C1 then
          some (updPieces pieces1 color Piece.Rook
                  (pieces1 color Piece.Rook ^^^ (idxBB Idx.A1 ||| idxBB Idx.D1)),
                castling2, none, b.half_move_clock + 1,
                updCache (updCache cache1 Idx.A1 none) Idx.D1 (some (color, Piece.Rook)))
        else if m.toSq = Idx.G1 then
          some (updPieces pieces1 color Piece.Rook
                  (pieces1 color Piece.Rook ^^^ (idxBB Idx.H1 ||| idxBB Idx.F1)),
                castling2, none, b.half_move_clock + 1,
                updCache (updCache cache1 Idx.H1 none) Idx.F1 (some (color, Piece.Rook)))
        else some (pieces1, castling2, none, b.half_move_clock + 1, cache1)
      else some (pieces1, castling2, none, b.half_move_clock + 1, cache1)
    | Color.Black =>
      if m.fromSq = Idx.E8 then
        if m.toSq = Idx.C8 then
          some (updPieces pieces1 color Piece.Rook
                  (pieces1 color Piece.Rook ^^^ (idxBB Idx.A8 ||| idxBB Idx.D8)),
                castling2, none, b.half_move_clock + 1,
                updCache (updCache cache1 Idx.A8 none) Idx.D8 (some (color, Piece.Rook)))
        else if m.toSq = Idx.G8 then
          some (updPieces pieces1 color Piece.Rook
                  (pieces1 color Piece.Rook ^^^ (idxBB Idx.H8 ||| idxBB Idx.F8)),
                castling2, none, b.half_move_clock + 1,
                updCache (updCache cache1 Idx.H8 none) Idx.F8 (some (color, Piece.Rook)))
        else some (pieces1, castling2, none, b.half_move_clock + 1, cache1)
      else some (pieces1, castling2, none, b.half_move_clock + 1, cache1)
  | Piece.Pawn =>
    if distance_to m.toSq m.fromSq > 10 then
      match (if color = Color.White then idx_shifted_north m.fromSq
             else idx_shifted_south m.fromSq) with
      | some i => some (pieces1, b.castling_options, some i, 0, cache1)
      | none => none
    else
      match m.promotion with
      | some promo =>
        let pp := updPieces pieces1 color Piece.Pawn
          (pieces1 color Piece.Pawn ^^^ idxBB m.toSq)
        some (updPieces pp color promo (pp color promo ^^^ idxBB m.toSq),
              b.castling_options, none, 0,
              updCache cache1 m.toSq (some (color, promo)))
      | none => some (pieces1, b.castling_options, none, 0, cache1)
  | _ => some (pieces1, b.castling_options, none, b.half_move_clock + 1, cache1)

/-- The `if is_enpassant` block of `apply_move`: clear the opposing pawn
behind the target; `none` models the `unwrap` panic of an off-board shift. -/
def applyEpBranch (b : ChessBoard) (m : Move) (is_enpassant : Bool)
    (pieces2 : Color → Piece → Nat) (half2 : Nat)
    (cache2 : Nat → Option (Color × Piece)) :
    Option ((Color → Piece → Nat) × Nat × (Nat → Option (Color × Piece))) :=
  if is_enpassant then
    match b.next_move with
    | Color.White =>
      match idx_shifted_south m.toSq with
      | some i =>
          some (updPieces pieces2 Color.Black Piece.Pawn
                  (pieces2 Color.Black Piece.Pawn ^^^ idxBB i),
                0, updCache cache2 i none)
      | none => none
    | Color.Black =>
      match idx_shifted_north m.toSq with
      | some i =>
          some (updPieces pieces2 Color.White Piece.Pawn
                  (pieces2 Color.White Piece.Pawn ^^^ idxBB i),
                0, updCache cache2 i none)
      | none => none
  else some (pieces2, half2, cache2)

/-- The `if is_capture` block of `apply_move`: clear the captured piece and
any castling right of a captured home-corner rook. -/
def applyCaptureBranch (b : ChessBoard) (m : Move) (is_capture : Bool)
    (pieces3 : Color → Piece → Nat) (castling2 : Color → Piece → Bool)
    (half3 : Nat) :
    (Color → Piece → Nat) × (Color → Piece → Bool) × Nat :=
  if is_capture then
    let pcs := clearCaptured pieces3 b.next_move.opponent m.toSq
    let c4 :=
      match b.next_move with
      | Color.White =>
        if m.toSq = Idx.A8 then updCast castling2 Color.Black Piece.Queen false
        else if m.toSq = Idx.H8 then updCast castling2 Color.Black Piece.King false
        else castling2
      | Color.Black =>
        if m.toSq = Idx.A1 then updCast castling2 Color.White Piece.Queen false
        else if m.toSq = Idx.H1 then updCast castling2 Color.White Piece.King false
        else castling2
    (pcs, c4, 0)
  else (pieces3, castling2, half3)

/-- The `is_enpassant` test of `apply_move`: the moved piece is a pawn and the
target square is the recorded en-passant target. -/
def epFlag (b : ChessBoard) (m : Move) (piece : Piece) : Bool :=
  decide (piece = Piece.Pawn) &&
    (match b.en_passant_target with
     | some i => decide (m.toSq = i)
     | none => false)

/-- `ChessBoard::apply_move`. `none` models a Rust panic: the `unwrap` of the
piece-at cache at `m.from`, or an off-board en-passant / double-push shift. -/
def apply_move (b : ChessBoard) (m : Move) : Option ChessBoard := do
  let (_, piece) ← b.piece_cache m.fromSq
  let color := b.next_move
  let is_capture : Bool := (b.opponent_pieces &&& idxBB m.toSq) != 0
  let is_enpassant : Bool := epFlag b m piece
  let pieces1 := updPieces b.pieces color piece
    (b.pieces color piece ^^^ (idxBB m.fromSq ||| idxBB m.toSq))
  let cache1 :=
    updCache (updCache b.piece_cache m.fromSq none) m.toSq (some (color, piece))
  let (pieces2, castling2, ep2, half2, cache2) ← applyPieceBranch b m piece pieces1 cache1
  let (pieces3, half3, cache3) ← applyEpBranch b m is_enpassant pieces2 half2 cache2
  let (pieces4, castling4, half4) :=
    applyCaptureBranch b m is_capture pieces3 castling2 half3
  let next1 := b.next_move.opponent
  let full1 :=
    if next1 = Color.Black then b.full_move_number + 1 else b.full_move_number
  pure { pieces := pieces4, next_move := next1, castling_options := castling4,
         en_passant_target := ep2, half_move_clock := half4,
         full_move_number := full1, piece_cache := cache3 }

/-- The piece placement of `ChessBoard::new_standard_board`. -/
def standardPieces : Color → Piece → Nat
  | Color.White, Piece.King => idxBB Idx.E1
  | Color.White, Piece.Queen => idxBB Idx.D1
  | Color.White, Piece.Bishop => idxBB Idx.C1 ||| idxBB Idx.F1
  | Color.White, Piece.Knight => idxBB Idx.B1 ||| idxBB Idx.G1
  | Color.White, Piece.Rook => idxBB Idx.A1 ||| idxBB Idx.H1
  | Color.White, Piece.Pawn =>
    from_index_array [Idx.A2, Idx.B2, Idx.C2, Idx.D2, Idx.E2, Idx.F2, Idx.G2, Idx.H2]
  | Color.Black, Piece.King => idxBB Idx.E8
  | Color.Black, Piece.Queen => idxBB Idx.D8
  | Color.Black, Piece.Bishop => idxBB Idx.C8 ||| idxBB Idx.F8
  | Color.Black, Piece.Knight => idxBB Idx.B8 ||| idxBB Idx.G8
  | Color.Black, Piece.Rook => idxBB Idx.A8 ||| idxBB Idx.H8
  | Color.Black, Piece.Pawn =>
    from_index_array [Idx.A7, Idx.B7, Idx.C7, Idx.D7, Idx.E7, Idx.F7, Idx.G7, Idx.H7]

/-- `ChessBoard::STANDARD`. -/
def ChessBoard.STANDARD : ChessBoard :=
  { pieces := standardPieces
    next_move := Color.White
    castling_options := fun _ p => decide (p = Piece.King) || decide (p = Piece.Queen)
    en_passant_target := none
    half_move_clock := 0
    full_move_number := 1
    piece_cache := new_piece_cache standardPieces }

/-- `ChessBoard::EMPTY`. -/
def ChessBoard.EMPTY : ChessBoard :=
  { pieces := fun _ _ => 0
    next_move := Color.White
    castling_options := fun _ _ => false
    en_passant_target := none
    half_move_clock := 0
    full_move_number := 1
    piece_cache := fun _ => none }


/-! ### King and knight attack tables (`generator_king.rs`, `generator_knight.rs`) -/

/-- `GeneratorKing::new`: king attack table entry for square `i`. -/
def kingAttacksCache (i : Nat) : Nat :=
  let b := idxBB i
  shifted b 1 (-1) ||| shifted b 1 0 ||| shifted b 1 1 ||| shifted b 0 (-1) |||
  shifted b 0 1 ||| shifted b (-1) (-1) ||| shifted b (-1) 0 ||| shifted b (-1) 1

/-- `GeneratorKnight::new`: knight attack table entry for square `i`. -/
def knightAttacksCache (i : Nat) : Nat :=
  let b := idxBB i
  shifted b 2 1 ||| shifted b 2 (-1) ||| shifted b 1 2 ||| shifted b (-1) 2 |||
  shifted b (-2) 1 ||| shifted b (-2) (-1) ||| shifted b (-1) (-2) ||| shifted b 1 (-2)

/-- `GeneratorPawn::new`: pawn capture table entry for (color, square). -/
def pawnAttacksCache (c : Color) (i : Nat) : Nat :=
  let b := idxBB i
  match c with
  | Color.White => shifted_northeast b ||| shifted_northwest b
  | Color.Black => shifted_southeast b ||| shifted_southwest b

/-! ### Slider tables (`generator_rook.rs`, `generator_bishop.rs`)

The `while` loops of the `const fn` table constructors are bounded (a single
bit leaves the board after at most 63 single-square shifts), so they are
embedded with a fuel argument of 64, which the loops never exhaust. -/

/-- One ray-walking loop of the table constructors: starting from `piece`,
repeatedly `step`, accumulate into `moves`, stop after the first square that
intersects `board`. -/
def walkLoop (step : Nat → Nat) (board : Nat) : Nat → Nat → Nat → Nat
  | 0, _, moves => moves
  | fuel + 1, piece, moves =>
    if piece = 0 then moves
    else
      let p2 := step piece
      let m2 := moves ||| p2
      if p2 &&& board ≠ 0 then m2
      else walkLoop step board fuel p2 m2

/-- The `while diagonal.shifted_xx() != 0` slide that finds the start of a
diagonal. -/
def slideLoop (step : Nat → Nat) : Nat → Nat → Nat
  | 0, d => d
  | fuel + 1, d => if step d ≠ 0 then slideLoop step fuel (step d) else d

/-- The reconstruction loop that spreads the 6-bit pattern `m` along a
diagonal by repeated `step` shifts. -/
def diagReconstruct (step : Nat → Nat) : Nat → Nat → Nat → Nat → Nat
  | 0, _, _, board => board
  | fuel + 1, d, m, board =>
    if d = 0 then board
    else
      let d2 := step d
      let b2 := if m &&& 1 ≠ 0 then board ||| d2 else board
      diagReconstruct step fuel d2 (m >>> 1) b2

/-- `MAGIC_FILE` (per-file rook magic multipliers). -/
def MAGIC_FILE (file : Nat) : Nat :=
  match file with
  | 0 => 0x8040201008040200
  | 1 => 0x4020100804020100
  | 2 => 0x2010080402010080
  | 3 => 0x1008040201008040
  | 4 => 0x0804020100804020
  | 5 => 0x0402010080402010
  | 6 => 0x0201008040201008
  | 7 => 0x0100804020100804
  | _ => 0

/-- `GeneratorRook` per-square rank shift (`(rank << 3) + 1`). -/
def rank_shift (i : Nat) : Nat := (idxRank i <<< 3) + 1

/-- `GeneratorRook` per-square rank mask (`126 << (rank << 3)`). -/
def rank_mask (i : Nat) : Nat := shl64 126 (idxRank i <<< 3)

/-- The six inner squares of file A (`file_a_mask`). -/
def file_a_mask : Nat :=
  from_index_array [Idx.A2, Idx.A3, Idx.A4, Idx.A5, Idx.A6, Idx.A7]

/-- `GeneratorRook` per-square file mask. -/
def file_mask (i : Nat) : Nat := shl64 file_a_mask (idxFile i)

/-- `GeneratorRook` per-square file magic. -/
def file_magic (i : Nat) : Nat := MAGIC_FILE (idxFile i)

/-- `GeneratorRook` rank attack table entry for square `i` and occupancy
pattern `n`. -/
def rank_attacks (i n : Nat) : Nat :=
  let board := shifted n 1 (Int.ofNat (idxRank i))
  let m1 := walkLoop shifted_west board 64 (idxBB i) 0
  walkLoop shifted_east board 64 (idxBB i) m1

/-- `GeneratorRook` file attack table entry for square `i` and occupancy
pattern `n`. -/
def file_attacks (i n : Nat) : Nat :=
  let board := shifted (mirrored_a1h8 (mirrored_horizontally (shifted n 1 0))) (Int.ofNat (idxFile i)) 0
  let m1 := walkLoop shifted_north board 64 (idxBB i) 0
  walkLoop shifted_south board 64 (idxBB i) m1

/-- `GeneratorRook::attacks` (magic rank/file lookup). -/
def rookAttacks (i all_pieces : Nat) : Nat :=
  let state_rank := (all_pieces &&& rank_mask i) >>> rank_shift i
  let state_file := mul64 (all_pieces &&& file_mask i) (file_magic i) >>> 57
  rank_attacks i state_rank ||| file_attacks i state_file

/-- `MAGIC_A1H8` (per-diagonal bishop magic multipliers). -/
def MAGIC_A1H8 (k : Nat) : Nat :=
  match k with
  | 2 => 0x0101010101010100
  | 3 => 0x0101010101010100
  | 4 => 0x0101010101010100
  | 5 => 0x0101010101010100
  | 6 => 0x0101010101010100
  | 7 => 0x0101010101010100
  | 8 => 0x8080808080808000
  | 9 => 0x4040404040400000
  | 10 => 0x2020202020000000
  | 11 => 0x1010101000000000
  | 12 => 0x0808080000000000
  | _ => 0

/-- `MAGIC_A8H1` (per-diagonal bishop magic multipliers). -/
def MAGIC_A8H1 (k : Nat) : Nat :=
  match k with
  | 2 => 0x0101010101010100
  | 3 => 0x0101010101010100
  | 4 => 0x0101010101010100
  | 5 => 0x0101010101010100
  | 6 => 0x0101010101010100
  | 7 => 0x0101010101010100
  | 8 => 0x0080808080808080
  | 9 => 0x0040404040404040
  | 10 => 0x0020202020202020
  | 11 => 0x0010101010101010
  | 12 => 0x0008080808080808
  | _ => 0

/-- `a1h8_index[i] = file + 7 - rank % 8`. -/
def a1h8_index (i : Nat) : Nat := idxFile i + 7 - idxRank i % 8

/-- `a8h1_index[i] = file + rank % 8`. -/
def a8h1_index (i : Nat) : Nat := idxFile i + idxRank i % 8

def a1h8_mask (i : Nat) : Nat := A1H8 (a1h8_index i) &&& not64 FRAME

def a8h1_mask (i : Nat) : Nat := A8H1 (a8h1_index i) &&& not64 FRAME

def a1h8_magic (i : Nat) : Nat := MAGIC_A1H8 (a1h8_index i)

def a8h1_magic (i : Nat) : Nat := MAGIC_A8H1 (a8h1_index i)

/-- `GeneratorBishop` A1-H8 attack table entry for square `i`, pattern `n`. -/
def a1h8_attacks (i n : Nat) : Nat :=
  let d0 := slideLoop shifted_southwest 64 (A1H8 (a1h8_index i))
  let board := diagReconstruct shifted_northeast 64 d0 n 0 &&& not64 FRAME
  let m1 := walkLoop shifted_northeast board 64 (idxBB i) 0
  walkLoop shifted_southwest board 64 (idxBB i) m1

/-- `GeneratorBishop` A8-H1 attack table entry for square `i`, pattern `n`. -/
def a8h1_attacks (i n : Nat) : Nat :=
  let d0 := slideLoop shifted_northwest 64 (A8H1 (a8h1_index i))
  let board := diagReconstruct shifted_southeast 64 d0 n 0 &&& not64 FRAME
  let m1 := walkLoop shifted_northwest board 64 (idxBB i) 0
  walkLoop shifted_southeast board 64 (idxBB i) m1

/-- `GeneratorBishop::attacks` (magic diagonal lookup). -/
def bishopAttacks (i all_pieces : Nat) : Nat :=
  let index_a1h8 := mul64 (all_pieces &&& a1h8_mask i) (a1h8_magic i) >>> 57
  let index_a8h1 := mul64 (all_pieces &&& a8h1_mask i) (a8h1_magic i) >>> 57
  a1h8_attacks i index_a1h8 ||| a8h1_attacks i index_a8h1

/-! ### Per-piece attack and move generation -/

/-- `GeneratorKing::generate_attacks`. -/
def generateAttacksKing (b : ChessBoard) (c : Color) : Nat :=
  match bitscan (b.pieces c Piece.King) with
  | some i => kingAttacksCache i
  | none => 0

/-- `GeneratorKnight::generate_attacks`. -/
def generateAttacksKnight (b : ChessBoard) (c : Color) : Nat :=
  (bitIndices (b.pieces c Piece.Knight)).foldl (fun a i => a ||| knightAttacksCache i) 0

/-- `GeneratorPawn::generate_attacks`. -/
def generateAttacksPawn (b : ChessBoard) (c : Color) : Nat :=
  let bb := b.pieces c Piece.Pawn
  match c with
  | Color.White => shifted_northeast bb ||| shifted_northwest bb
  | Color.Black => shifted_southeast bb ||| shifted_southwest bb

/-- `GeneratorRook::generate_attacks` (rooks and queens). -/
def generateAttacksRook (b : ChessBoard) (c : Color) : Nat :=
  let all_pieces := b.all_pieces
  (bitIndices (b.pieces c Piece.Rook ||| b.pieces c Piece.Queen)).foldl
    (fun a i => a ||| rookAttacks i all_pieces) 0

/-- `GeneratorBishop::generate_attacks` (bishops and queens). -/
def generateAttacksBishop (b : ChessBoard) (c : Color) : Nat :=
  let all_pieces := b.all_pieces
  (bitIndices (b.pieces c Piece.Bishop ||| b.pieces c Piece.Queen)).foldl
    (fun a i => a ||| bishopAttacks i all_pieces) 0

/-- `Generator::attacks`: union over the five piece generators. -/
def attacks (b : ChessBoard) (c : Color) : Nat :=
  generateAttacksKing b c ||| generateAttacksKnight b c ||| generateAttacksPawn b c |||
  generateAttacksRook b c ||| generateAttacksBishop b c

/-- `Generator::is_bitmask_under_attack` (short-circuit over the five
generators). -/
def is_bitmask_under_attack (b : ChessBoard) (c : Color) (mask : Nat) : Bool :=
  ((generateAttacksRook b c &&& mask) != 0) ||
  ((generateAttacksBishop b c &&& mask) != 0) ||
  ((generateAttacksKnight b c &&& mask) != 0) ||
  ((generateAttacksPawn b c &&& mask) != 0) ||
  ((generateAttacksKing b c &&& mask) != 0)

/-- `Generator::is_opponent_king_under_check`: piece-specific attack lookups
at the opposing king's square, in source order. -/
def is_opponent_king_under_check (b : ChessBoard) : Bool :=
  match b.opponent_king with
  | none => false
  | some king =>
    let pieces := b.pieces b.next_move
    let all_pieces := b.all_pieces
    if (pieces Piece.Pawn &&& pawnAttacksCache b.next_move.opponent king) != 0 then true
    else if (pieces Piece.Knight &&& knightAttacksCache king) != 0 then true
    else if (pieces Piece.King &&& kingAttacksCache king) != 0 then true
    else
      let rooks := pieces Piece.Queen ||| pieces Piece.Rook
      if (rank_attacks king ((all_pieces &&& rank_mask king) >>> rank_shift king) &&& rooks) != 0
      then true
      else if (file_attacks king
            (mul64 (all_pieces &&& file_mask king) (file_magic king) >>> 57) &&& rooks) != 0
      then true
      else
        let bishops := pieces Piece.Queen ||| pieces Piece.Bishop
        if (a8h1_attacks king
              (mul64 (all_pieces &&& a8h1_mask king) (a8h1_magic king) >>> 57) &&& bishops) != 0
        then true
        else if (a1h8_attacks king
              (mul64 (all_pieces &&& a1h8_mask king) (a1h8_magic king) >>> 57) &&& bishops) != 0
        then true
        else false

/-- `GeneratorRook::generate_moves` (rooks then queens, collected in emission
order). -/
def generate_moves_rook (b : ChessBoard) : List Move :=
  let all_pieces := b.all_pieces
  let board_available := b.board_to_attack
  [Piece.Rook, Piece.Queen].flatMap (fun p =>
    (bitIndices (b.pieces b.next_move p)).flatMap (fun i =>
      (bitIndices (rookAttacks i all_pieces &&& board_available)).map
        (fun t => { fromSq := i, toSq := t, promotion := none })))

/-- `GeneratorBishop::generate_moves` (bishops then queens). -/
def generate_moves_bishop (b : ChessBoard) : List Move :=
  let all_pieces := b.all_pieces
  let board_available := b.board_to_attack
  [Piece.Bishop, Piece.Queen].flatMap (fun p =>
    (bitIndices (b.pieces b.next_move p)).flatMap (fun i =>
      (bitIndices (bishopAttacks i all_pieces &&& board_available)).map
        (fun t => { fromSq := i, toSq := t, promotion := none })))

/-- `GeneratorKnight::generate_moves`. -/
def generate_moves_knight (b : ChessBoard) : List Move :=
  (bitIndices (b.pieces b.next_move Piece.Knight)).flatMap (fun i =>
    (bitIndices (knightAttacksCache i &&& b.board_to_attack)).map
      (fun t => { fromSq := i, toSq := t, promotion := none }))

/-- The per-pawn (attacks, move targets) pair computed inside
`GeneratorPawn::generate_moves` for the pawn on square `i`. -/
def pawnGenData (b : ChessBoard) (i : Nat) : Nat × Nat :=
  let empty_board := not64 b.all_pieces
  let bb := idxBB i
  match b.next_move with
  | Color.White =>
    let m0 := shifted_north bb &&& empty_board
    let m1 := if i < Idx.A3 then m0 ||| (shifted_north m0 &&& empty_board) else m0
    let att := shifted_northeast bb ||| shifted_northwest bb
    (att, m1 ||| (att &&& b.opponent_pieces))
  | Color.Black =>
    let m0 := shifted_south bb &&& empty_board
    let m1 := if i > Idx.H6 then m0 ||| (shifted_south m0 &&& empty_board) else m0
    let att := shifted_southeast bb ||| shifted_southwest bb
    (att, m1 ||| (att &&& b.opponent_pieces))

/-- `GeneratorPawn::generate_moves`: pushes, double pushes, captures,
promotions (B, N, Q, R order), then the en-passant capture per pawn. -/
def generate_moves_pawn (b : ChessBoard) : List Move :=
  (bitIndices (b.pieces b.next_move Piece.Pawn)).flatMap (fun i =>
    let ap := pawnGenData b i
    ((bitIndices ap.2).flatMap (fun t =>
      if t > Idx.H7 ∨ t < Idx.A2 then
        [{ fromSq := i, toSq := t, promotion := some Piece.Bishop },
         { fromSq := i, toSq := t, promotion := some Piece.Knight },
         { fromSq := i, toSq := t, promotion := some Piece.Queen },
         { fromSq := i, toSq := t, promotion := some Piece.Rook }]
      else [{ fromSq := i, toSq := t, promotion := none }])) ++
    (match b.en_passant_target with
     | some ep =>
       match bitscan (ap.1 &&& idxBB ep) with
       | some t => [{ fromSq := i, toSq := t, promotion := none }]
       | none => []
     | none => []))

def WHITE_CASTLING_OO_EMPTY : Nat := from_index_array [Idx.F1, Idx.G1]

def WHITE_CASTLING_OO_ATTACKS : Nat := from_index_array [Idx.E1, Idx.F1, Idx.G1]

def WHITE_CASTLING_OOO_EMPTY : Nat := from_index_array [Idx.B1, Idx.C1, Idx.D1]

def WHITE_CASTLING_OOO_ATTACKS : Nat := from_index_array [Idx.C1, Idx.D1, Idx.E1]

def BLACK_CASTLING_OO_EMPTY : Nat := from_index_array [Idx.F8, Idx.G8]

def BLACK_CASTLING_OO_ATTACKS : Nat := from_index_array [Idx.E8, Idx.F8, Idx.G8]

def BLACK_CASTLING_OOO_EMPTY : Nat := from_index_array [Idx.B8, Idx.C8, Idx.D8]

def BLACK_CASTLING_OOO_ATTACKS : Nat := from_index_array [Idx.C8, Idx.D8, Idx.E8]

/-- `GeneratorKing::generate_moves`: one-step king moves, then castling. -/
def generate_moves_king (b : ChessBoard) : List Move :=
  match bitscan (b.pieces b.next_move Piece.King) with
  | none => []
  | some i =>
    let normal := (bitIndices (kingAttacksCache i &&& b.board_to_attack)).map
      (fun t => ({ fromSq := i, toSq := t, promotion := none } : Move))
    let all_pieces := b.all_pieces
    let castles :=
      match b.next_move with
      | Color.White =>
        (if b.castling_options Color.White Piece.King &&
            ((all_pieces &&& WHITE_CASTLING_OO_EMPTY) == 0) &&
            !(is_bitmask_under_attack b Color.Black WHITE_CASTLING_OO_ATTACKS) then
          [({ fromSq := i, toSq := Idx.G1, promotion := none } : Move)]
        else []) ++
        (if b.castling_options Color.White Piece.Queen &&
            ((all_pieces &&& WHITE_CASTLING_OOO_EMPTY) == 0) &&
            !(is_bitmask_under_attack b Color.Black WHITE_CASTLING_OOO_ATTACKS) then
          [({ fromSq := i, toSq := Idx.C1, promotion := none } : Move)]
        else [])
      | Color.Black =>
        (if b.castling_options Color.Black Piece.King &&
            ((all_pieces &&& BLACK_CASTLING_OO_EMPTY) == 0) &&
            !(is_bitmask_under_attack b Color.White BLACK_CASTLING_OO_ATTACKS) then
          [({ fromSq := i, toSq := Idx.G8, promotion := none } : Move)]
        else []) ++
        (if b.castling_options Color.Black Piece.Queen &&
            ((all_pieces &&& BLACK_CASTLING_OOO_EMPTY) == 0) &&
            !(is_bitmask_under_attack b Color.White BLACK_CASTLING_OOO_ATTACKS) then
          [({ fromSq := i, toSq := Idx.C8, promotion := none } : Move)]
        else [])
    normal ++ castles

/-- `Generator::moves`: pseudo-legal moves in emission order
(rook, bishop, pawn, knight, king). -/
def moves (b : ChessBoard) : List Move :=
  generate_moves_rook b ++ generate_moves_bishop b ++ generate_moves_pawn b ++
  generate_moves_knight b ++ generate_moves_king b

/-- `Generator::legal_moves`: pseudo-legal moves that do not leave the mover's
king attacked. `none` propagates an `apply_move` panic. -/
def legal_moves (b : ChessBoard) : Option (List Move) :=
  (moves b).foldr
    (fun m acc => do
      let v ← acc
      let nb ← apply_move b m
      pure (if is_opponent_king_under_check nb then v else m :: v))
    (some [])


/-! ### Zobrist hashing (`zobrist.rs`)

`Zobrist::new` seeds the external `fastrand` generator with the constant 13
and draws one `u64` per key, in a fixed order (side key first, then the
2x6x64 piece keys, then the 64 en-passant keys, then the 2x6 castling keys).
The crate `fastrand` is not part of this repository, so the draw sequence is
abstracted as a parameter `g : Nat -> Nat` (`g k` is the `k`-th draw after
seeding); everything proved below holds for every such sequence, in
particular for the fixed one the seeded generator produces, so any two
instances constructed from the same seeded stream are identical. -/

def colorIdx : Color → Nat
  | Color.White => 0
  | Color.Black => 1

def pieceIdx : Piece → Nat
  | Piece.King => 0
  | Piece.Queen => 1
  | Piece.Bishop => 2
  | Piece.Knight => 3
  | Piece.Rook => 4
  | Piece.Pawn => 5

structure Zobrist where
  pieces : Color → Piece → Nat → Nat
  castling : Color → Piece → Nat
  en_passant : Nat → Nat
  side : Nat

/-- `Zobrist::new`, with the seeded `fastrand` draw sequence abstracted as
`g`. -/
def Zobrist.new (g : Nat → Nat) : Zobrist :=
  { side := g 0
    pieces := fun c p i => g (1 + (colorIdx c * 6 + pieceIdx p) * 64 + i)
    en_passant := fun i => g (769 + i)
    castling := fun c p => g (833 + colorIdx c * 6 + pieceIdx p) }

/-- `Zobrist::hash`. -/
def Zobrist.hash (z : Zobrist) (board : ChessBoard) : Nat :=
  let h1 := if board.next_move ≠ Color.White then 0 ^^^ z.side else 0
  let h2 := Color.VALUES.foldl
    (fun h c =>
      [Piece.King, Piece.Queen].foldl
        (fun h p => if board.castling_options c p then h ^^^ z.castling c p else h) h)
    h1
  let h3 :=
    match board.en_passant_target with
    | some t => h2 ^^^ z.en_passant t
    | none => h2
  Color.VALUES.foldl
    (fun h c =>
      Piece.VALUES.foldl
        (fun h p => (bitIndices (board.pieces c p)).foldl (fun h i => h ^^^ z.pieces c p i) h)
        h)
    h3

/-! ### PerfT (`perft.rs`)

The striped transposition cache is embedded as a total map from slot index to
`(hash, depth, count)` (slot locks are irrelevant to the sequential
semantics; `perft_n`'s one-thread-per-root-move computation is modelled as a
sequential fold over the root moves with the shared cache threaded through,
one valid interleaving). -/

structure PerfTCache where
  size : Nat
  cache : Nat → Nat × Nat × Nat

/-- `PerfTCache::new` (all slots `(0, 0, 0)`). -/
def PerfTCache.new (cache_size : Nat) : PerfTCache :=
  { size := cache_size, cache := fun _ => (0, 0, 0) }

/-- `PerfTCache::get`: slot `(size - 1) & hash`, a hit only when both hash and
depth match. -/
def PerfTCache.get (c : PerfTCache) (hash depth : Nat) : Option Nat :=
  let index := (c.size - 1) &&& hash
  let e := c.cache index
  if e.1 ≠ hash ∨ e.2.1 ≠ depth then none else some e.2.2

/-- `PerfTCache::set` (always overwrite). -/
def PerfTCache.set (c : PerfTCache) (hash depth count : Nat) : PerfTCache :=
  let index := (c.size - 1) &&& hash
  { size := c.size,
    cache := fun j => if j = index then (hash, depth, count) else c.cache j }

/-- `PerfT::perft1`, threading the cache state; `none` propagates an
`apply_move` panic. The depth is the first argument. -/
def perft1 (z : Zobrist) : Nat → PerfTCache → ChessBoard → Option (Nat × PerfTCache)
  | 0, cache, _ => some (1, cache)
  | d + 1, cache, board =>
    let hash := z.hash board
    match cache.get hash (d + 1) with
    | some count => some (count, cache)
    | none => do
      let atk := attacks board board.next_move.opponent
      let is_check : Bool := (atk &&& board.pieces board.next_move Piece.King) != 0
      let step := fun (acc : Option (Nat × PerfTCache)) (m : Move) => do
        let (count, cache) ← acc
        let piece := board.piece_at m.fromSq
        let is_king : Bool := decide (piece = some (board.next_move, Piece.King))
        let is_enpassant : Bool :=
          decide (piece = some (board.next_move, Piece.Pawn)) &&
            (match board.en_passant_target with
             | some i => decide (m.toSq = i)
             | none => false)
        let need_to_validate :=
          is_king || is_check || has_bit atk m.fromSq || is_enpassant
        if d = 0 then
          if !need_to_validate then pure (count + 1, cache)
          else do
            let nb ← apply_move board m
            if !(is_opponent_king_under_check nb) then pure (count + 1, cache)
            else pure (count, cache)
        else do
          let nb ← apply_move board m
          if !need_to_validate || !(is_opponent_king_under_check nb) then do
            let (c2, cache2) ← perft1 z d cache nb
            pure (count + c2, cache2)
          else pure (count, cache)
      let r ← (moves board).foldl step (some (0, cache))
      some (r.1, PerfTCache.set r.2 hash (d + 1) r.1)

/-- The `usize` expression `depth - 1` of `perft_n`: wraps around at zero
(release-build two's-complement semantics; a debug build would abort). -/
def usize_sub_one (d : Nat) : Nat := (d + UNIVERSE) % U64MOD

/-- `PerfT::perft_n`: one worker per root legal move, each computing
`perft1(apply(board, m), depth - 1)`; the results are summed. -/
def perft_n (z : Zobrist) (cache : PerfTCache) (board : ChessBoard) (depth : Nat) :
    Option Nat := do
  let lm ← legal_moves board
  let r ← lm.foldl
    (fun acc m => do
      let (sum, cache) ← acc
      let nb ← apply_move board m
      let (c, cache2) ← perft1 z (usize_sub_one depth) cache nb
      pure (sum + c, cache2))
    (some (0, cache))
  pure r.1


/-! ### Characters, squares and moves as text (`piece.rs`, `color.rs`,
`index.rs`, `move.rs`)

Strings are embedded as `List Char`; a parser returning `none` models a
returned `Err`. -/

/-- The ASCII space character. -/
def spaceChar : Char := Char.ofNat 32

/-- `u8::to_ascii_lowercase` / `char::to_ascii_lowercase`. -/
def toAsciiLower (c : Char) : Char :=
  if c.isUpper then Char.ofNat (c.toNat + 32) else c

/-- `char::to_ascii_uppercase`. -/
def toAsciiUpper (c : Char) : Char :=
  if c.isLower then Char.ofNat (c.toNat - 32) else c

/-- `Color::from_char`. -/
def Color.from_char (c : Char) : Option Color :=
  if c = 'w' ∨ c = 'W' then some Color.White
  else if c = 'b' ∨ c = 'B' then some Color.Black
  else none

/-- `Piece::from_char`: lowercase means Black; any of the six piece letters in
either case is accepted. -/
def Piece.from_char (p : Char) : Option (Color × Piece) :=
  let c := if p.isLower then Color.Black else Color.White
  let l := toAsciiLower p
  if l = 'k' then some (c, Piece.King)
  else if l = 'q' then some (c, Piece.Queen)
  else if l = 'b' then some (c, Piece.Bishop)
  else if l = 'n' then some (c, Piece.Knight)
  else if l = 'r' then some (c, Piece.Rook)
  else if l = 'p' then some (c, Piece.Pawn)
  else none

/-- `Piece::to_char`. -/
def Piece.to_char (p : Piece) (color : Color) : Char :=
  let c :=
    match p with
    | Piece.King => 'k'
    | Piece.Queen => 'q'
    | Piece.Bishop => 'b'
    | Piece.Knight => 'n'
    | Piece.Rook => 'r'
    | Piece.Pawn => 'p'
  match color with
  | Color.White => toAsciiUpper c
  | Color.Black => c

/-- `Index::from_string` (algebraic square notation, case-insensitive). -/
def Index.from_string (s : List Char) : Option Nat :=
  match s with
  | [a, b] =>
    let c1 := toAsciiLower a
    let c2 := toAsciiLower b
    if ¬ ('a' ≤ c1 ∧ c1 ≤ 'h') then none
    else if ¬ ('1' ≤ c2 ∧ c2 ≤ '8') then none
    else some ((c1.toNat - 97) + ((c2.toNat - 49) <<< 3))
  | _ => none

/-- `Display for Index` (file letter then 1-based rank number). -/
def indexNotation (i : Nat) : List Char :=
  Char.ofNat (97 + idxFile i) :: (Nat.toDigits 10 (1 + idxRank i))

/-- `Move::from_string`: from-square, to-square, optional promotion letter. -/
def Move.from_string (s : List Char) : Option Move :=
  if ¬ (4 ≤ s.length ∧ s.length ≤ 5) then none
  else
    match Index.from_string (s.take 2) with
    | none => none
    | some f =>
      match Index.from_string ((s.drop 2).take 2) with
      | none => none
      | some t =>
        if s.length = 5 then
          match s[4]? with
          | some c =>
            match Piece.from_char c with
            | some (_, piece) => some { fromSq := f, toSq := t, promotion := some piece }
            | none => none
          | none => none
        else some { fromSq := f, toSq := t, promotion := none }

/-! ### FEN (`chessboard.rs`, `from_fen` / `to_fen`) -/

/-- The helper `shift_pieces` of `from_fen`. -/
def shiftPieces (pcs : Color → Piece → Nat) (size : Nat) : Color → Piece → Nat :=
  fun c p => shl64 (pcs c p) size

/-- The piece-placement loop of `from_fen` (stops after a space, skips `/`,
shifts on digits, shifts-and-drops a piece on letters). -/
def parseFenPieces : List Char → (Color → Piece → Nat) →
    Option ((Color → Piece → Nat) × List Char)
  | [], pcs => some (pcs, [])
  | c :: rest, pcs =>
    if c = spaceChar then some (pcs, rest)
    else if c = '/' then parseFenPieces rest pcs
    else if c.isDigit then parseFenPieces rest (shiftPieces pcs (c.toNat - 48))
    else
      match Piece.from_char c with
      | some (color, piece) =>
        let sh := shiftPieces pcs 1
        parseFenPieces rest (updPieces sh color piece (sh color piece ||| idxBB Idx.A1))
      | none => none

/-- The castling-field loop of `from_fen`. Note that it only ever sets flags
to `true`; `-` is skipped without clearing anything. -/
def parseFenCastling : List Char → (Color → Piece → Bool) →
    Option ((Color → Piece → Bool) × List Char)
  | [], co => some (co, [])
  | c :: rest, co =>
    if c = spaceChar then some (co, rest)
    else if c = '-' then parseFenCastling rest co
    else
      match Piece.from_char c with
      | some (color, piece) =>
        match piece with
        | Piece.King => parseFenCastling rest (updCast co color Piece.King true)
        | Piece.Queen => parseFenCastling rest (updCast co color Piece.Queen true)
        | _ => none
      | none => none

/-- The en-passant-field loop of `from_fen`: collect non-space, non-dash
characters until a space. -/
def parseFenEp : List Char → List Char → (List Char × List Char)
  | [], acc => (acc.reverse, [])
  | c :: rest, acc =>
    if c = spaceChar then (acc.reverse, rest)
    else if c = '-' then parseFenEp rest acc
    else parseFenEp rest (c :: acc)

/-- The clock-field loops of `from_fen`: decimal digits until a space, dashes
skipped, anything else an error. -/
def parseFenNum : List Char → Nat → Option (Nat × List Char)
  | [], n => some (n, [])
  | c :: rest, n =>
    if c = spaceChar then some (n, rest)
    else if c = '-' then parseFenNum rest n
    else if c.isDigit then parseFenNum rest (n * 10 + (c.toNat - 48))
    else none

/-- `ChessBoard::from_fen`. -/
def from_fen (fen : List Char) : Option ChessBoard :=
  if fen.length < 15 then none
  else do
    let (pieces0, rest1) ← parseFenPieces fen (fun _ _ => 0)
    let pieces1 := fun c p => mirrored_horizontally (pieces0 c p)
    let (next_move, rest2) ←
      match rest1 with
      | [] => some (Color.White, ([] : List Char))
      | c :: rest =>
        match Color.from_char c with
        | some col => some (col, rest)
        | none => none
    let (castling1, rest3) ← parseFenCastling (rest2.drop 1) (fun _ _ => true)
    let (epNotation, rest4) := parseFenEp rest3 []
    let en_passant_target ←
      if epNotation.isEmpty then some (none : Option Nat)
      else
        match Index.from_string epNotation with
        | some i => some (some i)
        | none => none
    let (n1, rest5) ← parseFenNum rest4 0
    let half_move_clock := if n1 > 0 then n1 else 0
    let (n2, _) ← parseFenNum rest5 0
    let full_move_number := if n2 > 0 then n2 else 1
    let co1 :=
      if !(has_bit (pieces1 Color.White Piece.Rook) Idx.A1) then
        updCast castling1 Color.White Piece.Queen false
      else castling1
    let co2 :=
      if !(has_bit (pieces1 Color.White Piece.Rook) Idx.H1) then
        updCast co1 Color.White Piece.King false
      else co1
    let co3 :=
      if !(has_bit (pieces1 Color.Black Piece.Rook) Idx.A8) then
        updCast co2 Color.Black Piece.Queen false
      else co2
    let co4 :=
      if !(has_bit (pieces1 Color.Black Piece.Rook) Idx.H8) then
        updCast co3 Color.Black Piece.King false
      else co3
    let co5 :=
      if !(has_bit (pieces1 Color.White Piece.King) Idx.E1) then
        updCast (updCast co4 Color.White Piece.King false) Color.White Piece.Queen false
      else co4
    let co6 :=
      if !(has_bit (pieces1 Color.Black Piece.King) Idx.E8) then
        updCast (updCast co5 Color.Black Piece.King false) Color.Black Piece.Queen false
      else co5
    some { pieces := pieces1, next_move := next_move, castling_options := co6,
           en_passant_target := en_passant_target,
           half_move_clock := half_move_clock,
           full_move_number := full_move_number,
           piece_cache := new_piece_cache pieces1 }

/-- The `output_spaces` closure of `to_fen` (decimal digits of a positive
count of empty squares). -/
def outputSpaces (spaces : Nat) : List Char :=
  if spaces > 0 then Nat.toDigits 10 spaces else []

/-- `Display for Color` (`w` / `b`). -/
def colorChar : Color → Char
  | Color.White => 'w'
  | Color.Black => 'b'

/-- `ChessBoard::to_fen`. -/
def to_fen (b : ChessBoard) : List Char :=
  let piecesL := Color.VALUES.flatMap (fun c =>
    Piece.VALUES.map (fun p => (mirrored_vertically (b.pieces c p), Piece.to_char p c)))
  let st := (List.range 64).foldl
    (fun (st : List Char × Nat) i =>
      let st1 :=
        if 0 < i ∧ i % 8 = 0 then (st.1 ++ outputSpaces st.2 ++ ['/'], 0) else st
      match piecesL.find? (fun pc => has_bit pc.1 i) with
      | some pc => (st1.1 ++ outputSpaces st1.2 ++ [pc.2], 0)
      | none => (st1.1, st1.2 + 1))
    ([], 0)
  let boardPart := st.1 ++ outputSpaces st.2
  let castlingPart := Color.VALUES.flatMap (fun c =>
    (if b.castling_options c Piece.King then [Piece.to_char Piece.King c] else []) ++
    (if b.castling_options c Piece.Queen then [Piece.to_char Piece.Queen c] else []))
  let castlingPart2 := if castlingPart.isEmpty then ['-'] else castlingPart
  let epPart :=
    match b.en_passant_target with
    | some t => indexNotation t ++ [spaceChar]
    | none => ['-', spaceChar]
  boardPart ++ [spaceChar] ++ [colorChar b.next_move] ++ [spaceChar] ++
  castlingPart2 ++ [spaceChar] ++ epPart ++
  Nat.toDigits 10 b.half_move_clock ++ [spaceChar] ++ Nat.toDigits 10 b.full_move_number


/-! ### Well-formedness predicates used in theorem statements -/

/-- All twelve bitboards are 64-bit values. -/
def BoundedBoards (b : ChessBoard) : Prop := ∀ c p, b.pieces c p < U64MOD

/-- No square is occupied in two of the twelve (color, piece) boards. -/
def DisjointBoards (b : ChessBoard) : Prop :=
  ∀ (c1 : Color) (p1 : Piece) (c2 : Color) (p2 : Piece),
    ¬ (c1 = c2 ∧ p1 = p2) → b.pieces c1 p1 &&& b.pieces c2 p2 = 0

/-- The castling-rights invariant: a flag that is still true has the king and
the corresponding rook on their home squares. -/
def CastlingOK (b : ChessBoard) : Prop :=
  (b.castling_options Color.White Piece.King = true →
    (b.pieces Color.White Piece.King).testBit Idx.E1 = true ∧
    (b.pieces Color.White Piece.Rook).testBit Idx.H1 = true) ∧
  (b.castling_options Color.White Piece.Queen = true →
    (b.pieces Color.White Piece.King).testBit Idx.E1 = true ∧
    (b.pieces Color.White Piece.Rook).testBit Idx.A1 = true) ∧
  (b.castling_options Color.Black Piece.King = true →
    (b.pieces Color.Black Piece.King).testBit Idx.E8 = true ∧
    (b.pieces Color.Black Piece.Rook).testBit Idx.H8 = true) ∧
  (b.castling_options Color.Black Piece.Queen = true →
    (b.pieces Color.Black Piece.King).testBit Idx.E8 = true ∧
    (b.pieces Color.Black Piece.Rook).testBit Idx.A8 = true)

/-- The en-passant invariant: a set target names an empty square on the
double-push rank of the opponent, with the opposing pawn that just
double-pushed standing behind it. -/
def EpOK (b : ChessBoard) : Prop :=
  match b.en_passant_target with
  | none => True
  | some t =>
    match b.next_move with
    | Color.White =>
      idxRank t = 5 ∧ b.all_pieces.testBit t = false ∧
      (b.pieces Color.Black Piece.Pawn).testBit (t - 8) = true
    | Color.Black =>
      idxRank t = 2 ∧ b.all_pieces.testBit t = false ∧
      (b.pieces Color.White Piece.Pawn).testBit (t + 8) = true

/-- The conjunction of the position invariants that reachable positions
satisfy. -/
def WellFormed (b : ChessBoard) : Prop :=
  BoundedBoards b ∧ DisjointBoards b ∧ CastlingOK b ∧ EpOK b

/-! ### Home squares and castling masks per color (for the castling claim) -/

def kingHome : Color → Nat
  | Color.White => Idx.E1
  | Color.Black => Idx.E8

def ooTarget : Color → Nat
  | Color.White => Idx.G1
  | Color.Black => Idx.G8

def oooTarget : Color → Nat
  | Color.White => Idx.C1
  | Color.Black => Idx.C8

def ooEmptyMask : Color → Nat
  | Color.White => WHITE_CASTLING_OO_EMPTY
  | Color.Black => BLACK_CASTLING_OO_EMPTY

def ooAttacksMask : Color → Nat
  | Color.White => WHITE_CASTLING_OO_ATTACKS
  | Color.Black => BLACK_CASTLING_OO_ATTACKS

def oooEmptyMask : Color → Nat
  | Color.White => WHITE_CASTLING_OOO_EMPTY
  | Color.Black => BLACK_CASTLING_OOO_EMPTY

def oooAttacksMask : Color → Nat
  | Color.White => WHITE_CASTLING_OOO_ATTACKS
  | Color.Black => BLACK_CASTLING_OOO_ATTACKS

/-- A consistent position used in the cache-agreement analysis: a lone white
king on e1 with the white king-side castling flag still set and no rook. The
piece-at cache agrees with the twelve bitboards. -/
def castleNoRookBoard : ChessBoard :=
  { pieces := fun c p =>
      if c = Color.White ∧ p = Piece.King then idxBB Idx.E1 else 0
    next_move := Color.White
    castling_options := fun c p => decide (c = Color.White ∧ p = Piece.King)
    en_passant_target := none
    half_move_clock := 0
    full_move_number := 1
    piece_cache := fun i =>
      if i = Idx.E1 then some (Color.White, Piece.King) else none }

/-! ## Theorems

First, facts about the bit-level primitives; then the claim theorems. -/

theorem ctzGo_zero (f : Nat) : ctzGo f 0 = 0 := by cases f <;> simp [ctzGo]

theorem ctzGo_fuel {n f g : Nat} (hf : n ≤ f) (hg : n ≤ g) :
    ctzGo f n = ctzGo g n := by
  induction f generalizing g n with
  | zero =>
    have : n = 0 := by omega
    subst this
    rw [ctzGo_zero, ctzGo_zero]
  | succ f ih =>
    cases g with
    | zero =>
      have : n = 0 := by omega
      subst this
      rw [ctzGo_zero, ctzGo_zero]
    | succ g =>
      show ctzGo (f + 1) n = ctzGo (g + 1) n
      rw [ctzGo, ctzGo]
      by_cases h : n % 2 = 1 ∨ n = 0
      · simp [h]
      · simp only [h, if_false]
        have hn : 2 ≤ n := by omega
        have h2 : n / 2 ≤ f := by omega
        have h3 : n / 2 ≤ g := by omega
        rw [ih h2 h3]

theorem ctz_zero : ctz 0 = 0 := by rw [ctz, ctzGo_zero]

theorem ctz_odd {n : Nat} (h : n % 2 = 1) : ctz n = 0 := by
  have h0 : n ≠ 0 := by omega
  rw [ctz]
  cases n with
  | zero => omega
  | succ k => rw [ctzGo]; simp [h]

theorem ctz_even {n : Nat} (h0 : n ≠ 0) (h : n % 2 = 0) :
    ctz n = 1 + ctz (n / 2) := by
  rw [ctz, ctz]
  cases n with
  | zero => omega
  | succ k =>
    rw [ctzGo]
    have hcond : ¬((k + 1) % 2 = 1 ∨ k + 1 = 0) := by omega
    simp only [hcond, if_false]
    have h2 : (k + 1) / 2 ≤ k := by omega
    rw [ctzGo_fuel h2 (Nat.le_refl _)]

theorem bitIndicesGo_empty (f : Nat) : bitIndicesGo f 0 = [] := by
  cases f <;> simp [bitIndicesGo]

theorem bitIndicesGo_fuel {n f g : Nat} (hf : n ≤ f) (hg : n ≤ g) :
    bitIndicesGo f n = bitIndicesGo g n := by
  induction f generalizing g n with
  | zero =>
    have : n = 0 := by omega
    subst this
    rw [bitIndicesGo_empty, bitIndicesGo_empty]
  | succ f ih =>
    cases g with
    | zero =>
      have : n = 0 := by omega
      subst this
      rw [bitIndicesGo_empty, bitIndicesGo_empty]
    | succ g =>
      rw [bitIndicesGo, bitIndicesGo]
      by_cases h : n = 0
      · simp [h]
      · simp only [h, if_false]
        have hand : n &&& (n - 1) ≤ n - 1 := Nat.and_le_right
        have h2 : n &&& (n - 1) ≤ f := by omega
        have h3 : n &&& (n - 1) ≤ g := by omega
        rw [ih h2 h3]

theorem bitIndices_empty : bitIndices 0 = [] := by
  rw [bitIndices, bitIndicesGo_empty]

theorem bitIndices_pos {n : Nat} (h : n ≠ 0) :
    bitIndices n = ctz n :: bitIndices (n &&& (n - 1)) := by
  rw [bitIndices, bitIndices]
  cases n with
  | zero => omega
  | succ k =>
    rw [bitIndicesGo]
    simp only [h, if_false]
    have hand : (k + 1) &&& k ≤ k := Nat.and_le_right
    rw [bitIndicesGo_fuel (n := (k + 1) &&& (k + 1 - 1)) (by simpa using hand) (Nat.le_refl _)]

theorem testBit_ctz {n : Nat} (h : n ≠ 0) : n.testBit (ctz n) = true := by
  induction n using Nat.strong_induction_on with
  | _ n ih =>
    rcases Nat.mod_two_eq_zero_or_one n with he | ho
    · rw [ctz_even h he]
      have hh : n / 2 ≠ 0 := by
        intro hz; have := Nat.div_add_mod n 2; omega
      have := ih (n / 2) (Nat.div_lt_self (Nat.pos_of_ne_zero h) (by omega)) hh
      rw [Nat.add_comm, Nat.testBit_add_one]
      exact this
    · rw [ctz_odd ho]
      simp [Nat.testBit_zero]
      omega

theorem testBit_lt_ctz {n : Nat} (h : n ≠ 0) {j : Nat} (hj : j < ctz n) :
    n.testBit j = false := by
  induction n using Nat.strong_induction_on generalizing j with
  | _ n ih =>
    rcases Nat.mod_two_eq_zero_or_one n with he | ho
    · rw [ctz_even h he] at hj
      have hh : n / 2 ≠ 0 := by
        intro hz; have := Nat.div_add_mod n 2; omega
      cases j with
      | zero => simp [Nat.testBit_zero]; omega
      | succ j =>
        rw [Nat.testBit_add_one]
        exact ih (n / 2) (Nat.div_lt_self (Nat.pos_of_ne_zero h) (by omega)) hh (by omega)
    · rw [ctz_odd ho] at hj; omega

/-- Clearing the least set bit (`b & (b - 1)`), described bitwise. -/
theorem testBit_and_pred {n : Nat} (h : n ≠ 0) (i : Nat) :
    (n &&& (n - 1)).testBit i = (n.testBit i && decide (i ≠ ctz n)) := by
  induction n using Nat.strong_induction_on generalizing i with
  | _ n ih =>
    rcases Nat.mod_two_eq_zero_or_one n with he | ho
    · have hh : n / 2 ≠ 0 := by
        intro hz; have := Nat.div_add_mod n 2; omega
      cases i with
      | zero =>
        rw [Nat.testBit_and]
        have h1 : n.testBit 0 = false := by simp [Nat.testBit_zero]; omega
        simp [h1]
      | succ i =>
        rw [Nat.testBit_and]
        simp only [Nat.testBit_add_one]
        have hd : (n - 1) / 2 = n / 2 - 1 := by omega
        rw [hd]
        have ihh := ih (n / 2) (Nat.div_lt_self (Nat.pos_of_ne_zero h) (by omega)) hh i
        rw [Nat.testBit_and] at ihh
        rw [ihh, ctz_even h he]
        congr 1
        simp only [decide_eq_decide]
        omega
    · cases i with
      | zero =>
        rw [Nat.testBit_and]
        have h1 : (n - 1).testBit 0 = false := by
          simp [Nat.testBit_zero]; omega
        simp [h1, ctz_odd ho]
      | succ i =>
        rw [Nat.testBit_and]
        simp only [Nat.testBit_add_one]
        have hd : (n - 1) / 2 = n / 2 := by omega
        rw [hd, ctz_odd ho]
        simp

/-- Membership in the `bitpop` unfolding is exactly having the bit set. -/
theorem mem_bitIndices {n i : Nat} : i ∈ bitIndices n ↔ n.testBit i = true := by
  induction n using Nat.strong_induction_on generalizing i with
  | _ n ih =>
    by_cases h : n = 0
    · subst h; rw [bitIndices_empty]; simp
    · rw [bitIndices_pos h]
      simp only [List.mem_cons]
      have hlt : n &&& (n - 1) < n := by
        have h1 : n &&& (n - 1) ≤ n - 1 := Nat.and_le_right
        omega
      rw [ih _ hlt]
      rw [testBit_and_pred h i]
      constructor
      · rintro (rfl | hm)
        · exact testBit_ctz h
        · exact (Bool.and_elim_left hm)
      · intro ht
        by_cases hc : i = ctz n
        · exact Or.inl hc
        · right; simp [ht, hc]

theorem bitIndices_lt {n i : Nat} (hn : n < U64MOD) (hi : i ∈ bitIndices n) :
    i < 64 := by
  by_contra hge
  have : n.testBit i = false :=
    Nat.testBit_eq_false_of_lt (lt_of_lt_of_le hn (by
      have : U64MOD ≤ 2 ^ i := Nat.pow_le_pow_right (by omega) (by omega)
      exact this))
  rw [mem_bitIndices] at hi
  simp [this] at hi


/-! ### Bit-level toolkit -/

theorem land_eq_zero_iff {x y : Nat} :
    x &&& y = 0 ↔ ∀ i, ¬(x.testBit i = true ∧ y.testBit i = true) := by
  constructor
  · intro h i ⟨hx, hy⟩
    have : (x &&& y).testBit i = true := by rw [Nat.testBit_and, hx, hy]; rfl
    rw [h] at this
    simp [Nat.zero_testBit] at this
  · intro h
    apply Nat.eq_of_testBit_eq
    intro i
    rw [Nat.testBit_and, Nat.zero_testBit]
    have := h i
    rcases hx : x.testBit i <;> rcases hy : y.testBit i <;> simp_all

theorem testBit_idxBB {i j : Nat} :
    (idxBB i).testBit j = (decide (j = i) && decide (i < 64)) := by
  rw [idxBB, shl64, U64MOD]
  rw [Nat.shiftLeft_eq, one_mul]
  rw [Nat.testBit_mod_two_pow, Nat.testBit_two_pow]
  by_cases h1 : i < 64 <;> by_cases h2 : j = i <;> subst_vars <;> simp_all <;> omega

theorem has_bit_eq_testBit {b : Nat} (hb : b < U64MOD) (i : Nat) :
    has_bit b i = b.testBit i := by
  have hz : b &&& idxBB i = 0 ↔ b.testBit i = false := by
    rw [land_eq_zero_iff]
    constructor
    · intro h
      by_cases hi : i < 64
      · rcases ht : b.testBit i
        · rfl
        · exact absurd ⟨ht, by rw [testBit_idxBB]; simp [hi]⟩ (h i)
      · exact Nat.testBit_eq_false_of_lt
          (lt_of_lt_of_le hb (Nat.pow_le_pow_right (by omega) (by omega)))
    · intro h j hj
      obtain ⟨hbj, hij⟩ := hj
      rw [testBit_idxBB] at hij
      have hji : j = i := by
        have := (Bool.and_eq_true _ _).mp hij
        exact of_decide_eq_true this.1
      subst hji
      rw [h] at hbj
      exact Bool.false_ne_true hbj
  rw [has_bit]
  rcases ht : b.testBit i
  · rw [hz.mpr ht]
    rfl
  · have hne : b &&& idxBB i ≠ 0 := by
      intro hq
      rw [hz.mp hq] at ht
      exact Bool.false_ne_true ht
    simp [bne_iff_ne, hne]


theorem mem_if_singleton {c : Prop} [Decidable c] {x m : Move} :
    (m ∈ (if c then [x] else [])) ↔ c ∧ m = x := by
  split <;> simp_all

theorem mem_generate_moves_rook {b : ChessBoard} {m : Move} :
    m ∈ generate_moves_rook b ↔
      ((b.pieces b.next_move Piece.Rook).testBit m.fromSq = true ∨
       (b.pieces b.next_move Piece.Queen).testBit m.fromSq = true) ∧
      (rookAttacks m.fromSq b.all_pieces &&& b.board_to_attack).testBit m.toSq = true ∧
      m.promotion = none := by
  obtain ⟨f, t, pr⟩ := m
  simp only [generate_moves_rook, List.mem_flatMap, List.mem_cons, List.not_mem_nil,
    or_false, List.mem_map, mem_bitIndices, Move.mk.injEq]
  constructor
  · rintro ⟨p, hp, i, hi, t2, ht2, rfl, rfl, rfl⟩
    rcases hp with rfl | rfl
    · exact ⟨Or.inl hi, ht2, rfl⟩
    · exact ⟨Or.inr hi, ht2, rfl⟩
  · rintro ⟨hf, ht, rfl⟩
    rcases hf with hf | hf
    · exact ⟨Piece.Rook, Or.inl rfl, f, hf, t, ht, rfl, rfl, rfl⟩
    · exact ⟨Piece.Queen, Or.inr rfl, f, hf, t, ht, rfl, rfl, rfl⟩

theorem mem_generate_moves_bishop {b : ChessBoard} {m : Move} :
    m ∈ generate_moves_bishop b ↔
      ((b.pieces b.next_move Piece.Bishop).testBit m.fromSq = true ∨
       (b.pieces b.next_move Piece.Queen).testBit m.fromSq = true) ∧
      (bishopAttacks m.fromSq b.all_pieces &&& b.board_to_attack).testBit m.toSq = true ∧
      m.promotion = none := by
  obtain ⟨f, t, pr⟩ := m
  simp only [generate_moves_bishop, List.mem_flatMap, List.mem_cons, List.not_mem_nil,
    or_false, List.mem_map, mem_bitIndices, Move.mk.injEq]
  constructor
  · rintro ⟨p, hp, i, hi, t2, ht2, rfl, rfl, rfl⟩
    rcases hp with rfl | rfl
    · exact ⟨Or.inl hi, ht2, rfl⟩
    · exact ⟨Or.inr hi, ht2, rfl⟩
  · rintro ⟨hf, ht, rfl⟩
    rcases hf with hf | hf
    · exact ⟨Piece.Bishop, Or.inl rfl, f, hf, t, ht, rfl, rfl, rfl⟩
    · exact ⟨Piece.Queen, Or.inr rfl, f, hf, t, ht, rfl, rfl, rfl⟩

theorem mem_generate_moves_knight {b : ChessBoard} {m : Move} :
    m ∈ generate_moves_knight b ↔
      (b.pieces b.next_move Piece.Knight).testBit m.fromSq = true ∧
      (knightAttacksCache m.fromSq &&& b.board_to_attack).testBit m.toSq = true ∧
      m.promotion = none := by
  obtain ⟨f, t, pr⟩ := m
  simp only [generate_moves_knight, List.mem_flatMap, List.mem_map, mem_bitIndices,
    Move.mk.injEq]
  constructor
  · rintro ⟨i, hi, t2, ht2, rfl, rfl, rfl⟩
    exact ⟨hi, ht2, rfl⟩
  · rintro ⟨hf, ht, rfl⟩
    exact ⟨f, hf, t, ht, rfl, rfl, rfl⟩


theorem mem_generate_moves_king {b : ChessBoard} {m : Move} :
    m ∈ generate_moves_king b ↔
      ∃ i, bitscan (b.pieces b.next_move Piece.King) = some i ∧
        ((m.fromSq = i ∧
          (kingAttacksCache i &&& b.board_to_attack).testBit m.toSq = true ∧
          m.promotion = none) ∨
         (b.next_move = Color.White ∧
          b.castling_options Color.White Piece.King = true ∧
          b.all_pieces &&& WHITE_CASTLING_OO_EMPTY = 0 ∧
          is_bitmask_under_attack b Color.Black WHITE_CASTLING_OO_ATTACKS = false ∧
          m = { fromSq := i, toSq := Idx.G1, promotion := none }) ∨
         (b.next_move = Color.White ∧
          b.castling_options Color.White Piece.Queen = true ∧
          b.all_pieces &&& WHITE_CASTLING_OOO_EMPTY = 0 ∧
          is_bitmask_under_attack b Color.Black WHITE_CASTLING_OOO_ATTACKS = false ∧
          m = { fromSq := i, toSq := Idx.C1, promotion := none }) ∨
         (b.next_move = Color.Black ∧
          b.castling_options Color.Black Piece.King = true ∧
          b.all_pieces &&& BLACK_CASTLING_OO_EMPTY = 0 ∧
          is_bitmask_under_attack b Color.White BLACK_CASTLING_OO_ATTACKS = false ∧
          m = { fromSq := i, toSq := Idx.G8, promotion := none }) ∨
         (b.next_move = Color.Black ∧
          b.castling_options Color.Black Piece.Queen = true ∧
          b.all_pieces &&& BLACK_CASTLING_OOO_EMPTY = 0 ∧
          is_bitmask_under_attack b Color.White BLACK_CASTLING_OOO_ATTACKS = false ∧
          m = { fromSq := i, toSq := Idx.C8, promotion := none })) := by
  unfold generate_moves_king
  cases hks : bitscan (b.pieces b.next_move Piece.King) with
  | none => simp
  | some i =>
    cases hnm : b.next_move with
    | White =>
      simp only [List.mem_append, List.mem_map, mem_bitIndices, mem_if_singleton,
        Bool.and_eq_true, beq_iff_eq, Bool.not_eq_true, Bool.not_eq_true',
        Move.mk.injEq, Option.some.injEq]
      constructor
      · rintro ((⟨t2, ht2, rfl, rfl, rfl⟩) | h | h)
        · exact ⟨i, rfl, Or.inl ⟨rfl, ht2, rfl⟩⟩
        · exact ⟨i, rfl, Or.inr (Or.inl (by tauto))⟩
        · exact ⟨i, rfl, Or.inr (Or.inr (Or.inl (by tauto)))⟩
      · rintro ⟨i2, hi2, h⟩
        obtain rfl : i2 = i := by simpa using hi2.symm
        rcases h with ⟨h1, h2, h3⟩ | h | h | h | h
        · refine Or.inl ⟨m.toSq, h2, ?_⟩
          obtain ⟨f, t, pr⟩ := m
          simp_all
        · exact Or.inr (Or.inl (by tauto))
        · exact Or.inr (Or.inr (by tauto))
        · simp at h
        · simp at h
    | Black =>
      simp only [List.mem_append, List.mem_map, mem_bitIndices, mem_if_singleton,
        Bool.and_eq_true, beq_iff_eq, Bool.not_eq_true, Bool.not_eq_true',
        Move.mk.injEq, Option.some.injEq]
      constructor
      · rintro ((⟨t2, ht2, rfl, rfl, rfl⟩) | h | h)
        · exact ⟨i, rfl, Or.inl ⟨rfl, ht2, rfl⟩⟩
        · exact ⟨i, rfl, Or.inr (Or.inr (Or.inr (Or.inl (by tauto))))⟩
        · exact ⟨i, rfl, Or.inr (Or.inr (Or.inr (Or.inr (by tauto))))⟩
      · rintro ⟨i2, hi2, h⟩
        obtain rfl : i2 = i := by simpa using hi2.symm
        rcases h with ⟨h1, h2, h3⟩ | h | h | h | h
        · refine Or.inl ⟨m.toSq, h2, ?_⟩
          obtain ⟨f, t, pr⟩ := m
          simp_all
        · simp at h
        · simp at h
        · exact Or.inr (Or.inl (by tauto))
        · exact Or.inr (Or.inr (by tauto))

theorem lor_eq_zero_iff {x y : Nat} : x ||| y = 0 ↔ x = 0 ∧ y = 0 := by
  constructor
  · intro h
    constructor <;> apply Nat.eq_of_testBit_eq <;> intro i <;>
      [have hx := congrArg (fun v => v.testBit i) h;
       have hx := congrArg (fun v => v.testBit i) h] <;>
      simp only [Nat.testBit_or, Nat.zero_testBit, Bool.or_eq_false_iff] at hx <;>
      simp [hx.1, hx.2]
  · rintro ⟨rfl, rfl⟩
    rfl

theorem land_lor_distrib {x y m : Nat} :
    (x ||| y) &&& m = (x &&& m) ||| (y &&& m) := by
  apply Nat.eq_of_testBit_eq
  intro i
  simp only [Nat.testBit_and, Nat.testBit_or]
  cases x.testBit i <;> cases y.testBit i <;> cases m.testBit i <;> rfl

/-- `is_bitmask_under_attack` decides exactly whether the `attacks` union
meets the mask. -/
theorem is_bitmask_under_attack_eq_attacks {b : ChessBoard} {c : Color} {mask : Nat} :
    is_bitmask_under_attack b c mask = false ↔ attacks b c &&& mask = 0 := by
  rw [is_bitmask_under_attack, attacks]
  simp only [Bool.or_eq_false_iff, bne_eq_false_iff_eq]
  rw [land_lor_distrib, land_lor_distrib, land_lor_distrib, land_lor_distrib]
  rw [lor_eq_zero_iff, lor_eq_zero_iff, lor_eq_zero_iff, lor_eq_zero_iff]
  tauto

/-- Every move emitted by the pawn generator starts on a pawn square. -/
theorem pawn_moves_fromSq {b : ChessBoard} {m : Move} (hm : m ∈ generate_moves_pawn b) :
    (b.pieces b.next_move Piece.Pawn).testBit m.fromSq = true := by
  simp only [generate_moves_pawn, List.mem_flatMap, mem_bitIndices] at hm
  obtain ⟨i, hi, hmem⟩ := hm
  have hfrom : m.fromSq = i := by
    rcases List.mem_append.mp hmem with h | h
    · obtain ⟨t, ht, h2⟩ := List.mem_flatMap.mp h
      split at h2 <;> simp only [List.mem_cons, List.not_mem_nil, or_false] at h2 <;>
        rcases h2 with rfl | rfl | rfl | rfl <;> rfl
    · rcases he : b.en_passant_target with _ | ep <;> simp only [he] at h
      · simp at h
      · rcases hb : bitscan ((pawnGenData b i).1 &&& idxBB ep) with _ | t <;>
          simp only [hb] at h
        · simp at h
        · simp only [List.mem_singleton] at h
          subst h
          rfl
  rw [hfrom]
  exact hi

/-! ### Claim C2: perft at depth zero -/

/-- C2 (code bug). `perft1(pos, 0)` returns 1 for every position, cache and
hasher, as claimed; but the parallel root `perft_n` never checks for depth 0:
it computes `depth - 1` on a `usize` depth of 0 (an underflow) and sums
`perft1` over the root legal moves, so on a position with no legal moves —
the empty board here — it returns 0, not 1. -/
theorem perft_depth_zero :
    (∀ (z : Zobrist) (cache : PerfTCache) (b : ChessBoard),
      perft1 z 0 cache b = some (1, cache)) ∧
    (∀ (z : Zobrist) (cache : PerfTCache),
      perft_n z cache ChessBoard.EMPTY 0 = some 0) :=
  ⟨fun _ _ _ => rfl, fun _ _ => rfl⟩

/-! ### Claim C4: full-move number -/

/-- C4 (code bug). `apply_move` increments the full-move number exactly when
the mover was **White** (the new side to move is Black): the source tests
`next_move == Color::Black` after flipping. The spec (and FEN) require the
increment after a Black ply. Concretely, after `e2e4` from the standard
position the full-move number is already 2. -/
theorem apply_move_full_move_number :
    (∀ (b : ChessBoard) (m : Move) (b2 : ChessBoard), apply_move b m = some b2 →
      b2.full_move_number =
        if b.next_move = Color.White then b.full_move_number + 1
        else b.full_move_number) ∧
    ((apply_move ChessBoard.STANDARD
        { fromSq := Idx.E2, toSq := Idx.E4, promotion := none }).map
      (fun b2 => b2.full_move_number) = some 2) := by
  constructor
  · intro b m b2 h
    simp only [apply_move, bind, Option.bind_eq_some, Option.pure_def,
      Option.some.injEq] at h
    obtain ⟨⟨c0, piece⟩, hc, ⟨⟨p2, c2, e2, h2, ca2⟩, hbr, ⟨⟨p3, h3, ca3⟩, hep, heq⟩⟩⟩ := h
    subst heq
    cases hn : b.next_move <;> simp [Color.opponent, hn]
  · decide

/-- Witness for the universal part of `apply_move_full_move_number`: the
standard position, move `e2e4` (a White ply), concrete full-move numbers. -/
theorem apply_move_full_move_number_witness :
    ∃ b2, apply_move ChessBoard.STANDARD
        { fromSq := Idx.E2, toSq := Idx.E4, promotion := none } = some b2 ∧
      b2.full_move_number =
        (if ChessBoard.STANDARD.next_move = Color.White then
          ChessBoard.STANDARD.full_move_number + 1
        else ChessBoard.STANDARD.full_move_number) := by
  have h : ∃ b2, apply_move ChessBoard.STANDARD
      { fromSq := Idx.E2, toSq := Idx.E4, promotion := none } = some b2 := by
    rw [Option.isSome_iff_exists.symm]
    decide
  obtain ⟨b2, hb2⟩ := h
  exact ⟨b2, hb2, apply_move_full_move_number.1 _ _ _ hb2⟩

/-! ### Claim C5: FEN castling field -/

/-- C5 (code bug). `from_fen` initialises all four castling rights to `true`
and the castling-field loop only ever sets rights to `true`, so rights not
listed in the field survive whenever the home-square filter keeps them. On a
board with all kings and rooks at home and castling field `K`, all four
rights come back `true`; the spec requires exactly `{White king-side}`. -/
theorem from_fen_castling_field_ignored :
    (from_fen ("rnbqkbnr/pppppppp/8/8/8/8/PPPPPPPP/RNBQKBNR w K - 0 1".toList)).map
      (fun b => (b.castling_options Color.White Piece.King,
                 b.castling_options Color.White Piece.Queen,
                 b.castling_options Color.Black Piece.King,
                 b.castling_options Color.Black Piece.Queen)) =
    some (true, true, true, true) := by decide

/-! ### Claim C7: promotion letters in move strings -/

/-- `Piece::from_char` fails exactly when the lowercased character is not one
of the six piece letters. -/
theorem piece_from_char_none {e : Char}
    (hbad : ∀ l ∈ (['k', 'q', 'b', 'n', 'r', 'p'] : List Char), toAsciiLower e ≠ l) :
    Piece.from_char e = none := by
  have hk := hbad 'k' (by simp)
  have hq := hbad 'q' (by simp)
  have hb := hbad 'b' (by simp)
  have hn := hbad 'n' (by simp)
  have hr := hbad 'r' (by simp)
  have hp := hbad 'p' (by simp)
  simp [Piece.from_char, hk, hq, hb, hn, hr, hp]

/-- C7 counterexample: the claim says a fifth character outside `qrbn` is
rejected, but `a7a8k` parses fine, promoting to a king. -/
theorem move_from_string_accepts_king_promotion :
    Move.from_string ("a7a8k".toList) =
      some { fromSq := 48, toSq := 56, promotion := some Piece.King } := by decide

/-- C7 (corrected). `Move::from_string` defers to `Piece::from_char`, which
accepts any of the twelve piece letters `kqbnrp`/`KQBNRP` as a promotion and
rejects everything else: a length-5 string whose fifth character lowercases
to none of the six piece letters is an error, and each of the twelve letters
is accepted. -/
theorem move_from_string_promotion_letters :
    (∀ a b c d e : Char,
      (∀ l ∈ (['k', 'q', 'b', 'n', 'r', 'p'] : List Char), toAsciiLower e ≠ l) →
      Move.from_string [a, b, c, d, e] = none) ∧
    (∀ e : Char,
      e ∈ (['k', 'q', 'b', 'n', 'r', 'p', 'K', 'Q', 'B', 'N', 'R', 'P'] : List Char) →
      (Move.from_string ['a', '7', 'a', '8', e]).isSome = true) := by
  constructor
  · intro a b c d e hbad
    have hpc : Piece.from_char e = none := piece_from_char_none hbad
    simp only [Move.from_string, List.length_cons, List.length_nil]
    norm_num [hpc]
    cases Index.from_string [a, b] <;> cases Index.from_string [c, d] <;> rfl
  · intro e he
    fin_cases he <;> decide

/-- Witness for `move_from_string_promotion_letters`: `a7a8x` is rejected,
`a7a8k` accepted. -/
theorem move_from_string_promotion_letters_witness :
    Move.from_string ['a', '7', 'a', '8', 'x'] = none ∧
    (Move.from_string ['a', '7', 'a', '8', 'k']).isSome = true :=
  ⟨move_from_string_promotion_letters.1 'a' '7' 'a' '8' 'x' (by decide),
   move_from_string_promotion_letters.2 'k' (by decide)⟩

/-! ### Claim C8: Zobrist determinism -/

/-- C8 (confirmed). With the seeded `fastrand` stream abstracted as `g`, any
two `Zobrist::new` instances built from the same stream are the same value,
and `hash` is a function of the piece bitboards, side to move, castling
rights and en-passant target alone: two positions agreeing on those four
components — no matter how they were reached, clocks and cache included —
hash identically. -/
theorem zobrist_hash_state_function (g : Nat → Nat) (b1 b2 : ChessBoard)
    (hp : b1.pieces = b2.pieces) (hn : b1.next_move = b2.next_move)
    (hc : b1.castling_options = b2.castling_options)
    (he : b1.en_passant_target = b2.en_passant_target) :
    Zobrist.new g = Zobrist.new g ∧
    (Zobrist.new g).hash b1 = (Zobrist.new g).hash b2 :=
  ⟨rfl, by simp only [Zobrist.hash, hp, hn, hc, he]⟩

/-- Witness for `zobrist_hash_state_function`: the standard position hashed
against a copy with different clocks and a cleared cache. -/
theorem zobrist_hash_state_function_witness :
    (Zobrist.new (fun n => n)).hash ChessBoard.STANDARD =
    (Zobrist.new (fun n => n)).hash
      { ChessBoard.STANDARD with half_move_clock := 99, full_move_number := 42,
                                 piece_cache := fun _ => none } :=
  (zobrist_hash_state_function (fun n => n) _ _ rfl rfl rfl rfl).2

/-! ### Claim C6: FEN round trip -/

set_option maxRecDepth 10000

/-- C6 (code bug). The FEN `.. w K - 0 1` with the standard placement is
canonical: `to_fen` produces it from the standard pieces with only the White
king-side right set, and `from_fen` accepts it. But because the castling
field is effectively ignored (claim C5), parsing it yields all four rights,
and re-emitting gives `.. w KQkq - 0 1`, so `to_fen (from_fen s) ≠ s`. -/
theorem fen_round_trip_fails :
    (to_fen { pieces := standardPieces, next_move := Color.White,
              castling_options := updCast (fun _ _ => false) Color.White Piece.King true,
              en_passant_target := none, half_move_clock := 0, full_move_number := 1,
              piece_cache := new_piece_cache standardPieces }
      = "rnbqkbnr/pppppppp/8/8/8/8/PPPPPPPP/RNBQKBNR w K - 0 1".toList) ∧
    ((from_fen ("rnbqkbnr/pppppppp/8/8/8/8/PPPPPPPP/RNBQKBNR w K - 0 1".toList)).map to_fen
      = some ("rnbqkbnr/pppppppp/8/8/8/8/PPPPPPPP/RNBQKBNR w KQkq - 0 1".toList)) ∧
    ("rnbqkbnr/pppppppp/8/8/8/8/PPPPPPPP/RNBQKBNR w K - 0 1".toList ≠
      "rnbqkbnr/pppppppp/8/8/8/8/PPPPPPPP/RNBQKBNR w KQkq - 0 1".toList) :=
  ⟨by decide, by decide, by decide⟩


/-! ### Claim C3: castling emission -/

/-- C3 (confirmed). For a position whose side to move has its (unique) king
on its home square — which the castling-rights invariant guarantees whenever
a flag is true — the move generator emits the king-side castling move
`e→g` iff (i) the king-side rights flag is set, (ii) the squares between
king and rook (f, g) are empty, and (iii) no square of the king path
(e, f, g) is attacked by the opponent; and likewise for the queen-side move
`e→c` with (b, c, d) empty and (c, d, e) unattacked. In particular castling
out of, through, or into check is never emitted. -/
theorem castling_emission (b : ChessBoard)
    (hd : DisjointBoards b)
    (hk : b.pieces b.next_move Piece.King = idxBB (kingHome b.next_move)) :
    ((Move.mk (kingHome b.next_move) (ooTarget b.next_move) none ∈ moves b) ↔
      (b.castling_options b.next_move Piece.King = true ∧
       b.all_pieces &&& ooEmptyMask b.next_move = 0 ∧
       attacks b b.next_move.opponent &&& ooAttacksMask b.next_move = 0)) ∧
    ((Move.mk (kingHome b.next_move) (oooTarget b.next_move) none ∈ moves b) ↔
      (b.castling_options b.next_move Piece.Queen = true ∧
       b.all_pieces &&& oooEmptyMask b.next_move = 0 ∧
       attacks b b.next_move.opponent &&& oooAttacksMask b.next_move = 0)) := by
  have honly : ∀ mv : Move, mv.fromSq = kingHome b.next_move → mv ∈ moves b →
      mv ∈ generate_moves_king b := by
    intro mv hf hm
    have hkbit : (b.pieces b.next_move Piece.King).testBit mv.fromSq = true := by
      rw [hf, hk, testBit_idxBB]
      cases b.next_move <;> simp [kingHome, Idx.E1, Idx.E8]
    have hnotp : ∀ p : Piece, p ≠ Piece.King →
        (b.pieces b.next_move p).testBit mv.fromSq = false := by
      intro p hp
      have := hd b.next_move p b.next_move Piece.King (by simp [hp])
      rw [land_eq_zero_iff] at this
      rcases hres : (b.pieces b.next_move p).testBit mv.fromSq
      · rfl
      · exact absurd ⟨hres, hkbit⟩ (this mv.fromSq)
    rcases List.mem_append.mp hm with hm1 | hm5
    rotate_left
    · exact hm5
    rcases List.mem_append.mp hm1 with hm1 | hm4
    rotate_left
    · have hh := (mem_generate_moves_knight.mp hm4).1
      rw [hnotp Piece.Knight (by simp)] at hh
      exact absurd hh (by simp)
    rcases List.mem_append.mp hm1 with hm1 | hm3
    rotate_left
    · have hh := pawn_moves_fromSq hm3
      rw [hnotp Piece.Pawn (by simp)] at hh
      exact absurd hh (by simp)
    rcases List.mem_append.mp hm1 with hm1 | hm2
    · rcases (mem_generate_moves_rook.mp hm1).1 with hr | hq
      · rw [hnotp Piece.Rook (by simp)] at hr
        exact absurd hr (by simp)
      · rw [hnotp Piece.Queen (by simp)] at hq
        exact absurd hq (by simp)
    · rcases (mem_generate_moves_bishop.mp hm2).1 with hr | hq
      · rw [hnotp Piece.Bishop (by simp)] at hr
        exact absurd hr (by simp)
      · rw [hnotp Piece.Queen (by simp)] at hq
        exact absurd hq (by simp)
  have hkingmem : ∀ mv : Move, mv ∈ generate_moves_king b → mv ∈ moves b := by
    intro mv hmv
    simp only [moves, List.mem_append]
    tauto
  rcases hc : b.next_move with _ | _ <;>
    simp only [hc, kingHome, ooTarget, oooTarget, ooEmptyMask, oooEmptyMask,
      ooAttacksMask, oooAttacksMask] at hk honly hkingmem ⊢
  · -- White to move
    have hbs : bitscan (b.pieces b.next_move Piece.King) = some Idx.E1 := by
      rw [hc, hk]
      decide
    have hforward : ∀ tsq : Nat,
        (kingAttacksCache Idx.E1).testBit tsq = false →
        Move.mk Idx.E1 tsq none ∈ moves b →
        ∃ i, bitscan (b.pieces b.next_move Piece.King) = some i ∧ i = Idx.E1 ∧
          (Move.mk Idx.E1 tsq none ∈ generate_moves_king b) := by
      intro tsq _ hmem
      exact ⟨Idx.E1, hbs, rfl, honly _ rfl hmem⟩
    constructor
    · constructor
      · intro hmem
        obtain ⟨i, hi, hcase⟩ := mem_generate_moves_king.mp (honly _ rfl hmem)
        rw [hbs] at hi
        obtain rfl : i = Idx.E1 := by simpa using hi.symm
        rcases hcase with ⟨_, hmv, _⟩ | h | h | h | h
        · exfalso
          rw [Nat.testBit_and] at hmv
          have hked : (kingAttacksCache Idx.E1).testBit Idx.G1 = false := by decide
          simp only [hked] at hmv
          exact absurd hmv (by simp)
        · exact ⟨h.2.1, h.2.2.1, is_bitmask_under_attack_eq_attacks.mp h.2.2.2.1⟩
        · exfalso
          have := h.2.2.2.2
          simp [Idx.G1, Idx.C1] at this
        · rw [hc] at h
          exact absurd h.1 (by simp)
        · rw [hc] at h
          exact absurd h.1 (by simp)
      · rintro ⟨h1, h2, h3⟩
        apply hkingmem
        apply mem_generate_moves_king.mpr
        exact ⟨Idx.E1, hbs, Or.inr (Or.inl
          ⟨hc, h1, h2, is_bitmask_under_attack_eq_attacks.mpr h3, rfl⟩)⟩
    · constructor
      · intro hmem
        obtain ⟨i, hi, hcase⟩ := mem_generate_moves_king.mp (honly _ rfl hmem)
        rw [hbs] at hi
        obtain rfl : i = Idx.E1 := by simpa using hi.symm
        rcases hcase with ⟨_, hmv, _⟩ | h | h | h | h
        · exfalso
          rw [Nat.testBit_and] at hmv
          have hked : (kingAttacksCache Idx.E1).testBit Idx.C1 = false := by decide
          simp only [hked] at hmv
          exact absurd hmv (by simp)
        · exfalso
          have := h.2.2.2.2
          simp [Idx.G1, Idx.C1] at this
        · exact ⟨h.2.1, h.2.2.1, is_bitmask_under_attack_eq_attacks.mp h.2.2.2.1⟩
        · rw [hc] at h
          exact absurd h.1 (by simp)
        · rw [hc] at h
          exact absurd h.1 (by simp)
      · rintro ⟨h1, h2, h3⟩
        apply hkingmem
        apply mem_generate_moves_king.mpr
        exact ⟨Idx.E1, hbs, Or.inr (Or.inr (Or.inl
          ⟨hc, h1, h2, is_bitmask_under_attack_eq_attacks.mpr h3, rfl⟩))⟩
  · -- Black to move
    have hbs : bitscan (b.pieces b.next_move Piece.King) = some Idx.E8 := by
      rw [hc, hk]
      decide
    constructor
    · constructor
      · intro hmem
        obtain ⟨i, hi, hcase⟩ := mem_generate_moves_king.mp (honly _ rfl hmem)
        rw [hbs] at hi
        obtain rfl : i = Idx.E8 := by simpa using hi.symm
        rcases hcase with ⟨_, hmv, _⟩ | h | h | h | h
        · exfalso
          rw [Nat.testBit_and] at hmv
          have hked : (kingAttacksCache Idx.E8).testBit Idx.G8 = false := by decide
          simp only [hked] at hmv
          exact absurd hmv (by simp)
        · rw [hc] at h
          exact absurd h.1 (by simp)
        · rw [hc] at h
          exact absurd h.1 (by simp)
        · exact ⟨h.2.1, h.2.2.1, is_bitmask_under_attack_eq_attacks.mp h.2.2.2.1⟩
        · exfalso
          have := h.2.2.2.2
          simp [Idx.G8, Idx.C8] at this
      · rintro ⟨h1, h2, h3⟩
        apply hkingmem
        apply mem_generate_moves_king.mpr
        exact ⟨Idx.E8, hbs, Or.inr (Or.inr (Or.inr (Or.inl
          ⟨hc, h1, h2, is_bitmask_under_attack_eq_attacks.mpr h3, rfl⟩)))⟩
    · constructor
      · intro hmem
        obtain ⟨i, hi, hcase⟩ := mem_generate_moves_king.mp (honly _ rfl hmem)
        rw [hbs] at hi
        obtain rfl : i = Idx.E8 := by simpa using hi.symm
        rcases hcase with ⟨_, hmv, _⟩ | h | h | h | h
        · exfalso
          rw [Nat.testBit_and] at hmv
          have hked : (kingAttacksCache Idx.E8).testBit Idx.C8 = false := by decide
          simp only [hked] at hmv
          exact absurd hmv (by simp)
        · rw [hc] at h
          exact absurd h.1 (by simp)
        · rw [hc] at h
          exact absurd h.1 (by simp)
        · exfalso
          have := h.2.2.2.2
          simp [Idx.G8, Idx.C8] at this
        · exact ⟨h.2.1, h.2.2.1, is_bitmask_under_attack_eq_attacks.mp h.2.2.2.1⟩
      · rintro ⟨h1, h2, h3⟩
        apply hkingmem
        apply mem_generate_moves_king.mpr
        exact ⟨Idx.E8, hbs, Or.inr (Or.inr (Or.inr (Or.inr
          ⟨hc, h1, h2, is_bitmask_under_attack_eq_attacks.mpr h3, rfl⟩)))⟩

/-- Witness for `castling_emission`: the standard opening position (castling
conditions fail there because f1/g1 and b1/c1/d1 are occupied). -/
theorem castling_emission_witness :
    ((Move.mk (kingHome ChessBoard.STANDARD.next_move)
        (ooTarget ChessBoard.STANDARD.next_move) none ∈ moves ChessBoard.STANDARD) ↔
      (ChessBoard.STANDARD.castling_options ChessBoard.STANDARD.next_move Piece.King = true ∧
       ChessBoard.STANDARD.all_pieces &&& ooEmptyMask ChessBoard.STANDARD.next_move = 0 ∧
       attacks ChessBoard.STANDARD ChessBoard.STANDARD.next_move.opponent &&&
         ooAttacksMask ChessBoard.STANDARD.next_move = 0)) ∧
    ((Move.mk (kingHome ChessBoard.STANDARD.next_move)
        (oooTarget ChessBoard.STANDARD.next_move) none ∈ moves ChessBoard.STANDARD) ↔
      (ChessBoard.STANDARD.castling_options ChessBoard.STANDARD.next_move Piece.Queen = true ∧
       ChessBoard.STANDARD.all_pieces &&& oooEmptyMask ChessBoard.STANDARD.next_move = 0 ∧
       attacks ChessBoard.STANDARD ChessBoard.STANDARD.next_move.opponent &&&
         oooAttacksMask ChessBoard.STANDARD.next_move = 0)) :=
  castling_emission ChessBoard.STANDARD (by unfold DisjointBoards; decide) (by decide)


/-! ### Toolkit for the cache-agreement and totality claims (C9, C10)

Bit-level characterisations, the twelve-board scan, pointwise cache-update
steps for each shape of `apply_move` update, branch equations for
`applyPieceBranch` / `applyEpBranch` / `applyCaptureBranch`, and the membership
geometry of the pawn generator. -/
theorem testBit_shl64 {x n t : Nat} :
    (shl64 x n).testBit t = (decide (t < 64) && (decide (n ≤ t) && x.testBit (t - n))) := by
  rw [shl64, U64MOD, Nat.testBit_mod_two_pow, Nat.testBit_shiftLeft]

theorem testBit_UNIVERSE {t : Nat} : UNIVERSE.testBit t = decide (t < 64) := by
  have : UNIVERSE = 2 ^ 64 - 1 := rfl
  rw [this, Nat.testBit_two_pow_sub_one]

theorem testBit_not64 {x : Nat} (hx : x < U64MOD) {t : Nat} :
    (not64 x).testBit t = (decide (t < 64) && !x.testBit t) := by
  rw [not64, Nat.testBit_xor, testBit_UNIVERSE]
  by_cases h : t < 64
  · simp [h]
  · have hxt : x.testBit t = false :=
      Nat.testBit_eq_false_of_lt
        (lt_of_lt_of_le hx (Nat.pow_le_pow_right (by omega) (by omega)))
    simp [h, hxt]

theorem lor_lt_u64 {x y : Nat} (hx : x < U64MOD) (hy : y < U64MOD) :
    x ||| y < U64MOD := Nat.or_lt_two_pow hx hy

theorem find?_cons_ite {α : Type} (p : α → Bool) (a : α) (l : List α) :
    List.find? p (a :: l) = if p a = true then some a else List.find? p l := by
  cases h : p a <;> simp [List.find?_cons, h]

theorem updPieces_apply (pcs : Color → Piece → Nat) (c : Color) (p : Piece)
    (v : Nat) (c2 : Color) (p2 : Piece) :
    updPieces pcs c p v c2 p2 = if c2 = c ∧ p2 = p then v else pcs c2 p2 := rfl

theorem updCache_apply (cache : Nat → Option (Color × Piece)) (i : Nat)
    (v : Option (Color × Piece)) (j : Nat) :
    updCache cache i v j = if j = i then v else cache j := rfl

theorem pieces_of_eq (b : ChessBoard) (c : Color) :
    b.pieces_of c =
      b.pieces c Piece.King ||| b.pieces c Piece.Queen ||| b.pieces c Piece.Bishop |||
      b.pieces c Piece.Knight ||| b.pieces c Piece.Rook ||| b.pieces c Piece.Pawn := by
  simp [ChessBoard.pieces_of, Piece.VALUES, List.foldl]

theorem pieces_of_testBit_iff {b : ChessBoard} {c : Color} {t : Nat} :
    (b.pieces_of c).testBit t = true ↔ ∃ p, (b.pieces c p).testBit t = true := by
  rw [pieces_of_eq]
  simp only [Nat.testBit_or, Bool.or_eq_true]
  constructor
  · rintro (((((h|h)|h)|h)|h)|h)
    exacts [⟨Piece.King, h⟩, ⟨Piece.Queen, h⟩, ⟨Piece.Bishop, h⟩, ⟨Piece.Knight, h⟩,
      ⟨Piece.Rook, h⟩, ⟨Piece.Pawn, h⟩]
  · rintro ⟨p, hp⟩
    rcases p <;> simp [hp]

theorem all_pieces_testBit_iff {b : ChessBoard} {t : Nat} :
    b.all_pieces.testBit t = true ↔ ∃ c p, (b.pieces c p).testBit t = true := by
  rw [ChessBoard.all_pieces]
  simp only [Nat.testBit_or, Bool.or_eq_true, pieces_of_testBit_iff]
  constructor
  · rintro (⟨p, hp⟩ | ⟨p, hp⟩)
    exacts [⟨Color.White, p, hp⟩, ⟨Color.Black, p, hp⟩]
  · rintro ⟨c, p, hp⟩
    rcases c
    · exact Or.inl ⟨p, hp⟩
    · exact Or.inr ⟨p, hp⟩

theorem pieces_of_lt {b : ChessBoard} (hb : BoundedBoards b) (c : Color) :
    b.pieces_of c < U64MOD := by
  rw [pieces_of_eq]
  exact lor_lt_u64 (lor_lt_u64 (lor_lt_u64 (lor_lt_u64 (lor_lt_u64 (hb c _) (hb c _))
    (hb c _)) (hb c _)) (hb c _)) (hb c _)

theorem all_pieces_lt {b : ChessBoard} (hb : BoundedBoards b) : b.all_pieces < U64MOD :=
  lor_lt_u64 (pieces_of_lt hb _) (pieces_of_lt hb _)

theorem disjoint_testBit {b : ChessBoard} (hd : DisjointBoards b) {c1 : Color}
    {p1 : Piece} {c2 : Color} {p2 : Piece} (hne : ¬(c1 = c2 ∧ p1 = p2)) {t : Nat}
    (h1 : (b.pieces c1 p1).testBit t = true) : (b.pieces c2 p2).testBit t = false := by
  rcases h2 : (b.pieces c2 p2).testBit t
  · rfl
  · exact absurd ⟨h1, h2⟩ ((land_eq_zero_iff.mp (hd c1 p1 c2 p2 hne)) t)

theorem scanPieceAt_eq (pcs : Color → Piece → Nat) (i : Nat) :
    scanPieceAt pcs i =
      if (pcs Color.White Piece.King).testBit i then some (Color.White, Piece.King)
      else if (pcs Color.White Piece.Queen).testBit i then some (Color.White, Piece.Queen)
      else if (pcs Color.White Piece.Bishop).testBit i then some (Color.White, Piece.Bishop)
      else if (pcs Color.White Piece.Knight).testBit i then some (Color.White, Piece.Knight)
      else if (pcs Color.White Piece.Rook).testBit i then some (Color.White, Piece.Rook)
      else if (pcs Color.White Piece.Pawn).testBit i then some (Color.White, Piece.Pawn)
      else if (pcs Color.Black Piece.King).testBit i then some (Color.Black, Piece.King)
      else if (pcs Color.Black Piece.Queen).testBit i then some (Color.Black, Piece.Queen)
      else if (pcs Color.Black Piece.Bishop).testBit i then some (Color.Black, Piece.Bishop)
      else if (pcs Color.Black Piece.Knight).testBit i then some (Color.Black, Piece.Knight)
      else if (pcs Color.Black Piece.Rook).testBit i then some (Color.Black, Piece.Rook)
      else if (pcs Color.Black Piece.Pawn).testBit i then some (Color.Black, Piece.Pawn)
      else none := by
  rw [scanPieceAt,
    show colorPiecePairs =
      [(Color.White, Piece.King), (Color.White, Piece.Queen), (Color.White, Piece.Bishop),
       (Color.White, Piece.Knight), (Color.White, Piece.Rook), (Color.White, Piece.Pawn),
       (Color.Black, Piece.King), (Color.Black, Piece.Queen), (Color.Black, Piece.Bishop),
       (Color.Black, Piece.Knight), (Color.Black, Piece.Rook), (Color.Black, Piece.Pawn)]
      from rfl]
  simp only [find?_cons_ite, List.find?_nil]

theorem scanPieceAt_congr {pcs1 pcs0 : Color → Piece → Nat} {i : Nat}
    (h : ∀ c p, (pcs1 c p).testBit i = (pcs0 c p).testBit i) :
    scanPieceAt pcs1 i = scanPieceAt pcs0 i := by
  rw [scanPieceAt_eq, scanPieceAt_eq]
  simp only [h]

theorem scanPieceAt_none {pcs : Color → Piece → Nat} {i : Nat}
    (h : ∀ c p, (pcs c p).testBit i = false) : scanPieceAt pcs i = none := by
  rw [scanPieceAt_eq]
  simp [h]

theorem scanPieceAt_unique {pcs : Color → Piece → Nat} {i : Nat} {c : Color} {p : Piece}
    (h1 : (pcs c p).testBit i = true)
    (h2 : ∀ c2 p2, ¬(c2 = c ∧ p2 = p) → (pcs c2 p2).testBit i = false) :
    scanPieceAt pcs i = some (c, p) := by
  rw [scanPieceAt_eq]
  rcases c <;> rcases p <;> simp [h1, h2]

theorem opponent_ne (c : Color) : c.opponent ≠ c := by
  rcases c <;> simp [Color.opponent]

theorem opponent_opponent (c : Color) : c.opponent.opponent = c := by
  rcases c <;> rfl

theorem testBit_idxBB_lt {a : Nat} (ha : a < 64) (i : Nat) :
    (idxBB a).testBit i = decide (i = a) := by
  rw [testBit_idxBB]
  simp [ha]

theorem testBit_pair_or {a t : Nat} (ha : a < 64) (ht : t < 64) (i : Nat) :
    (idxBB a ||| idxBB t).testBit i = (decide (i = a) || decide (i = t)) := by
  rw [Nat.testBit_or, testBit_idxBB_lt ha, testBit_idxBB_lt ht]

theorem step_move_empty {pcs : Color → Piece → Nat}
    {cache : Nat → Option (Color × Piece)} {c : Color} {pk : Piece} {a t : Nat}
    (hagree : ∀ j, j < 64 → cache j = scanPieceAt pcs j)
    (ha : (pcs c pk).testBit a = true)
    (hao : ∀ c2 p2, ¬(c2 = c ∧ p2 = pk) → (pcs c2 p2).testBit a = false)
    (htall : ∀ c2 p2, (pcs c2 p2).testBit t = false)
    (ha64 : a < 64) (ht64 : t < 64) :
    ∀ j, j < 64 → updCache (updCache cache a none) t (some (c, pk)) j =
      scanPieceAt (updPieces pcs c pk (pcs c pk ^^^ (idxBB a ||| idxBB t))) j := by
  intro j hj
  have hat : a ≠ t := by
    intro he
    rw [he, htall c pk] at ha
    exact Bool.false_ne_true ha
  by_cases hjt : j = t
  · subst hjt
    rw [updCache_apply, if_pos rfl]
    refine (scanPieceAt_unique ?_ ?_).symm
    · rw [updPieces_apply, if_pos ⟨rfl, rfl⟩, Nat.testBit_xor, htall c pk,
        testBit_pair_or ha64 ht64]
      simp [Ne.symm hat]
    · intro c2 p2 hne
      rw [updPieces_apply, if_neg hne]
      exact htall c2 p2
  · rw [updCache_apply, if_neg hjt, updCache_apply]
    by_cases hja : j = a
    · subst hja
      rw [if_pos rfl]
      refine (scanPieceAt_none ?_).symm
      intro c2 p2
      rw [updPieces_apply]
      by_cases hcp : c2 = c ∧ p2 = pk
      · rw [if_pos hcp, Nat.testBit_xor, ha, testBit_pair_or ha64 ht64]
        simp [hat]
      · rw [if_neg hcp]
        exact hao c2 p2 hcp
    · rw [if_neg hja, hagree j hj]
      refine (scanPieceAt_congr ?_).symm
      intro c2 p2
      rw [updPieces_apply]
      by_cases hcp : c2 = c ∧ p2 = pk
      · obtain ⟨rfl, rfl⟩ := hcp
        rw [if_pos ⟨rfl, rfl⟩, Nat.testBit_xor, testBit_pair_or ha64 ht64]
        simp [hja, hjt]
      · rw [if_neg hcp]

theorem clearCaptured_eq {pcs : Color → Piece → Nat} {oc : Color} {t : Nat} {q : Piece}
    (hb : ∀ p2, pcs oc p2 < U64MOD)
    (hq : (pcs oc q).testBit t = true)
    (hqo : ∀ p2, p2 ≠ q → (pcs oc p2).testBit t = false) :
    clearCaptured pcs oc t = updPieces pcs oc q (pcs oc q ^^^ idxBB t) := by
  rw [clearCaptured]
  have hhb : ∀ p, has_bit (pcs oc p) t = (pcs oc p).testBit t :=
    fun p => has_bit_eq_testBit (hb p) t
  have hfind : Piece.VALUES.find? (fun p => has_bit (pcs oc p) t) = some q := by
    rcases q <;> simp [Piece.VALUES, find?_cons_ite, hhb, hq, hqo]
  rw [hfind]

theorem step_move_capture {pcs : Color → Piece → Nat}
    {cache : Nat → Option (Color × Piece)} {c : Color} {pk : Piece} {a t : Nat}
    {q : Piece}
    (hagree : ∀ j, j < 64 → cache j = scanPieceAt pcs j)
    (hb : ∀ c2 p2, pcs c2 p2 < U64MOD)
    (ha : (pcs c pk).testBit a = true)
    (hao : ∀ c2 p2, ¬(c2 = c ∧ p2 = pk) → (pcs c2 p2).testBit a = false)
    (hq : (pcs c.opponent q).testBit t = true)
    (hto : ∀ c2 p2, ¬(c2 = c.opponent ∧ p2 = q) → (pcs c2 p2).testBit t = false)
    (ha64 : a < 64) (ht64 : t < 64) :
    ∀ j, j < 64 → updCache (updCache cache a none) t (some (c, pk)) j =
      scanPieceAt (clearCaptured
        (updPieces pcs c pk (pcs c pk ^^^ (idxBB a ||| idxBB t))) c.opponent t) j := by
  intro j hj
  have hocc : ¬(c.opponent = c ∧ q = pk) := fun h => opponent_ne c h.1
  have hat : a ≠ t := by
    intro he
    rw [he] at ha
    rw [hto c pk (fun h => opponent_ne c h.1.symm)] at ha
    exact Bool.false_ne_true ha
  have h1 : ∀ p2, updPieces pcs c pk (pcs c pk ^^^ (idxBB a ||| idxBB t)) c.opponent p2 =
      pcs c.opponent p2 := by
    intro p2
    rw [updPieces_apply, if_neg]
    exact fun h => opponent_ne c h.1
  rw [clearCaptured_eq (fun p2 => by rw [h1]; exact hb _ _)
    (by rw [h1]; exact hq)
    (fun p2 hp2 => by
      rw [h1]
      exact hto c.opponent p2 (fun h => hp2 h.2))]
  by_cases hjt : j = t
  · subst hjt
    rw [updCache_apply, if_pos rfl]
    refine (scanPieceAt_unique ?_ ?_).symm
    · rw [updPieces_apply, if_neg (fun h => opponent_ne c h.1.symm),
        updPieces_apply, if_pos ⟨rfl, rfl⟩, Nat.testBit_xor,
        hto c pk (fun h => opponent_ne c h.1.symm), testBit_pair_or ha64 ht64]
      simp [Ne.symm hat]
    · intro c2 p2 hne
      rw [updPieces_apply]
      by_cases hoq : c2 = c.opponent ∧ p2 = q
      · obtain ⟨rfl, rfl⟩ := hoq
        rw [if_pos ⟨rfl, rfl⟩, Nat.testBit_xor, h1, hq, testBit_idxBB_lt ht64]
        simp
      · rw [if_neg hoq, updPieces_apply]
        by_cases hcp : c2 = c ∧ p2 = pk
        · obtain ⟨rfl, rfl⟩ := hcp
          exact absurd ⟨rfl, rfl⟩ hne
        · rw [if_neg hcp]
          exact hto c2 p2 hoq
  · rw [updCache_apply, if_neg hjt, updCache_apply]
    by_cases hja : j = a
    · subst hja
      rw [if_pos rfl]
      refine (scanPieceAt_none ?_).symm
      intro c2 p2
      rw [updPieces_apply]
      by_cases hoq : c2 = c.opponent ∧ p2 = q
      · obtain ⟨rfl, rfl⟩ := hoq
        rw [if_pos ⟨rfl, rfl⟩, Nat.testBit_xor, h1, hao _ _ hocc,
          testBit_idxBB_lt ht64]
        simp [hat]
      · rw [if_neg hoq, updPieces_apply]
        by_cases hcp : c2 = c ∧ p2 = pk
        · obtain ⟨rfl, rfl⟩ := hcp
          rw [if_pos ⟨rfl, rfl⟩, Nat.testBit_xor, ha, testBit_pair_or ha64 ht64]
          simp [hat]
        · rw [if_neg hcp]
          exact hao c2 p2 hcp
    · rw [if_neg hja, hagree j hj]
      refine (scanPieceAt_congr ?_).symm
      intro c2 p2
      rw [updPieces_apply]
      by_cases hoq : c2 = c.opponent ∧ p2 = q
      · obtain ⟨rfl, rfl⟩ := hoq
        rw [if_pos ⟨rfl, rfl⟩, Nat.testBit_xor, h1, testBit_idxBB_lt ht64]
        simp [hjt]
      · rw [if_neg hoq, updPieces_apply]
        by_cases hcp : c2 = c ∧ p2 = pk
        · obtain ⟨rfl, rfl⟩ := hcp
          rw [if_pos ⟨rfl, rfl⟩, Nat.testBit_xor, testBit_pair_or ha64 ht64]
          simp [hja, hjt]
        · rw [if_neg hcp]

theorem step_clear_square {pcs : Color → Piece → Nat}
    {cache : Nat → Option (Color × Piece)} {oc : Color} {s : Nat}
    (hagree : ∀ j, j < 64 → cache j = scanPieceAt pcs j)
    (hs : (pcs oc Piece.Pawn).testBit s = true)
    (hso : ∀ c2 p2, ¬(c2 = oc ∧ p2 = Piece.Pawn) → (pcs c2 p2).testBit s = false)
    (hs64 : s < 64) :
    ∀ j, j < 64 → updCache cache s none j =
      scanPieceAt (updPieces pcs oc Piece.Pawn (pcs oc Piece.Pawn ^^^ idxBB s)) j := by
  intro j hj
  rw [updCache_apply]
  by_cases hjs : j = s
  · subst hjs
    rw [if_pos rfl]
    refine (scanPieceAt_none ?_).symm
    intro c2 p2
    rw [updPieces_apply]
    by_cases hcp : c2 = oc ∧ p2 = Piece.Pawn
    · obtain ⟨rfl, rfl⟩ := hcp
      rw [if_pos ⟨rfl, rfl⟩, Nat.testBit_xor, hs, testBit_idxBB_lt hs64]
      simp
    · rw [if_neg hcp]
      exact hso c2 p2 hcp
  · rw [if_neg hjs, hagree j hj]
    refine (scanPieceAt_congr ?_).symm
    intro c2 p2
    rw [updPieces_apply]
    by_cases hcp : c2 = oc ∧ p2 = Piece.Pawn
    · obtain ⟨rfl, rfl⟩ := hcp
      rw [if_pos ⟨rfl, rfl⟩, Nat.testBit_xor, testBit_idxBB_lt hs64]
      simp [hjs]
    · rw [if_neg hcp]

theorem step_promo_empty {pcs : Color → Piece → Nat}
    {cache : Nat → Option (Color × Piece)} {c : Color} {a t : Nat} {promo : Piece}
    (hagree : ∀ j, j < 64 → cache j = scanPieceAt pcs j)
    (ha : (pcs c Piece.Pawn).testBit a = true)
    (hao : ∀ c2 p2, ¬(c2 = c ∧ p2 = Piece.Pawn) → (pcs c2 p2).testBit a = false)
    (htall : ∀ c2 p2, (pcs c2 p2).testBit t = false)
    (hpr : promo ≠ Piece.Pawn) (ha64 : a < 64) (ht64 : t < 64) :
    ∀ j, j < 64 →
      updCache (updCache (updCache cache a none) t (some (c, Piece.Pawn))) t
        (some (c, promo)) j =
      scanPieceAt
        (updPieces
          (updPieces
            (updPieces pcs c Piece.Pawn (pcs c Piece.Pawn ^^^ (idxBB a ||| idxBB t)))
            c Piece.Pawn
            (updPieces pcs c Piece.Pawn (pcs c Piece.Pawn ^^^ (idxBB a ||| idxBB t))
              c Piece.Pawn ^^^ idxBB t))
          c promo
          (updPieces
            (updPieces pcs c Piece.Pawn (pcs c Piece.Pawn ^^^ (idxBB a ||| idxBB t)))
            c Piece.Pawn
            (updPieces pcs c Piece.Pawn (pcs c Piece.Pawn ^^^ (idxBB a ||| idxBB t))
              c Piece.Pawn ^^^ idxBB t) c promo ^^^ idxBB t)) j := by
  intro j hj
  have hat : a ≠ t := by
    intro he
    rw [he, htall c Piece.Pawn] at ha
    exact Bool.false_ne_true ha
  have hread : ∀ c2 p2,
      (updPieces
        (updPieces
          (updPieces pcs c Piece.Pawn (pcs c Piece.Pawn ^^^ (idxBB a ||| idxBB t)))
          c Piece.Pawn
          (updPieces pcs c Piece.Pawn (pcs c Piece.Pawn ^^^ (idxBB a ||| idxBB t))
            c Piece.Pawn ^^^ idxBB t))
        c promo
        (updPieces
          (updPieces pcs c Piece.Pawn (pcs c Piece.Pawn ^^^ (idxBB a ||| idxBB t)))
          c Piece.Pawn
          (updPieces pcs c Piece.Pawn (pcs c Piece.Pawn ^^^ (idxBB a ||| idxBB t))
            c Piece.Pawn ^^^ idxBB t) c promo ^^^ idxBB t)) c2 p2 =
      if c2 = c ∧ p2 = promo then pcs c promo ^^^ idxBB t
      else if c2 = c ∧ p2 = Piece.Pawn then
        (pcs c Piece.Pawn ^^^ (idxBB a ||| idxBB t)) ^^^ idxBB t
      else pcs c2 p2 := by
    intro c2 p2
    by_cases hpq : c2 = c ∧ p2 = promo
    · rw [updPieces_apply, if_pos hpq, if_pos hpq, updPieces_apply,
        if_neg (fun h => hpr h.2), updPieces_apply, if_neg (fun h => hpr h.2)]
    · rw [updPieces_apply, if_neg hpq, if_neg hpq]
      by_cases hcp : c2 = c ∧ p2 = Piece.Pawn
      · rw [updPieces_apply, if_pos hcp, if_pos hcp, updPieces_apply, if_pos ⟨rfl, rfl⟩]
      · rw [updPieces_apply, if_neg hcp, if_neg hcp, updPieces_apply, if_neg hcp]
  by_cases hjt : j = t
  · subst hjt
    rw [updCache_apply, if_pos rfl]
    refine (scanPieceAt_unique ?_ ?_).symm
    · rw [hread, if_pos ⟨rfl, rfl⟩, Nat.testBit_xor,
        htall c promo, testBit_idxBB_lt ht64]
      simp
    · intro c2 p2 hne
      rw [hread]
      by_cases hcp : c2 = c ∧ p2 = Piece.Pawn
      · rw [if_neg, if_pos hcp, Nat.testBit_xor, Nat.testBit_xor, htall c Piece.Pawn,
          testBit_pair_or ha64 ht64, testBit_idxBB_lt ht64]
        · obtain ⟨rfl, rfl⟩ := hcp
          simp [Ne.symm hat]
        · intro hq2
          exact hne ⟨hcp.1, hq2.2⟩
      · rw [if_neg (fun h => hne h), if_neg hcp]
        exact htall c2 p2
  · rw [updCache_apply, if_neg hjt, updCache_apply, if_neg hjt, updCache_apply]
    by_cases hja : j = a
    · subst hja
      rw [if_pos rfl]
      refine (scanPieceAt_none ?_).symm
      intro c2 p2
      rw [hread]
      by_cases hpq : c2 = c ∧ p2 = promo
      · rw [if_pos hpq, Nat.testBit_xor, testBit_idxBB_lt ht64,
          hao c promo (fun h => hpr h.2)]
        simp [hat]
      · rw [if_neg hpq]
        by_cases hcp : c2 = c ∧ p2 = Piece.Pawn
        · rw [if_pos hcp, Nat.testBit_xor, Nat.testBit_xor, ha,
            testBit_pair_or ha64 ht64, testBit_idxBB_lt ht64]
          simp [hat]
        · rw [if_neg hcp]
          exact hao c2 p2 hcp
    · rw [if_neg hja, hagree j hj]
      refine (scanPieceAt_congr ?_).symm
      intro c2 p2
      rw [hread]
      by_cases hpq : c2 = c ∧ p2 = promo
      · obtain ⟨rfl, rfl⟩ := hpq
        rw [if_pos ⟨rfl, rfl⟩, Nat.testBit_xor, testBit_idxBB_lt ht64]
        simp [hjt]
      · rw [if_neg hpq]
        by_cases hcp : c2 = c ∧ p2 = Piece.Pawn
        · obtain ⟨rfl, rfl⟩ := hcp
          rw [if_pos ⟨rfl, rfl⟩, Nat.testBit_xor, Nat.testBit_xor,
            testBit_pair_or ha64 ht64, testBit_idxBB_lt ht64]
          simp [hja, hjt]
        · rw [if_neg hcp]

theorem step_promo_capture {pcs : Color → Piece → Nat}
    {cache : Nat → Option (Color × Piece)} {c : Color} {a t : Nat} {promo q : Piece}
    (hagree : ∀ j, j < 64 → cache j = scanPieceAt pcs j)
    (hb : ∀ c2 p2, pcs c2 p2 < U64MOD)
    (ha : (pcs c Piece.Pawn).testBit a = true)
    (hao : ∀ c2 p2, ¬(c2 = c ∧ p2 = Piece.Pawn) → (pcs c2 p2).testBit a = false)
    (hq : (pcs c.opponent q).testBit t = true)
    (hto : ∀ c2 p2, ¬(c2 = c.opponent ∧ p2 = q) → (pcs c2 p2).testBit t = false)
    (hpr : promo ≠ Piece.Pawn) (ha64 : a < 64) (ht64 : t < 64) :
    ∀ j, j < 64 →
      updCache (updCache (updCache cache a none) t (some (c, Piece.Pawn))) t
        (some (c, promo)) j =
      scanPieceAt (clearCaptured
        (updPieces
          (updPieces
            (updPieces pcs c Piece.Pawn (pcs c Piece.Pawn ^^^ (idxBB a ||| idxBB t)))
            c Piece.Pawn
            (updPieces pcs c Piece.Pawn (pcs c Piece.Pawn ^^^ (idxBB a ||| idxBB t))
              c Piece.Pawn ^^^ idxBB t))
          c promo
          (updPieces
            (updPieces pcs c Piece.Pawn (pcs c Piece.Pawn ^^^ (idxBB a ||| idxBB t)))
            c Piece.Pawn
            (updPieces pcs c Piece.Pawn (pcs c Piece.Pawn ^^^ (idxBB a ||| idxBB t))
              c Piece.Pawn ^^^ idxBB t) c promo ^^^ idxBB t)) c.opponent t) j := by
  intro j hj
  have hat : a ≠ t := by
    intro he
    rw [he, hto c Piece.Pawn (fun h => opponent_ne c h.1.symm)] at ha
    exact Bool.false_ne_true ha
  have hread : ∀ c2 p2,
      (updPieces
        (updPieces
          (updPieces pcs c Piece.Pawn (pcs c Piece.Pawn ^^^ (idxBB a ||| idxBB t)))
          c Piece.Pawn
          (updPieces pcs c Piece.Pawn (pcs c Piece.Pawn ^^^ (idxBB a ||| idxBB t))
            c Piece.Pawn ^^^ idxBB t))
        c promo
        (updPieces
          (updPieces pcs c Piece.Pawn (pcs c Piece.Pawn ^^^ (idxBB a ||| idxBB t)))
          c Piece.Pawn
          (updPieces pcs c Piece.Pawn (pcs c Piece.Pawn ^^^ (idxBB a ||| idxBB t))
            c Piece.Pawn ^^^ idxBB t) c promo ^^^ idxBB t)) c2 p2 =
      if c2 = c ∧ p2 = promo then pcs c promo ^^^ idxBB t
      else if c2 = c ∧ p2 = Piece.Pawn then
        (pcs c Piece.Pawn ^^^ (idxBB a ||| idxBB t)) ^^^ idxBB t
      else pcs c2 p2 := by
    intro c2 p2
    by_cases hpq : c2 = c ∧ p2 = promo
    · rw [updPieces_apply, if_pos hpq, if_pos hpq, updPieces_apply,
        if_neg (fun h => hpr h.2), updPieces_apply, if_neg (fun h => hpr h.2)]
    · rw [updPieces_apply, if_neg hpq, if_neg hpq]
      by_cases hcp : c2 = c ∧ p2 = Piece.Pawn
      · rw [updPieces_apply, if_pos hcp, if_pos hcp, updPieces_apply, if_pos ⟨rfl, rfl⟩]
      · rw [updPieces_apply, if_neg hcp, if_neg hcp, updPieces_apply, if_neg hcp]
  rw [clearCaptured_eq
    (fun p2 => by
      rw [hread, if_neg (fun h => opponent_ne c h.1), if_neg (fun h => opponent_ne c h.1)]
      exact hb _ _)
    (by
      rw [hread, if_neg (fun h => opponent_ne c h.1), if_neg (fun h => opponent_ne c h.1)]
      exact hq)
    (fun p2 hp2 => by
      rw [hread, if_neg (fun h => opponent_ne c h.1), if_neg (fun h => opponent_ne c h.1)]
      exact hto c.opponent p2 (fun h => hp2 h.2))]
  have hread2 : ∀ c2 p2,
      (updPieces
        (updPieces
          (updPieces
            (updPieces pcs c Piece.Pawn (pcs c Piece.Pawn ^^^ (idxBB a ||| idxBB t)))
            c Piece.Pawn
            (updPieces pcs c Piece.Pawn (pcs c Piece.Pawn ^^^ (idxBB a ||| idxBB t))
              c Piece.Pawn ^^^ idxBB t))
          c promo
          (updPieces
            (updPieces pcs c Piece.Pawn (pcs c Piece.Pawn ^^^ (idxBB a ||| idxBB t)))
            c Piece.Pawn
            (updPieces pcs c Piece.Pawn (pcs c Piece.Pawn ^^^ (idxBB a ||| idxBB t))
              c Piece.Pawn ^^^ idxBB t) c promo ^^^ idxBB t))
        c.opponent q
        ((updPieces
          (updPieces
            (updPieces pcs c Piece.Pawn (pcs c Piece.Pawn ^^^ (idxBB a ||| idxBB t)))
            c Piece.Pawn
            (updPieces pcs c Piece.Pawn (pcs c Piece.Pawn ^^^ (idxBB a ||| idxBB t))
              c Piece.Pawn ^^^ idxBB t))
          c promo
          (updPieces
            (updPieces pcs c Piece.Pawn (pcs c Piece.Pawn ^^^ (idxBB a ||| idxBB t)))
            c Piece.Pawn
            (updPieces pcs c Piece.Pawn (pcs c Piece.Pawn ^^^ (idxBB a ||| idxBB t))
              c Piece.Pawn ^^^ idxBB t) c promo ^^^ idxBB t)) c.opponent q ^^^ idxBB t)) c2 p2 =
      if c2 = c.opponent ∧ p2 = q then pcs c.opponent q ^^^ idxBB t
      else if c2 = c ∧ p2 = promo then pcs c promo ^^^ idxBB t
      else if c2 = c ∧ p2 = Piece.Pawn then
        (pcs c Piece.Pawn ^^^ (idxBB a ||| idxBB t)) ^^^ idxBB t
      else pcs c2 p2 := by
    intro c2 p2
    by_cases hoq : c2 = c.opponent ∧ p2 = q
    · rw [updPieces_apply, if_pos hoq, if_pos hoq, hread,
        if_neg (fun h => opponent_ne c h.1), if_neg (fun h => opponent_ne c h.1)]
    · rw [updPieces_apply, if_neg hoq, if_neg hoq, hread]
  by_cases hjt : j = t
  · subst hjt
    rw [updCache_apply, if_pos rfl]
    refine (scanPieceAt_unique ?_ ?_).symm
    · rw [hread2, if_neg (fun h => opponent_ne c h.1.symm), if_pos ⟨rfl, rfl⟩,
        Nat.testBit_xor, hto c promo (fun h => opponent_ne c h.1.symm),
        testBit_idxBB_lt ht64]
      simp
    · intro c2 p2 hne
      rw [hread2]
      by_cases hoq : c2 = c.opponent ∧ p2 = q
      · rw [if_pos hoq]
        obtain ⟨rfl, rfl⟩ := hoq
        rw [Nat.testBit_xor, hq, testBit_idxBB_lt ht64]
        simp
      · rw [if_neg hoq]
        by_cases hcp : c2 = c ∧ p2 = Piece.Pawn
        · rw [if_neg (fun h => hne ⟨hcp.1, h.2⟩), if_pos hcp, Nat.testBit_xor,
            Nat.testBit_xor, hto c Piece.Pawn (fun h => opponent_ne c h.1.symm),
            testBit_pair_or ha64 ht64, testBit_idxBB_lt ht64]
          simp [Ne.symm hat]
        · rw [if_neg (fun h => hne h), if_neg hcp]
          exact hto c2 p2 hoq
  · rw [updCache_apply, if_neg hjt, updCache_apply, if_neg hjt, updCache_apply]
    by_cases hja : j = a
    · subst hja
      rw [if_pos rfl]
      refine (scanPieceAt_none ?_).symm
      intro c2 p2
      rw [hread2]
      by_cases hoq : c2 = c.opponent ∧ p2 = q
      · rw [if_pos hoq]
        obtain ⟨rfl, rfl⟩ := hoq
        rw [Nat.testBit_xor, hao _ _ (fun h => opponent_ne c h.1), testBit_idxBB_lt ht64]
        simp [hat]
      · rw [if_neg hoq]
        by_cases hpq : c2 = c ∧ p2 = promo
        · rw [if_pos hpq, Nat.testBit_xor, testBit_idxBB_lt ht64,
            hao c promo (fun h => hpr h.2)]
          simp [hat]
        · rw [if_neg hpq]
          by_cases hcp : c2 = c ∧ p2 = Piece.Pawn
          · rw [if_pos hcp, Nat.testBit_xor, Nat.testBit_xor, ha,
              testBit_pair_or ha64 ht64, testBit_idxBB_lt ht64]
            simp [hat]
          · rw [if_neg hcp]
            exact hao c2 p2 hcp
    · rw [if_neg hja, hagree j hj]
      refine (scanPieceAt_congr ?_).symm
      intro c2 p2
      rw [hread2]
      by_cases hoq : c2 = c.opponent ∧ p2 = q
      · rw [if_pos hoq]
        obtain ⟨rfl, rfl⟩ := hoq
        rw [Nat.testBit_xor, testBit_idxBB_lt ht64]
        simp [hjt]
      · rw [if_neg hoq]
        by_cases hpq : c2 = c ∧ p2 = promo
        · rw [if_pos hpq]
          obtain ⟨rfl, rfl⟩ := hpq
          rw [Nat.testBit_xor, testBit_idxBB_lt ht64]
          simp [hjt]
        · rw [if_neg hpq]
          by_cases hcp : c2 = c ∧ p2 = Piece.Pawn
          · rw [if_pos hcp]
            obtain ⟨rfl, rfl⟩ := hcp
            rw [Nat.testBit_xor, Nat.testBit_xor, testBit_pair_or ha64 ht64,
              testBit_idxBB_lt ht64]
            simp [hja, hjt]
          · rw [if_neg hcp]

theorem testBit_true_lt_64 {x i : Nat} (hx : x < U64MOD) (h : x.testBit i = true) :
    i < 64 := by
  by_contra hge
  rw [Nat.testBit_eq_false_of_lt
    (lt_of_lt_of_le hx (Nat.pow_le_pow_right (by omega) (by omega)))] at h
  exact Bool.false_ne_true h

theorem pieces_false_of_pieces_of_false {b : ChessBoard} {c : Color} {t : Nat}
    (h : (b.pieces_of c).testBit t = false) (p : Piece) :
    (b.pieces c p).testBit t = false := by
  rcases hb : (b.pieces c p).testBit t
  · rfl
  · rw [pieces_of_testBit_iff.mpr ⟨p, hb⟩] at h
    exact absurd h (by simp)

theorem pieces_false_of_all_false {b : ChessBoard} {t : Nat}
    (h : b.all_pieces.testBit t = false) (c : Color) (p : Piece) :
    (b.pieces c p).testBit t = false := by
  rcases hb : (b.pieces c p).testBit t
  · rfl
  · rw [all_pieces_testBit_iff.mpr ⟨c, p, hb⟩] at h
    exact absurd h (by simp)

theorem all_true_of_piece {b : ChessBoard} {c : Color} {p : Piece} {t : Nat}
    (h : (b.pieces c p).testBit t = true) : b.all_pieces.testBit t = true :=
  all_pieces_testBit_iff.mpr ⟨c, p, h⟩

theorem my_true_of_piece {b : ChessBoard} {p : Piece} {t : Nat}
    (h : (b.pieces b.next_move p).testBit t = true) : b.my_pieces.testBit t = true :=
  pieces_of_testBit_iff.mpr ⟨p, h⟩

theorem cache_at_piece {b : ChessBoard} (hd : DisjointBoards b) (hca : CacheAgrees b)
    {c2 : Color} {pk : Piece} {i : Nat}
    (hf : (b.pieces c2 pk).testBit i = true) (hi : i < 64) :
    b.piece_cache i = some (c2, pk) := by
  rw [hca i hi]
  exact scanPieceAt_unique hf
    (fun c3 p3 hne => disjoint_testBit hd (fun h => hne ⟨h.1.symm, h.2.symm⟩) hf)

theorem board_to_attack_testBit {b : ChessBoard} (hbd : BoundedBoards b) {t : Nat}
    (h : b.board_to_attack.testBit t = true) :
    t < 64 ∧ b.my_pieces.testBit t = false := by
  rw [ChessBoard.board_to_attack, ChessBoard.my_pieces,
    testBit_not64 (pieces_of_lt hbd b.next_move)] at h
  rcases Bool.and_eq_true_iff.mp h with ⟨h1, h2⟩
  refine ⟨of_decide_eq_true h1, ?_⟩
  rcases hx : b.my_pieces.testBit t
  · rfl
  · rw [ChessBoard.my_pieces] at hx
    rw [hx] at h2
    exact absurd h2 (by simp)

theorem capture_flag {x t : Nat} (hx : x < U64MOD) :
    ((x &&& idxBB t) != 0) = x.testBit t :=
  has_bit_eq_testBit hx t

theorem bitscan_and_idxBB {x e t : Nat}
    (h : bitscan (x &&& idxBB e) = some t) : t = e ∧ x.testBit e = true := by
  rw [bitscan] at h
  split at h
  · exact absurd h (by simp)
  · rename_i hne
    have hct : (x &&& idxBB e).testBit (ctz (x &&& idxBB e)) = true := testBit_ctz hne
    rw [Nat.testBit_and, testBit_idxBB] at hct
    rcases Bool.and_eq_true_iff.mp hct with ⟨hx1, hx2⟩
    rcases Bool.and_eq_true_iff.mp hx2 with ⟨hx3, -⟩
    have ht : t = ctz (x &&& idxBB e) := by
      have := h
      simp only [Option.some.injEq] at this
      exact this.symm
    have he2 : ctz (x &&& idxBB e) = e := of_decide_eq_true hx3
    constructor
    · rw [ht, he2]
    · rw [he2] at hx1
      exact hx1

theorem FILE_A_lt : FILE_A < U64MOD := by decide

theorem FILE_H_lt : FILE_H < U64MOD := by decide

theorem FILE_A_testBit (t : Nat) :
    FILE_A.testBit t = (decide (t < 64) && decide (t % 8 = 0)) := by
  by_cases h : t < 64
  · have hlt : ∀ t2, t2 < 64 → FILE_A.testBit t2 = decide (t2 % 8 = 0) := by decide
    rw [hlt t h]
    simp [h]
  · rw [Nat.testBit_eq_false_of_lt
      (lt_of_lt_of_le FILE_A_lt (Nat.pow_le_pow_right (by omega) (by omega)))]
    simp [h]

theorem FILE_H_testBit (t : Nat) :
    FILE_H.testBit t = (decide (t < 64) && decide (t % 8 = 7)) := by
  by_cases h : t < 64
  · have hlt : ∀ t2, t2 < 64 → FILE_H.testBit t2 = decide (t2 % 8 = 7) := by decide
    rw [hlt t h]
    simp [h]
  · rw [Nat.testBit_eq_false_of_lt
      (lt_of_lt_of_le FILE_H_lt (Nat.pow_le_pow_right (by omega) (by omega)))]
    simp [h]

theorem mem_generate_moves_pawn {b : ChessBoard} {m : Move} :
    m ∈ generate_moves_pawn b ↔
      ∃ i, (b.pieces b.next_move Piece.Pawn).testBit i = true ∧
        ((∃ t, (pawnGenData b i).2.testBit t = true ∧
          (((t > Idx.H7 ∨ t < Idx.A2) ∧
            (m = Move.mk i t (some Piece.Bishop) ∨ m = Move.mk i t (some Piece.Knight) ∨
             m = Move.mk i t (some Piece.Queen) ∨ m = Move.mk i t (some Piece.Rook))) ∨
           (¬(t > Idx.H7 ∨ t < Idx.A2) ∧ m = Move.mk i t none))) ∨
         (∃ ep t, b.en_passant_target = some ep ∧
           bitscan ((pawnGenData b i).1 &&& idxBB ep) = some t ∧ m = Move.mk i t none)) := by
  simp only [generate_moves_pawn, List.mem_flatMap, mem_bitIndices, List.mem_append]
  constructor
  · rintro ⟨i, hi, hmem⟩
    refine ⟨i, hi, ?_⟩
    rcases hmem with h | h
    · obtain ⟨t, ht, h2⟩ := h
      left
      refine ⟨t, ht, ?_⟩
      split at h2
      · rename_i hcond
        simp only [List.mem_cons, List.not_mem_nil, or_false] at h2
        exact Or.inl ⟨hcond, by tauto⟩
      · rename_i hcond
        simp only [List.mem_cons, List.not_mem_nil, or_false] at h2
        exact Or.inr ⟨hcond, by tauto⟩
    · rcases he : b.en_passant_target with _ | ep <;> simp only [he] at h
      · simp at h
      · rcases hbs : bitscan ((pawnGenData b i).1 &&& idxBB ep) with _ | t <;>
          simp only [hbs] at h
        · simp at h
        · simp only [List.mem_singleton] at h
          exact Or.inr ⟨ep, t, rfl, hbs, h⟩
  · rintro ⟨i, hi, h⟩
    refine ⟨i, hi, ?_⟩
    rcases h with ⟨t, ht, hcase⟩ | ⟨ep, t, hep2, hbs, rfl⟩
    · left
      refine ⟨t, ht, ?_⟩
      rcases hcase with ⟨hcond, hm4⟩ | ⟨hcond, rfl⟩
      · rw [if_pos hcond]
        simp only [List.mem_cons, List.not_mem_nil, or_false]
        tauto
      · rw [if_neg hcond]
        simp
    · right
      simp only [hep2, hbs]
      simp

theorem pawnGenData_white_moves {b : ChessBoard} (hbd : BoundedBoards b)
    (hc : b.next_move = Color.White) {i t : Nat}
    (ht : (pawnGenData b i).2.testBit t = true) :
    t < 64 ∧
      ((t = i + 8 ∧ b.all_pieces.testBit t = false) ∨
       (i < 16 ∧ t = i + 16 ∧ b.all_pieces.testBit (i + 8) = false ∧
         b.all_pieces.testBit t = false) ∨
       ((t = i + 9 ∧ t % 8 ≠ 0 ∨ t = i + 7 ∧ t % 8 ≠ 7) ∧
         b.opponent_pieces.testBit t = true)) := by
  simp only [pawnGenData, hc] at ht
  by_cases h16 : i < Idx.A3
  · rw [if_pos h16] at ht
    have h16n : i < 16 := h16
    simp only [shifted_north, shifted_northeast, shifted_northwest, Nat.testBit_or,
      Nat.testBit_and, testBit_shl64, testBit_not64 (all_pieces_lt hbd),
      testBit_not64 FILE_A_lt, testBit_not64 FILE_H_lt, FILE_A_testBit, FILE_H_testBit,
      testBit_idxBB, Bool.or_eq_true, Bool.and_eq_true, decide_eq_true_eq,
      Bool.not_eq_true'] at ht
    rcases ht with (⟨⟨ht64, h8, hti, hi64⟩, -, hall⟩ |
        ⟨⟨ht64, h8a, ⟨h18, h8b, hti, hi64⟩, h18b, hall8⟩, -, hall⟩) |
      ⟨hcap, hopp⟩
    · exact ⟨ht64, Or.inl ⟨by omega, hall⟩⟩
    · have h2 : t - 8 = i + 8 := by omega
      rw [h2] at hall8
      exact ⟨ht64, Or.inr (Or.inl ⟨h16n, by omega, hall8, hall⟩)⟩
    · rcases hcap with ⟨⟨ht64, h9, hti, hi64⟩, -, hfa⟩ | ⟨⟨ht64, h7, hti, hi64⟩, -, hfh⟩
      · simp [ht64] at hfa
        exact ⟨ht64, Or.inr (Or.inr ⟨Or.inl ⟨by omega, hfa⟩, hopp⟩)⟩
      · simp [ht64] at hfh
        exact ⟨ht64, Or.inr (Or.inr ⟨Or.inr ⟨by omega, hfh⟩, hopp⟩)⟩
  · rw [if_neg h16] at ht
    simp only [shifted_north, shifted_northeast, shifted_northwest, Nat.testBit_or,
      Nat.testBit_and, testBit_shl64, testBit_not64 (all_pieces_lt hbd),
      testBit_not64 FILE_A_lt, testBit_not64 FILE_H_lt, FILE_A_testBit, FILE_H_testBit,
      testBit_idxBB, Bool.or_eq_true, Bool.and_eq_true, decide_eq_true_eq,
      Bool.not_eq_true'] at ht
    rcases ht with ⟨⟨ht64, h8, hti, hi64⟩, -, hall⟩ | ⟨hcap, hopp⟩
    · exact ⟨ht64, Or.inl ⟨by omega, hall⟩⟩
    · rcases hcap with ⟨⟨ht64, h9, hti, hi64⟩, -, hfa⟩ | ⟨⟨ht64, h7, hti, hi64⟩, -, hfh⟩
      · simp [ht64] at hfa
        exact ⟨ht64, Or.inr (Or.inr ⟨Or.inl ⟨by omega, hfa⟩, hopp⟩)⟩
      · simp [ht64] at hfh
        exact ⟨ht64, Or.inr (Or.inr ⟨Or.inr ⟨by omega, hfh⟩, hopp⟩)⟩

theorem pawnGenData_black_moves {b : ChessBoard} (hbd : BoundedBoards b)
    (hc : b.next_move = Color.Black) {i t : Nat}
    (ht : (pawnGenData b i).2.testBit t = true) :
    t < 64 ∧
      ((i = t + 8 ∧ b.all_pieces.testBit t = false) ∨
       (i > 47 ∧ i = t + 16 ∧ b.all_pieces.testBit (t + 8) = false ∧
         b.all_pieces.testBit t = false) ∨
       ((i = t + 7 ∧ t % 8 ≠ 0 ∨ i = t + 9 ∧ t % 8 ≠ 7) ∧
         b.opponent_pieces.testBit t = true)) := by
  simp only [pawnGenData, hc] at ht
  by_cases h47 : i > Idx.H6
  · rw [if_pos h47] at ht
    have h47n : i > 47 := h47
    simp only [shifted_south, shifted_southeast, shifted_southwest, Nat.testBit_or,
      Nat.testBit_and, Nat.testBit_shiftRight, testBit_not64 (all_pieces_lt hbd),
      testBit_not64 FILE_A_lt, testBit_not64 FILE_H_lt, FILE_A_testBit, FILE_H_testBit,
      testBit_idxBB, Bool.or_eq_true, Bool.and_eq_true, decide_eq_true_eq,
      Bool.not_eq_true'] at ht
    rcases ht with (⟨⟨hti, hi64⟩, ht64, hall⟩ |
        ⟨⟨⟨hti, hi64⟩, h18b, hall8⟩, ht64, hall⟩) |
      ⟨hcap, hopp⟩
    · exact ⟨ht64, Or.inl ⟨by omega, hall⟩⟩
    · rw [Nat.add_comm 8 t] at hall8
      exact ⟨ht64, Or.inr (Or.inl ⟨h47n, by omega, hall8, hall⟩)⟩
    · rcases hcap with ⟨⟨hti, hi64⟩, ht64, hfa⟩ | ⟨⟨hti, hi64⟩, ht64, hfh⟩
      · simp [ht64] at hfa
        exact ⟨ht64, Or.inr (Or.inr ⟨Or.inl ⟨by omega, hfa⟩, hopp⟩)⟩
      · simp [ht64] at hfh
        exact ⟨ht64, Or.inr (Or.inr ⟨Or.inr ⟨by omega, hfh⟩, hopp⟩)⟩
  · rw [if_neg h47] at ht
    simp only [shifted_south, shifted_southeast, shifted_southwest, Nat.testBit_or,
      Nat.testBit_and, Nat.testBit_shiftRight, testBit_not64 (all_pieces_lt hbd),
      testBit_not64 FILE_A_lt, testBit_not64 FILE_H_lt, FILE_A_testBit, FILE_H_testBit,
      testBit_idxBB, Bool.or_eq_true, Bool.and_eq_true, decide_eq_true_eq,
      Bool.not_eq_true'] at ht
    rcases ht with ⟨⟨hti, hi64⟩, ht64, hall⟩ | ⟨hcap, hopp⟩
    · exact ⟨ht64, Or.inl ⟨by omega, hall⟩⟩
    · rcases hcap with ⟨⟨hti, hi64⟩, ht64, hfa⟩ | ⟨⟨hti, hi64⟩, ht64, hfh⟩
      · simp [ht64] at hfa
        exact ⟨ht64, Or.inr (Or.inr ⟨Or.inl ⟨by omega, hfa⟩, hopp⟩)⟩
      · simp [ht64] at hfh
        exact ⟨ht64, Or.inr (Or.inr ⟨Or.inr ⟨by omega, hfh⟩, hopp⟩)⟩

theorem pawnGenData_white_att {b : ChessBoard} (hc : b.next_move = Color.White)
    {i t : Nat} (ht : (pawnGenData b i).1.testBit t = true) :
    t < 64 ∧ (t = i + 9 ∧ t % 8 ≠ 0 ∨ t = i + 7 ∧ t % 8 ≠ 7) := by
  simp only [pawnGenData, hc] at ht
  simp only [shifted_northeast, shifted_northwest, Nat.testBit_or, Nat.testBit_and,
    testBit_shl64, testBit_not64 FILE_A_lt, testBit_not64 FILE_H_lt, FILE_A_testBit,
    FILE_H_testBit, testBit_idxBB, Bool.or_eq_true, Bool.and_eq_true,
    decide_eq_true_eq, Bool.not_eq_true'] at ht
  rcases ht with ⟨⟨ht64, h9, hti, hi64⟩, -, hfa⟩ | ⟨⟨ht64, h7, hti, hi64⟩, -, hfh⟩
  · simp [ht64] at hfa
    exact ⟨ht64, Or.inl ⟨by omega, hfa⟩⟩
  · simp [ht64] at hfh
    exact ⟨ht64, Or.inr ⟨by omega, hfh⟩⟩

theorem pawnGenData_black_att {b : ChessBoard} (hc : b.next_move = Color.Black)
    {i t : Nat} (ht : (pawnGenData b i).1.testBit t = true) :
    t < 64 ∧ (i = t + 7 ∧ t % 8 ≠ 0 ∨ i = t + 9 ∧ t % 8 ≠ 7) := by
  simp only [pawnGenData, hc] at ht
  simp only [shifted_southeast, shifted_southwest, Nat.testBit_or, Nat.testBit_and,
    Nat.testBit_shiftRight, testBit_not64 FILE_A_lt, testBit_not64 FILE_H_lt,
    FILE_A_testBit, FILE_H_testBit, testBit_idxBB, Bool.or_eq_true, Bool.and_eq_true,
    decide_eq_true_eq, Bool.not_eq_true'] at ht
  rcases ht with ⟨⟨hti, hi64⟩, ht64, hfa⟩ | ⟨⟨hti, hi64⟩, ht64, hfh⟩
  · simp [ht64] at hfa
    exact ⟨ht64, Or.inl ⟨by omega, hfa⟩⟩
  · simp [ht64] at hfh
    exact ⟨ht64, Or.inr ⟨by omega, hfh⟩⟩

theorem epFlag_nonpawn {b : ChessBoard} {m : Move} {pk : Piece}
    (h : pk ≠ Piece.Pawn) : epFlag b m pk = false := by
  simp [epFlag, h]

theorem epFlag_pawn_none {b : ChessBoard} {m : Move}
    (h : b.en_passant_target = none) : epFlag b m Piece.Pawn = false := by
  simp [epFlag, h]

theorem epFlag_pawn_ne {b : ChessBoard} {m : Move} {e : Nat}
    (h : b.en_passant_target = some e) (hne : m.toSq ≠ e) :
    epFlag b m Piece.Pawn = false := by
  simp [epFlag, h, hne]

theorem epFlag_pawn_eq {b : ChessBoard} {m : Move} {e : Nat}
    (h : b.en_passant_target = some e) (heq : m.toSq = e) :
    epFlag b m Piece.Pawn = true := by
  simp [epFlag, h, heq]

theorem applyPieceBranch_qbn {b : ChessBoard} {m : Move} {pk : Piece}
    (h : pk = Piece.Queen ∨ pk = Piece.Bishop ∨ pk = Piece.Knight)
    (p1 : Color → Piece → Nat) (c1 : Nat → Option (Color × Piece)) :
    applyPieceBranch b m pk p1 c1 =
      some (p1, b.castling_options, none, b.half_move_clock + 1, c1) := by
  rcases h with rfl | rfl | rfl <;> rfl

theorem applyPieceBranch_rook (b : ChessBoard) (m : Move)
    (p1 : Color → Piece → Nat) (c1 : Nat → Option (Color × Piece)) :
    ∃ cst, applyPieceBranch b m Piece.Rook p1 c1 =
      some (p1, cst, none, b.half_move_clock + 1, c1) := ⟨_, rfl⟩

theorem applyPieceBranch_king_normal (b : ChessBoard) (m : Move)
    (hW : b.next_move = Color.White → m.fromSq = Idx.E1 →
      ¬(m.toSq = Idx.C1 ∨ m.toSq = Idx.G1))
    (hB : b.next_move = Color.Black → m.fromSq = Idx.E8 →
      ¬(m.toSq = Idx.C8 ∨ m.toSq = Idx.G8))
    (p1 : Color → Piece → Nat) (c1 : Nat → Option (Color × Piece)) :
    ∃ cst, applyPieceBranch b m Piece.King p1 c1 =
      some (p1, cst, none, b.half_move_clock + 1, c1) := by
  refine ⟨updCast (updCast b.castling_options b.next_move Piece.Queen false)
    b.next_move Piece.King false, ?_⟩
  rcases hc : b.next_move
  · simp only [applyPieceBranch, hc]
    by_cases hf : m.fromSq = Idx.E1
    · have hn := hW hc hf
      rw [if_pos hf, if_neg (fun h2 => hn (Or.inl h2)), if_neg (fun h2 => hn (Or.inr h2))]
    · rw [if_neg hf]
  · simp only [applyPieceBranch, hc]
    by_cases hf : m.fromSq = Idx.E8
    · have hn := hB hc hf
      rw [if_pos hf, if_neg (fun h2 => hn (Or.inl h2)), if_neg (fun h2 => hn (Or.inr h2))]
    · rw [if_neg hf]

theorem applyPieceBranch_pawn_none {b : ChessBoard} {m : Move}
    (hdist : ¬(distance_to m.toSq m.fromSq > 10)) (hpromo : m.promotion = none)
    (p1 : Color → Piece → Nat) (c1 : Nat → Option (Color × Piece)) :
    applyPieceBranch b m Piece.Pawn p1 c1 =
      some (p1, b.castling_options, none, 0, c1) := by
  simp only [applyPieceBranch]
  rw [if_neg hdist, hpromo]

theorem applyPieceBranch_pawn_promo {b : ChessBoard} {m : Move} {promo : Piece}
    (hdist : ¬(distance_to m.toSq m.fromSq > 10)) (hpromo : m.promotion = some promo)
    (p1 : Color → Piece → Nat) (c1 : Nat → Option (Color × Piece)) :
    applyPieceBranch b m Piece.Pawn p1 c1 =
      some (updPieces
              (updPieces p1 b.next_move Piece.Pawn
                (p1 b.next_move Piece.Pawn ^^^ idxBB m.toSq))
              b.next_move promo
              (updPieces p1 b.next_move Piece.Pawn
                (p1 b.next_move Piece.Pawn ^^^ idxBB m.toSq) b.next_move promo ^^^
                idxBB m.toSq),
            b.castling_options, none, 0,
            updCache c1 m.toSq (some (b.next_move, promo))) := by
  simp only [applyPieceBranch]
  rw [if_neg hdist, hpromo]

theorem applyPieceBranch_pawn_far_white {b : ChessBoard} {m : Move}
    (hc : b.next_move = Color.White) (hdist : distance_to m.toSq m.fromSq > 10)
    (hf : m.fromSq + 8 < 64)
    (p1 : Color → Piece → Nat) (c1 : Nat → Option (Color × Piece)) :
    applyPieceBranch b m Piece.Pawn p1 c1 =
      some (p1, b.castling_options, some (m.fromSq + 8), 0, c1) := by
  simp only [applyPieceBranch, hc, if_true]
  rw [if_pos hdist, idx_shifted_north, if_neg (by omega)]

theorem applyPieceBranch_pawn_far_black {b : ChessBoard} {m : Move}
    (hc : b.next_move = Color.Black) (hdist : distance_to m.toSq m.fromSq > 10)
    (hf : 8 ≤ m.fromSq)
    (p1 : Color → Piece → Nat) (c1 : Nat → Option (Color × Piece)) :
    applyPieceBranch b m Piece.Pawn p1 c1 =
      some (p1, b.castling_options, some (m.fromSq - 8), 0, c1) := by
  simp only [applyPieceBranch, hc]
  rw [if_pos hdist, if_neg (by decide), idx_shifted_south, if_neg (by omega)]

theorem applyEpBranch_none (b : ChessBoard) (m : Move)
    (p : Color → Piece → Nat) (h : Nat) (c : Nat → Option (Color × Piece))
    {fl : Bool} (hfl : fl = false) :
    applyEpBranch b m fl p h c = some (p, h, c) := by
  rw [hfl]
  rfl

theorem applyEpBranch_white (b : ChessBoard) (m : Move)
    (p : Color → Piece → Nat) (h : Nat) (c : Nat → Option (Color × Piece))
    {fl : Bool} (hfl : fl = true)
    (hc : b.next_move = Color.White) (ht : 8 ≤ m.toSq) :
    applyEpBranch b m fl p h c =
      some (updPieces p Color.Black Piece.Pawn
              (p Color.Black Piece.Pawn ^^^ idxBB (m.toSq - 8)),
            0, updCache c (m.toSq - 8) none) := by
  rw [hfl]
  simp only [applyEpBranch, hc, if_true]
  rw [idx_shifted_south, if_neg (by omega)]

theorem applyEpBranch_black (b : ChessBoard) (m : Move)
    (p : Color → Piece → Nat) (h : Nat) (c : Nat → Option (Color × Piece))
    {fl : Bool} (hfl : fl = true)
    (hc : b.next_move = Color.Black) (ht : m.toSq + 8 < 64) :
    applyEpBranch b m fl p h c =
      some (updPieces p Color.White Piece.Pawn
              (p Color.White Piece.Pawn ^^^ idxBB (m.toSq + 8)),
            0, updCache c (m.toSq + 8) none) := by
  rw [hfl]
  simp only [applyEpBranch, hc, if_true]
  rw [idx_shifted_north, if_neg (by omega)]

theorem applyCaptureBranch_no (b : ChessBoard) (m : Move)
    (p3 : Color → Piece → Nat) (cst : Color → Piece → Bool) (h3 : Nat)
    {fl : Bool} (hfl : fl = false) :
    applyCaptureBranch b m fl p3 cst h3 = (p3, cst, h3) := by
  rw [hfl]
  rfl

theorem applyCaptureBranch_yes (b : ChessBoard) (m : Move)
    (p3 : Color → Piece → Nat) (cst : Color → Piece → Bool) (h3 : Nat)
    {fl : Bool} (hfl : fl = true) :
    ∃ c4, applyCaptureBranch b m fl p3 cst h3 =
      (clearCaptured p3 b.next_move.opponent m.toSq, c4, 0) := by
  rw [hfl]
  exact ⟨_, rfl⟩

theorem apply_move_build {b : ChessBoard} {m : Move} {c0 : Color} {pk : Piece}
    {p2 : Color → Piece → Nat} {cst2 : Color → Piece → Bool} {e2 : Option Nat}
    {h2 : Nat} {ch2 : Nat → Option (Color × Piece)}
    {p3 : Color → Piece → Nat} {h3 : Nat} {ch3 : Nat → Option (Color × Piece)}
    (hc : b.piece_cache m.fromSq = some (c0, pk))
    (hbr : applyPieceBranch b m pk
        (updPieces b.pieces b.next_move pk
          (b.pieces b.next_move pk ^^^ (idxBB m.fromSq ||| idxBB m.toSq)))
        (updCache (updCache b.piece_cache m.fromSq none) m.toSq
          (some (b.next_move, pk)))
      = some (p2, cst2, e2, h2, ch2))
    (hepbr : applyEpBranch b m (epFlag b m pk) p2 h2 ch2 = some (p3, h3, ch3)) :
    apply_move b m = some
      { pieces := (applyCaptureBranch b m ((b.opponent_pieces &&& idxBB m.toSq) != 0)
          p3 cst2 h3).1,
        next_move := b.next_move.opponent,
        castling_options := (applyCaptureBranch b m
          ((b.opponent_pieces &&& idxBB m.toSq) != 0) p3 cst2 h3).2.1,
        en_passant_target := e2,
        half_move_clock := (applyCaptureBranch b m
          ((b.opponent_pieces &&& idxBB m.toSq) != 0) p3 cst2 h3).2.2,
        full_move_number := if b.next_move.opponent = Color.Black then
            b.full_move_number + 1 else b.full_move_number,
        piece_cache := ch3 } := by
  simp only [apply_move, hc, bind, Option.bind_eq_some, Option.pure_def,
    Option.some.injEq]
  refine ⟨(c0, pk), rfl, (p2, cst2, e2, h2, ch2), hbr, (p3, h3, ch3), hepbr, ?_⟩
  rfl

theorem color_cases (c2 c : Color) : c2 = c ∨ c2 = c.opponent := by
  rcases c2 <;> rcases c <;> simp [Color.opponent]

theorem opponent_pieces_lt {b : ChessBoard} (hbd : BoundedBoards b) :
    b.opponent_pieces < U64MOD := pieces_of_lt hbd b.next_move.opponent

theorem apply_simple {b : ChessBoard} (hbd : BoundedBoards b) (hd : DisjointBoards b)
    (hca : CacheAgrees b) {m : Move} {pk : Piece}
    (hpk : pk ≠ Piece.Pawn)
    (hfrom : (b.pieces b.next_move pk).testBit m.fromSq = true)
    (hbr : ∀ p1 c1, ∃ cst hf, applyPieceBranch b m pk p1 c1 = some (p1, cst, none, hf, c1))
    (hto : b.my_pieces.testBit m.toSq = false) (ht64 : m.toSq < 64) :
    ∃ b2, apply_move b m = some b2 ∧ CacheAgrees b2 := by
  have hf64 : m.fromSq < 64 := testBit_true_lt_64 (hbd _ _) hfrom
  have hc : b.piece_cache m.fromSq = some (b.next_move, pk) :=
    cache_at_piece hd hca hfrom hf64
  obtain ⟨cst, hfc, hbr2⟩ := hbr
    (updPieces b.pieces b.next_move pk
      (b.pieces b.next_move pk ^^^ (idxBB m.fromSq ||| idxBB m.toSq)))
    (updCache (updCache b.piece_cache m.fromSq none) m.toSq (some (b.next_move, pk)))
  have heq := apply_move_build hc hbr2
    (applyEpBranch_none b m _ _ _ (epFlag_nonpawn hpk))
  rw [capture_flag (opponent_pieces_lt hbd)] at heq
  have hao : ∀ c2 p2, ¬(c2 = b.next_move ∧ p2 = pk) →
      (b.pieces c2 p2).testBit m.fromSq = false :=
    fun c2 p2 hne =>
      disjoint_testBit hd (fun h => hne ⟨h.1.symm, h.2.symm⟩) hfrom
  have hmyto : ∀ p2, (b.pieces b.next_move p2).testBit m.toSq = false :=
    fun p2 => pieces_false_of_pieces_of_false hto p2
  cases hcap : b.opponent_pieces.testBit m.toSq with
  | false =>
    rw [hcap, applyCaptureBranch_no b m _ _ _ rfl] at heq
    refine ⟨_, heq, ?_⟩
    intro j hj
    have htall : ∀ c2 p2, (b.pieces c2 p2).testBit m.toSq = false := by
      intro c2 p2
      rcases color_cases c2 b.next_move with rfl | rfl
      · exact hmyto p2
      · exact pieces_false_of_pieces_of_false hcap p2
    exact step_move_empty hca hfrom hao htall hf64 ht64 j hj
  | true =>
    obtain ⟨q, hq⟩ : ∃ q, (b.pieces b.next_move.opponent q).testBit m.toSq = true :=
      pieces_of_testBit_iff.mp hcap
    have hto2 : ∀ c2 p2, ¬(c2 = b.next_move.opponent ∧ p2 = q) →
        (b.pieces c2 p2).testBit m.toSq = false :=
      fun c2 p2 hne =>
        disjoint_testBit hd (fun h => hne ⟨h.1.symm, h.2.symm⟩) hq
    rw [hcap] at heq
    obtain ⟨c4, hcb⟩ := applyCaptureBranch_yes b m
      (updPieces b.pieces b.next_move pk
        (b.pieces b.next_move pk ^^^ (idxBB m.fromSq ||| idxBB m.toSq))) cst
      hfc rfl
    rw [hcb] at heq
    refine ⟨_, heq, ?_⟩
    intro j hj
    exact step_move_capture hca hbd hfrom hao hq hto2 hf64 ht64 j hj

theorem pieces_of_false_of_all {b : ChessBoard} {c : Color} {t : Nat}
    (h : ∀ p, (b.pieces c p).testBit t = false) :
    (b.pieces_of c).testBit t = false := by
  rcases hb : (b.pieces_of c).testBit t
  · rfl
  · obtain ⟨p, hp⟩ := pieces_of_testBit_iff.mp hb
    rw [h p] at hp
    exact absurd hp (by simp)

theorem apply_castle_tail {b : ChessBoard} (hbd : BoundedBoards b)
    (hd : DisjointBoards b) (hca : CacheAgrees b) {m : Move} {rF rT : Nat}
    (hking : (b.pieces b.next_move Piece.King).testBit m.fromSq = true)
    (hrook : (b.pieces b.next_move Piece.Rook).testBit rF = true)
    (hbr : ∀ (p1 : Color → Piece → Nat) (c1 : Nat → Option (Color × Piece)),
      ∃ cst hf, applyPieceBranch b m Piece.King p1 c1 =
        some (updPieces p1 b.next_move Piece.Rook
                (p1 b.next_move Piece.Rook ^^^ (idxBB rF ||| idxBB rT)),
              cst, none, hf,
              updCache (updCache c1 rF none) rT (some (b.next_move, Piece.Rook))))
    (htoE : b.all_pieces.testBit m.toSq = false)
    (hrTE : b.all_pieces.testBit rT = false)
    (hne1 : rF ≠ m.fromSq) (hne2 : rF ≠ m.toSq) (hne3 : rT ≠ m.fromSq)
    (hne4 : rT ≠ m.toSq) (hrF64 : rF < 64) (hrT64 : rT < 64) (ht64 : m.toSq < 64) :
    ∃ b2, apply_move b m = some b2 ∧ CacheAgrees b2 := by
  have hf64 : m.fromSq < 64 := testBit_true_lt_64 (hbd _ _) hking
  have hc : b.piece_cache m.fromSq = some (b.next_move, Piece.King) :=
    cache_at_piece hd hca hking hf64
  obtain ⟨cst, hf, hbr2⟩ := hbr
    (updPieces b.pieces b.next_move Piece.King
      (b.pieces b.next_move Piece.King ^^^ (idxBB m.fromSq ||| idxBB m.toSq)))
    (updCache (updCache b.piece_cache m.fromSq none) m.toSq
      (some (b.next_move, Piece.King)))
  have heq := apply_move_build hc hbr2
    (applyEpBranch_none b m _ _ _ (epFlag_nonpawn (by simp)))
  rw [capture_flag (opponent_pieces_lt hbd)] at heq
  have hcapF : b.opponent_pieces.testBit m.toSq = false :=
    pieces_of_false_of_all (fun p => pieces_false_of_all_false htoE _ p)
  rw [hcapF, applyCaptureBranch_no b m _ _ _ rfl] at heq
  refine ⟨_, heq, ?_⟩
  intro j hj
  have hao : ∀ c2 p2, ¬(c2 = b.next_move ∧ p2 = Piece.King) →
      (b.pieces c2 p2).testBit m.fromSq = false :=
    fun c2 p2 hne =>
      disjoint_testBit hd (fun h2 => hne ⟨h2.1.symm, h2.2.symm⟩) hking
  have htall : ∀ c2 p2, (b.pieces c2 p2).testBit m.toSq = false :=
    fun c2 p2 => pieces_false_of_all_false htoE c2 p2
  have step1 := step_move_empty hca hking hao htall hf64 ht64
  have ha2 : (updPieces b.pieces b.next_move Piece.King
      (b.pieces b.next_move Piece.King ^^^ (idxBB m.fromSq ||| idxBB m.toSq))
        b.next_move Piece.Rook).testBit rF = true := by
    rw [updPieces_apply, if_neg (by simp)]
    exact hrook
  have hao2 : ∀ c2 p2, ¬(c2 = b.next_move ∧ p2 = Piece.Rook) →
      (updPieces b.pieces b.next_move Piece.King
        (b.pieces b.next_move Piece.King ^^^ (idxBB m.fromSq ||| idxBB m.toSq))
          c2 p2).testBit rF = false := by
    intro c2 p2 hne
    rw [updPieces_apply]
    by_cases hcp : c2 = b.next_move ∧ p2 = Piece.King
    · rw [if_pos hcp, Nat.testBit_xor, testBit_pair_or hf64 ht64]
      obtain ⟨rfl, rfl⟩ := hcp
      rw [disjoint_testBit hd (by simp) hrook]
      simp [hne1, hne2]
    · rw [if_neg hcp]
      exact disjoint_testBit hd (fun h2 => hne ⟨h2.1.symm, h2.2.symm⟩) hrook
  have htall2 : ∀ c2 p2,
      (updPieces b.pieces b.next_move Piece.King
        (b.pieces b.next_move Piece.King ^^^ (idxBB m.fromSq ||| idxBB m.toSq))
          c2 p2).testBit rT = false := by
    intro c2 p2
    rw [updPieces_apply]
    by_cases hcp : c2 = b.next_move ∧ p2 = Piece.King
    · rw [if_pos hcp, Nat.testBit_xor, testBit_pair_or hf64 ht64]
      obtain ⟨rfl, rfl⟩ := hcp
      rw [pieces_false_of_all_false hrTE _ _]
      simp [hne3, hne4]
    · rw [if_neg hcp]
      exact pieces_false_of_all_false hrTE c2 p2
  exact step_move_empty step1 ha2 hao2 htall2 hrF64 hrT64 j hj

theorem apply_pawn_quiet {b : ChessBoard} (hbd : BoundedBoards b)
    (hd : DisjointBoards b) (hca : CacheAgrees b) {m : Move}
    (hfrom : (b.pieces b.next_move Piece.Pawn).testBit m.fromSq = true)
    (hbr : ∀ (p1 : Color → Piece → Nat) (c1 : Nat → Option (Color × Piece)),
      ∃ cst e2 hf, applyPieceBranch b m Piece.Pawn p1 c1 = some (p1, cst, e2, hf, c1))
    (hfl : epFlag b m Piece.Pawn = false)
    (htoE : b.all_pieces.testBit m.toSq = false) (ht64 : m.toSq < 64) :
    ∃ b2, apply_move b m = some b2 ∧ CacheAgrees b2 := by
  have hf64 : m.fromSq < 64 := testBit_true_lt_64 (hbd _ _) hfrom
  have hc : b.piece_cache m.fromSq = some (b.next_move, Piece.Pawn) :=
    cache_at_piece hd hca hfrom hf64
  obtain ⟨cst, e2, hf, hbr2⟩ := hbr
    (updPieces b.pieces b.next_move Piece.Pawn
      (b.pieces b.next_move Piece.Pawn ^^^ (idxBB m.fromSq ||| idxBB m.toSq)))
    (updCache (updCache b.piece_cache m.fromSq none) m.toSq
      (some (b.next_move, Piece.Pawn)))
  have heq := apply_move_build hc hbr2 (applyEpBranch_none b m _ _ _ hfl)
  rw [capture_flag (opponent_pieces_lt hbd)] at heq
  have hcapF : b.opponent_pieces.testBit m.toSq = false :=
    pieces_of_false_of_all (fun p => pieces_false_of_all_false htoE _ p)
  rw [hcapF, applyCaptureBranch_no b m _ _ _ rfl] at heq
  refine ⟨_, heq, ?_⟩
  intro j hj
  exact step_move_empty hca hfrom
    (fun c2 p2 hne => disjoint_testBit hd (fun h2 => hne ⟨h2.1.symm, h2.2.symm⟩) hfrom)
    (fun c2 p2 => pieces_false_of_all_false htoE c2 p2) hf64 ht64 j hj

theorem apply_pawn_cap {b : ChessBoard} (hbd : BoundedBoards b)
    (hd : DisjointBoards b) (hca : CacheAgrees b) {m : Move}
    (hfrom : (b.pieces b.next_move Piece.Pawn).testBit m.fromSq = true)
    (hdist : ¬distance_to m.toSq m.fromSq > 10) (hpromo : m.promotion = none)
    (hfl : epFlag b m Piece.Pawn = false)
    (hcap : b.opponent_pieces.testBit m.toSq = true) (ht64 : m.toSq < 64) :
    ∃ b2, apply_move b m = some b2 ∧ CacheAgrees b2 := by
  have hf64 : m.fromSq < 64 := testBit_true_lt_64 (hbd _ _) hfrom
  have hc : b.piece_cache m.fromSq = some (b.next_move, Piece.Pawn) :=
    cache_at_piece hd hca hfrom hf64
  have heq := apply_move_build hc
    (applyPieceBranch_pawn_none hdist hpromo
      (updPieces b.pieces b.next_move Piece.Pawn
        (b.pieces b.next_move Piece.Pawn ^^^ (idxBB m.fromSq ||| idxBB m.toSq)))
      (updCache (updCache b.piece_cache m.fromSq none) m.toSq
        (some (b.next_move, Piece.Pawn))))
    (applyEpBranch_none b m _ _ _ hfl)
  rw [capture_flag (opponent_pieces_lt hbd), hcap] at heq
  obtain ⟨q, hq⟩ : ∃ q, (b.pieces b.next_move.opponent q).testBit m.toSq = true :=
    pieces_of_testBit_iff.mp hcap
  obtain ⟨c4, hcb⟩ := applyCaptureBranch_yes b m
    (updPieces b.pieces b.next_move Piece.Pawn
      (b.pieces b.next_move Piece.Pawn ^^^ (idxBB m.fromSq ||| idxBB m.toSq)))
    b.castling_options 0 rfl
  rw [hcb] at heq
  refine ⟨_, heq, ?_⟩
  intro j hj
  exact step_move_capture hca hbd hfrom
    (fun c2 p2 hne => disjoint_testBit hd (fun h2 => hne ⟨h2.1.symm, h2.2.symm⟩) hfrom)
    hq
    (fun c2 p2 hne => disjoint_testBit hd (fun h2 => hne ⟨h2.1.symm, h2.2.symm⟩) hq)
    hf64 ht64 j hj

theorem apply_pawn_promo {b : ChessBoard} (hbd : BoundedBoards b)
    (hd : DisjointBoards b) (hca : CacheAgrees b) {m : Move} {promo : Piece}
    (hfrom : (b.pieces b.next_move Piece.Pawn).testBit m.fromSq = true)
    (hdist : ¬distance_to m.toSq m.fromSq > 10) (hpromo : m.promotion = some promo)
    (hprne : promo ≠ Piece.Pawn)
    (hfl : epFlag b m Piece.Pawn = false)
    (hto : b.all_pieces.testBit m.toSq = false ∨
      b.opponent_pieces.testBit m.toSq = true)
    (ht64 : m.toSq < 64) :
    ∃ b2, apply_move b m = some b2 ∧ CacheAgrees b2 := by
  have hf64 : m.fromSq < 64 := testBit_true_lt_64 (hbd _ _) hfrom
  have hc : b.piece_cache m.fromSq = some (b.next_move, Piece.Pawn) :=
    cache_at_piece hd hca hfrom hf64
  have heq := apply_move_build hc
    (applyPieceBranch_pawn_promo hdist hpromo
      (updPieces b.pieces b.next_move Piece.Pawn
        (b.pieces b.next_move Piece.Pawn ^^^ (idxBB m.fromSq ||| idxBB m.toSq)))
      (updCache (updCache b.piece_cache m.fromSq none) m.toSq
        (some (b.next_move, Piece.Pawn))))
    (applyEpBranch_none b m _ _ _ hfl)
  rw [capture_flag (opponent_pieces_lt hbd)] at heq
  have hao : ∀ c2 p2, ¬(c2 = b.next_move ∧ p2 = Piece.Pawn) →
      (b.pieces c2 p2).testBit m.fromSq = false :=
    fun c2 p2 hne => disjoint_testBit hd (fun h2 => hne ⟨h2.1.symm, h2.2.symm⟩) hfrom
  rcases hto with htoE | hcap
  · have hcapF : b.opponent_pieces.testBit m.toSq = false :=
      pieces_of_false_of_all (fun p => pieces_false_of_all_false htoE _ p)
    rw [hcapF, applyCaptureBranch_no b m _ _ _ rfl] at heq
    refine ⟨_, heq, ?_⟩
    intro j hj
    exact step_promo_empty hca hfrom hao
      (fun c2 p2 => pieces_false_of_all_false htoE c2 p2) hprne hf64 ht64 j hj
  · rw [hcap] at heq
    obtain ⟨q, hq⟩ : ∃ q, (b.pieces b.next_move.opponent q).testBit m.toSq = true :=
      pieces_of_testBit_iff.mp hcap
    obtain ⟨c4, hcb⟩ := applyCaptureBranch_yes b m _ b.castling_options 0 rfl
    rw [hcb] at heq
    refine ⟨_, heq, ?_⟩
    intro j hj
    exact step_promo_capture hca hbd hfrom hao hq
      (fun c2 p2 hne => disjoint_testBit hd (fun h2 => hne ⟨h2.1.symm, h2.2.symm⟩) hq)
      hprne hf64 ht64 j hj

theorem apply_pawn_ep_white {b : ChessBoard} (hbd : BoundedBoards b)
    (hd : DisjointBoards b) (hca : CacheAgrees b) {m : Move} {e : Nat}
    (hc : b.next_move = Color.White)
    (hfrom : (b.pieces b.next_move Piece.Pawn).testBit m.fromSq = true)
    (hepT : b.en_passant_target = some e) (hto : m.toSq = e)
    (hdist : ¬distance_to m.toSq m.fromSq > 10) (hpromo : m.promotion = none)
    (htoE : b.all_pieces.testBit e = false)
    (hbp : (b.pieces Color.Black Piece.Pawn).testBit (e - 8) = true)
    (h8 : 8 ≤ e) (he64 : e < 64) (hsf : e - 8 ≠ m.fromSq) :
    ∃ b2, apply_move b m = some b2 ∧ CacheAgrees b2 := by
  have hf64 : m.fromSq < 64 := testBit_true_lt_64 (hbd _ _) hfrom
  have hcache : b.piece_cache m.fromSq = some (b.next_move, Piece.Pawn) :=
    cache_at_piece hd hca hfrom hf64
  have hfl : epFlag b m Piece.Pawn = true := epFlag_pawn_eq hepT hto
  have heq := apply_move_build hcache
    (applyPieceBranch_pawn_none hdist hpromo
      (updPieces b.pieces b.next_move Piece.Pawn
        (b.pieces b.next_move Piece.Pawn ^^^ (idxBB m.fromSq ||| idxBB m.toSq)))
      (updCache (updCache b.piece_cache m.fromSq none) m.toSq
        (some (b.next_move, Piece.Pawn))))
    (applyEpBranch_white b m _ _ _ hfl hc (by omega))
  rw [capture_flag (opponent_pieces_lt hbd)] at heq
  have ht64 : m.toSq < 64 := by rw [hto]; exact he64
  have htoE2 : b.all_pieces.testBit m.toSq = false := by rw [hto]; exact htoE
  have hcapF : b.opponent_pieces.testBit m.toSq = false :=
    pieces_of_false_of_all (fun p => pieces_false_of_all_false htoE2 _ p)
  rw [hcapF, applyCaptureBranch_no b m _ _ _ rfl] at heq
  refine ⟨_, heq, ?_⟩
  intro j hj
  have step1 := step_move_empty hca hfrom
    (fun c2 p2 hne => disjoint_testBit hd (fun h2 => hne ⟨h2.1.symm, h2.2.symm⟩) hfrom)
    (fun c2 p2 => pieces_false_of_all_false htoE2 c2 p2) hf64 ht64
  have hs64 : m.toSq - 8 < 64 := by omega
  have hbp2 : (b.pieces Color.Black Piece.Pawn).testBit (m.toSq - 8) = true := by
    rw [hto]
    exact hbp
  have hsP : (updPieces b.pieces b.next_move Piece.Pawn
      (b.pieces b.next_move Piece.Pawn ^^^ (idxBB m.fromSq ||| idxBB m.toSq))
        Color.Black Piece.Pawn).testBit (m.toSq - 8) = true := by
    rw [updPieces_apply, if_neg (by rw [hc]; simp)]
    exact hbp2
  have hsO : ∀ c2 p2, ¬(c2 = Color.Black ∧ p2 = Piece.Pawn) →
      (updPieces b.pieces b.next_move Piece.Pawn
        (b.pieces b.next_move Piece.Pawn ^^^ (idxBB m.fromSq ||| idxBB m.toSq))
          c2 p2).testBit (m.toSq - 8) = false := by
    intro c2 p2 hne
    rw [updPieces_apply]
    by_cases hcp : c2 = b.next_move ∧ p2 = Piece.Pawn
    · rw [if_pos hcp, Nat.testBit_xor, testBit_pair_or hf64 ht64]
      obtain ⟨rfl, rfl⟩ := hcp
      rw [disjoint_testBit hd (by rw [hc]; simp) hbp2]
      have hx1 : m.toSq - 8 ≠ m.fromSq := by
        rw [hto]
        exact hsf
      have hx2 : m.toSq - 8 ≠ m.toSq := by omega
      simp [hx1, hx2]
    · rw [if_neg hcp]
      refine disjoint_testBit hd ?_ hbp2
      intro h2
      exact hne ⟨h2.1.symm, h2.2.symm⟩
  exact step_clear_square step1 hsP hsO hs64 j hj

theorem apply_pawn_ep_black {b : ChessBoard} (hbd : BoundedBoards b)
    (hd : DisjointBoards b) (hca : CacheAgrees b) {m : Move} {e : Nat}
    (hc : b.next_move = Color.Black)
    (hfrom : (b.pieces b.next_move Piece.Pawn).testBit m.fromSq = true)
    (hepT : b.en_passant_target = some e) (hto : m.toSq = e)
    (hdist : ¬distance_to m.toSq m.fromSq > 10) (hpromo : m.promotion = none)
    (htoE : b.all_pieces.testBit e = false)
    (hwp : (b.pieces Color.White Piece.Pawn).testBit (e + 8) = true)
    (he24 : e + 8 < 64) (hsf : e + 8 ≠ m.fromSq) :
    ∃ b2, apply_move b m = some b2 ∧ CacheAgrees b2 := by
  have hf64 : m.fromSq < 64 := testBit_true_lt_64 (hbd _ _) hfrom
  have hcache : b.piece_cache m.fromSq = some (b.next_move, Piece.Pawn) :=
    cache_at_piece hd hca hfrom hf64
  have hfl : epFlag b m Piece.Pawn = true := epFlag_pawn_eq hepT hto
  have heq := apply_move_build hcache
    (applyPieceBranch_pawn_none hdist hpromo
      (updPieces b.pieces b.next_move Piece.Pawn
        (b.pieces b.next_move Piece.Pawn ^^^ (idxBB m.fromSq ||| idxBB m.toSq)))
      (updCache (updCache b.piece_cache m.fromSq none) m.toSq
        (some (b.next_move, Piece.Pawn))))
    (applyEpBranch_black b m _ _ _ hfl hc (by omega))
  rw [capture_flag (opponent_pieces_lt hbd)] at heq
  have ht64 : m.toSq < 64 := by rw [hto]; omega
  have htoE2 : b.all_pieces.testBit m.toSq = false := by rw [hto]; exact htoE
  have hcapF : b.opponent_pieces.testBit m.toSq = false :=
    pieces_of_false_of_all (fun p => pieces_false_of_all_false htoE2 _ p)
  rw [hcapF, applyCaptureBranch_no b m _ _ _ rfl] at heq
  refine ⟨_, heq, ?_⟩
  intro j hj
  have step1 := step_move_empty hca hfrom
    (fun c2 p2 hne => disjoint_testBit hd (fun h2 => hne ⟨h2.1.symm, h2.2.symm⟩) hfrom)
    (fun c2 p2 => pieces_false_of_all_false htoE2 c2 p2) hf64 ht64
  have hs64 : m.toSq + 8 < 64 := by rw [hto]; exact he24
  have hwp2 : (b.pieces Color.White Piece.Pawn).testBit (m.toSq + 8) = true := by
    rw [hto]
    exact hwp
  have hsP : (updPieces b.pieces b.next_move Piece.Pawn
      (b.pieces b.next_move Piece.Pawn ^^^ (idxBB m.fromSq ||| idxBB m.toSq))
        Color.White Piece.Pawn).testBit (m.toSq + 8) = true := by
    rw [updPieces_apply, if_neg (by rw [hc]; simp)]
    exact hwp2
  have hsO : ∀ c2 p2, ¬(c2 = Color.White ∧ p2 = Piece.Pawn) →
      (updPieces b.pieces b.next_move Piece.Pawn
        (b.pieces b.next_move Piece.Pawn ^^^ (idxBB m.fromSq ||| idxBB m.toSq))
          c2 p2).testBit (m.toSq + 8) = false := by
    intro c2 p2 hne
    rw [updPieces_apply]
    by_cases hcp : c2 = b.next_move ∧ p2 = Piece.Pawn
    · rw [if_pos hcp, Nat.testBit_xor, testBit_pair_or hf64 ht64]
      obtain ⟨rfl, rfl⟩ := hcp
      rw [disjoint_testBit hd (by rw [hc]; simp) hwp2]
      have hx1 : m.toSq + 8 ≠ m.fromSq := by
        rw [hto]
        exact hsf
      have hx2 : m.toSq + 8 ≠ m.toSq := by omega
      simp [hx1, hx2]
    · rw [if_neg hcp]
      refine disjoint_testBit hd ?_ hwp2
      intro h2
      exact hne ⟨h2.1.symm, h2.2.symm⟩
  exact step_clear_square step1 hsP hsO hs64 j hj

theorem all_false_of_mask_zero {b : ChessBoard} {mask : Nat}
    (h : b.all_pieces &&& mask = 0) {s : Nat} (hs : mask.testBit s = true) :
    b.all_pieces.testBit s = false := by
  rcases hb : b.all_pieces.testBit s
  · rfl
  · exact absurd ⟨hb, hs⟩ (land_eq_zero_iff.mp h s)

theorem applyPieceBranch_castle_oo_white {b : ChessBoard} {m : Move}
    (hc : b.next_move = Color.White) (hf : m.fromSq = Idx.E1) (ht : m.toSq = Idx.G1)
    (p1 : Color → Piece → Nat) (c1 : Nat → Option (Color × Piece)) :
    applyPieceBranch b m Piece.King p1 c1 =
      some (updPieces p1 b.next_move Piece.Rook
              (p1 b.next_move Piece.Rook ^^^ (idxBB Idx.H1 ||| idxBB Idx.F1)),
            updCast (updCast b.castling_options b.next_move Piece.Queen false)
              b.next_move Piece.King false,
            none, b.half_move_clock + 1,
            updCache (updCache c1 Idx.H1 none) Idx.F1
              (some (b.next_move, Piece.Rook))) := by
  simp only [applyPieceBranch, hc]
  rw [if_pos hf, if_neg (by rw [ht]; decide), if_pos ht]

theorem applyPieceBranch_castle_ooo_white {b : ChessBoard} {m : Move}
    (hc : b.next_move = Color.White) (hf : m.fromSq = Idx.E1) (ht : m.toSq = Idx.C1)
    (p1 : Color → Piece → Nat) (c1 : Nat → Option (Color × Piece)) :
    applyPieceBranch b m Piece.King p1 c1 =
      some (updPieces p1 b.next_move Piece.Rook
              (p1 b.next_move Piece.Rook ^^^ (idxBB Idx.A1 ||| idxBB Idx.D1)),
            updCast (updCast b.castling_options b.next_move Piece.Queen false)
              b.next_move Piece.King false,
            none, b.half_move_clock + 1,
            updCache (updCache c1 Idx.A1 none) Idx.D1
              (some (b.next_move, Piece.Rook))) := by
  simp only [applyPieceBranch, hc]
  rw [if_pos hf, if_pos ht]

theorem applyPieceBranch_castle_oo_black {b : ChessBoard} {m : Move}
    (hc : b.next_move = Color.Black) (hf : m.fromSq = Idx.E8) (ht : m.toSq = Idx.G8)
    (p1 : Color → Piece → Nat) (c1 : Nat → Option (Color × Piece)) :
    applyPieceBranch b m Piece.King p1 c1 =
      some (updPieces p1 b.next_move Piece.Rook
              (p1 b.next_move Piece.Rook ^^^ (idxBB Idx.H8 ||| idxBB Idx.F8)),
            updCast (updCast b.castling_options b.next_move Piece.Queen false)
              b.next_move Piece.King false,
            none, b.half_move_clock + 1,
            updCache (updCache c1 Idx.H8 none) Idx.F8
              (some (b.next_move, Piece.Rook))) := by
  simp only [applyPieceBranch, hc]
  rw [if_pos hf, if_neg (by rw [ht]; decide), if_pos ht]

theorem applyPieceBranch_castle_ooo_black {b : ChessBoard} {m : Move}
    (hc : b.next_move = Color.Black) (hf : m.fromSq = Idx.E8) (ht : m.toSq = Idx.C8)
    (p1 : Color → Piece → Nat) (c1 : Nat → Option (Color × Piece)) :
    applyPieceBranch b m Piece.King p1 c1 =
      some (updPieces p1 b.next_move Piece.Rook
              (p1 b.next_move Piece.Rook ^^^ (idxBB Idx.A8 ||| idxBB Idx.D8)),
            updCast (updCast b.castling_options b.next_move Piece.Queen false)
              b.next_move Piece.King false,
            none, b.half_move_clock + 1,
            updCache (updCache c1 Idx.A8 none) Idx.D8
              (some (b.next_move, Piece.Rook))) := by
  simp only [applyPieceBranch, hc]
  rw [if_pos hf, if_pos ht]

theorem master_rook_case {b : ChessBoard} (hbd : BoundedBoards b)
    (hd : DisjointBoards b) (hca : CacheAgrees b) {m : Move}
    (hm : m ∈ generate_moves_rook b) :
    ∃ b2, apply_move b m = some b2 ∧ CacheAgrees b2 := by
  obtain ⟨hfrom, hto, hpr⟩ := mem_generate_moves_rook.mp hm
  rw [Nat.testBit_and] at hto
  obtain ⟨hatt, havail⟩ := Bool.and_eq_true_iff.mp hto
  obtain ⟨ht64, hmyF⟩ := board_to_attack_testBit hbd havail
  rcases hfrom with hR | hQ
  · exact apply_simple hbd hd hca (by simp) hR
      (fun p1 c1 => by
        obtain ⟨cst, h⟩ := applyPieceBranch_rook b m p1 c1
        exact ⟨cst, _, h⟩)
      hmyF ht64
  · exact apply_simple hbd hd hca (by simp) hQ
      (fun p1 c1 => ⟨b.castling_options, _, applyPieceBranch_qbn (Or.inl rfl) p1 c1⟩)
      hmyF ht64

theorem master_bishop_case {b : ChessBoard} (hbd : BoundedBoards b)
    (hd : DisjointBoards b) (hca : CacheAgrees b) {m : Move}
    (hm : m ∈ generate_moves_bishop b) :
    ∃ b2, apply_move b m = some b2 ∧ CacheAgrees b2 := by
  obtain ⟨hfrom, hto, hpr⟩ := mem_generate_moves_bishop.mp hm
  rw [Nat.testBit_and] at hto
  obtain ⟨hatt, havail⟩ := Bool.and_eq_true_iff.mp hto
  obtain ⟨ht64, hmyF⟩ := board_to_attack_testBit hbd havail
  rcases hfrom with hB | hQ
  · exact apply_simple hbd hd hca (by simp) hB
      (fun p1 c1 => ⟨b.castling_options, _, applyPieceBranch_qbn (Or.inr (Or.inl rfl)) p1 c1⟩)
      hmyF ht64
  · exact apply_simple hbd hd hca (by simp) hQ
      (fun p1 c1 => ⟨b.castling_options, _, applyPieceBranch_qbn (Or.inl rfl) p1 c1⟩)
      hmyF ht64

theorem master_knight_case {b : ChessBoard} (hbd : BoundedBoards b)
    (hd : DisjointBoards b) (hca : CacheAgrees b) {m : Move}
    (hm : m ∈ generate_moves_knight b) :
    ∃ b2, apply_move b m = some b2 ∧ CacheAgrees b2 := by
  obtain ⟨hfrom, hto, hpr⟩ := mem_generate_moves_knight.mp hm
  rw [Nat.testBit_and] at hto
  obtain ⟨hatt, havail⟩ := Bool.and_eq_true_iff.mp hto
  obtain ⟨ht64, hmyF⟩ := board_to_attack_testBit hbd havail
  exact apply_simple hbd hd hca (by simp) hfrom
    (fun p1 c1 => ⟨b.castling_options, _,
      applyPieceBranch_qbn (Or.inr (Or.inr rfl)) p1 c1⟩)
    hmyF ht64

theorem master_king_case {b : ChessBoard} (hbd : BoundedBoards b)
    (hd : DisjointBoards b) (hcst : CastlingOK b) (hca : CacheAgrees b) {m : Move}
    (hm : m ∈ generate_moves_king b) :
    ∃ b2, apply_move b m = some b2 ∧ CacheAgrees b2 := by
  obtain ⟨i, hks, hcase⟩ := mem_generate_moves_king.mp hm
  have hkb : b.pieces b.next_move Piece.King ≠ 0 ∧
      i = ctz (b.pieces b.next_move Piece.King) := by
    rw [bitscan] at hks
    split at hks
    · exact absurd hks (by simp)
    · rename_i hne
      simp only [Option.some.injEq] at hks
      exact ⟨hne, hks.symm⟩
  have hki : (b.pieces b.next_move Piece.King).testBit i = true := by
    rw [hkb.2]
    exact testBit_ctz hkb.1
  rcases hcase with ⟨hfromi, hkto, hpr⟩ | hOOW | hOOOW | hOOB | hOOOB
  · rw [Nat.testBit_and] at hkto
    obtain ⟨hatt, havail⟩ := Bool.and_eq_true_iff.mp hkto
    obtain ⟨ht64, hmyF⟩ := board_to_attack_testBit hbd havail
    have hW : b.next_move = Color.White → m.fromSq = Idx.E1 →
        ¬(m.toSq = Idx.C1 ∨ m.toSq = Idx.G1) := by
      intro hnm hfe hor
      rw [hfromi] at hfe
      subst hfe
      rcases hor with h1 | h1 <;> rw [h1] at hatt
      · rw [show (kingAttacksCache Idx.E1).testBit Idx.C1 = false from by decide] at hatt
        exact Bool.false_ne_true hatt
      · rw [show (kingAttacksCache Idx.E1).testBit Idx.G1 = false from by decide] at hatt
        exact Bool.false_ne_true hatt
    have hB : b.next_move = Color.Black → m.fromSq = Idx.E8 →
        ¬(m.toSq = Idx.C8 ∨ m.toSq = Idx.G8) := by
      intro hnm hfe hor
      rw [hfromi] at hfe
      subst hfe
      rcases hor with h1 | h1 <;> rw [h1] at hatt
      · rw [show (kingAttacksCache Idx.E8).testBit Idx.C8 = false from by decide] at hatt
        exact Bool.false_ne_true hatt
      · rw [show (kingAttacksCache Idx.E8).testBit Idx.G8 = false from by decide] at hatt
        exact Bool.false_ne_true hatt
    exact apply_simple hbd hd hca (by simp) (by rw [hfromi]; exact hki)
      (fun p1 c1 =>
        (applyPieceBranch_king_normal b m hW hB p1 c1).elim
          (fun cst h => ⟨cst, _, h⟩))
      hmyF ht64
  · obtain ⟨hnm, hflag, hempty, hattm, hmeq⟩ := hOOW
    obtain ⟨hkE, hrH⟩ := hcst.1 hflag
    have hfrom2 : m.fromSq = i := by rw [hmeq]
    have hto2 : m.toSq = Idx.G1 := by rw [hmeq]
    have hG1 : b.all_pieces.testBit Idx.G1 = false :=
      all_false_of_mask_zero hempty (by decide)
    have hF1 : b.all_pieces.testBit Idx.F1 = false :=
      all_false_of_mask_zero hempty (by decide)
    by_cases hiE : i = Idx.E1
    · exact apply_castle_tail hbd hd hca (by rw [hfrom2]; exact hki)
        (by rw [hnm]; exact hrH)
        (fun p1 c1 => ⟨_, _,
          applyPieceBranch_castle_oo_white hnm (hfrom2.trans hiE) hto2 p1 c1⟩)
        (by rw [hto2]; exact hG1) hF1
        (by rw [hfrom2, hiE]; decide) (by rw [hto2]; decide)
        (by rw [hfrom2, hiE]; decide) (by rw [hto2]; decide)
        (by decide) (by decide) (by rw [hto2]; decide)
    · have hmyG : b.my_pieces.testBit Idx.G1 = false := by
        rcases hmg : b.my_pieces.testBit Idx.G1
        · rfl
        · obtain ⟨p, hp⟩ := pieces_of_testBit_iff.mp hmg
          rw [all_true_of_piece hp] at hG1
          exact absurd hG1 (by simp)
      have hW : b.next_move = Color.White → m.fromSq = Idx.E1 →
          ¬(m.toSq = Idx.C1 ∨ m.toSq = Idx.G1) := by
        intro hnm2 hfe
        rw [hfrom2] at hfe
        exact absurd hfe hiE
      have hB : b.next_move = Color.Black → m.fromSq = Idx.E8 →
          ¬(m.toSq = Idx.C8 ∨ m.toSq = Idx.G8) := by
        intro hnm2
        rw [hnm] at hnm2
        exact absurd hnm2 (by decide)
      exact apply_simple hbd hd hca (by simp) (by rw [hfrom2]; exact hki)
        (fun p1 c1 =>
          (applyPieceBranch_king_normal b m hW hB p1 c1).elim
            (fun cst h => ⟨cst, _, h⟩))
        (by rw [hto2]; exact hmyG) (by rw [hto2]; decide)
  · obtain ⟨hnm, hflag, hempty, hattm, hmeq⟩ := hOOOW
    obtain ⟨hkE, hrA⟩ := hcst.2.1 hflag
    have hfrom2 : m.fromSq = i := by rw [hmeq]
    have hto2 : m.toSq = Idx.C1 := by rw [hmeq]
    have hC1 : b.all_pieces.testBit Idx.C1 = false :=
      all_false_of_mask_zero hempty (by decide)
    have hD1 : b.all_pieces.testBit Idx.D1 = false :=
      all_false_of_mask_zero hempty (by decide)
    by_cases hiE : i = Idx.E1
    · exact apply_castle_tail hbd hd hca (by rw [hfrom2]; exact hki)
        (by rw [hnm]; exact hrA)
        (fun p1 c1 => ⟨_, _,
          applyPieceBranch_castle_ooo_white hnm (hfrom2.trans hiE) hto2 p1 c1⟩)
        (by rw [hto2]; exact hC1) hD1
        (by rw [hfrom2, hiE]; decide) (by rw [hto2]; decide)
        (by rw [hfrom2, hiE]; decide) (by rw [hto2]; decide)
        (by decide) (by decide) (by rw [hto2]; decide)
    · have hmyC : b.my_pieces.testBit Idx.C1 = false := by
        rcases hmg : b.my_pieces.testBit Idx.C1
        · rfl
        · obtain ⟨p, hp⟩ := pieces_of_testBit_iff.mp hmg
          rw [all_true_of_piece hp] at hC1
          exact absurd hC1 (by simp)
      have hW : b.next_move = Color.White → m.fromSq = Idx.E1 →
          ¬(m.toSq = Idx.C1 ∨ m.toSq = Idx.G1) := by
        intro hnm2 hfe
        rw [hfrom2] at hfe
        exact absurd hfe hiE
      have hB : b.next_move = Color.Black → m.fromSq = Idx.E8 →
          ¬(m.toSq = Idx.C8 ∨ m.toSq = Idx.G8) := by
        intro hnm2
        rw [hnm] at hnm2
        exact absurd hnm2 (by decide)
      exact apply_simple hbd hd hca (by simp) (by rw [hfrom2]; exact hki)
        (fun p1 c1 =>
          (applyPieceBranch_king_normal b m hW hB p1 c1).elim
            (fun cst h => ⟨cst, _, h⟩))
        (by rw [hto2]; exact hmyC) (by rw [hto2]; decide)
  · obtain ⟨hnm, hflag, hempty, hattm, hmeq⟩ := hOOB
    obtain ⟨hkE, hrH⟩ := hcst.2.2.1 hflag
    have hfrom2 : m.fromSq = i := by rw [hmeq]
    have hto2 : m.toSq = Idx.G8 := by rw [hmeq]
    have hG8 : b.all_pieces.testBit Idx.G8 = false :=
      all_false_of_mask_zero hempty (by decide)
    have hF8 : b.all_pieces.testBit Idx.F8 = false :=
      all_false_of_mask_zero hempty (by decide)
    by_cases hiE : i = Idx.E8
    · exact apply_castle_tail hbd hd hca (by rw [hfrom2]; exact hki)
        (by rw [hnm]; exact hrH)
        (fun p1 c1 => ⟨_, _,
          applyPieceBranch_castle_oo_black hnm (hfrom2.trans hiE) hto2 p1 c1⟩)
        (by rw [hto2]; exact hG8) hF8
        (by rw [hfrom2, hiE]; decide) (by rw [hto2]; decide)
        (by rw [hfrom2, hiE]; decide) (by rw [hto2]; decide)
        (by decide) (by decide) (by rw [hto2]; decide)
    · have hmyG : b.my_pieces.testBit Idx.G8 = false := by
        rcases hmg : b.my_pieces.testBit Idx.G8
        · rfl
        · obtain ⟨p, hp⟩ := pieces_of_testBit_iff.mp hmg
          rw [all_true_of_piece hp] at hG8
          exact absurd hG8 (by simp)
      have hW : b.next_move = Color.White → m.fromSq = Idx.E1 →
          ¬(m.toSq = Idx.C1 ∨ m.toSq = Idx.G1) := by
        intro hnm2
        rw [hnm] at hnm2
        exact absurd hnm2 (by decide)
      have hB : b.next_move = Color.Black → m.fromSq = Idx.E8 →
          ¬(m.toSq = Idx.C8 ∨ m.toSq = Idx.G8) := by
        intro hnm2 hfe
        rw [hfrom2] at hfe
        exact absurd hfe hiE
      exact apply_simple hbd hd hca (by simp) (by rw [hfrom2]; exact hki)
        (fun p1 c1 =>
          (applyPieceBranch_king_normal b m hW hB p1 c1).elim
            (fun cst h => ⟨cst, _, h⟩))
        (by rw [hto2]; exact hmyG) (by rw [hto2]; decide)
  · obtain ⟨hnm, hflag, hempty, hattm, hmeq⟩ := hOOOB
    obtain ⟨hkE, hrA⟩ := hcst.2.2.2 hflag
    have hfrom2 : m.fromSq = i := by rw [hmeq]
    have hto2 : m.toSq = Idx.C8 := by rw [hmeq]
    have hC8 : b.all_pieces.testBit Idx.C8 = false :=
      all_false_of_mask_zero hempty (by decide)
    have hD8 : b.all_pieces.testBit Idx.D8 = false :=
      all_false_of_mask_zero hempty (by decide)
    by_cases hiE : i = Idx.E8
    · exact apply_castle_tail hbd hd hca (by rw [hfrom2]; exact hki)
        (by rw [hnm]; exact hrA)
        (fun p1 c1 => ⟨_, _,
          applyPieceBranch_castle_ooo_black hnm (hfrom2.trans hiE) hto2 p1 c1⟩)
        (by rw [hto2]; exact hC8) hD8
        (by rw [hfrom2, hiE]; decide) (by rw [hto2]; decide)
        (by rw [hfrom2, hiE]; decide) (by rw [hto2]; decide)
        (by decide) (by decide) (by rw [hto2]; decide)
    · have hmyC : b.my_pieces.testBit Idx.C8 = false := by
        rcases hmg : b.my_pieces.testBit Idx.C8
        · rfl
        · obtain ⟨p, hp⟩ := pieces_of_testBit_iff.mp hmg
          rw [all_true_of_piece hp] at hC8
          exact absurd hC8 (by simp)
      have hW : b.next_move = Color.White → m.fromSq = Idx.E1 →
          ¬(m.toSq = Idx.C1 ∨ m.toSq = Idx.G1) := by
        intro hnm2
        rw [hnm] at hnm2
        exact absurd hnm2 (by decide)
      have hB : b.next_move = Color.Black → m.fromSq = Idx.E8 →
          ¬(m.toSq = Idx.C8 ∨ m.toSq = Idx.G8) := by
        intro hnm2 hfe
        rw [hfrom2] at hfe
        exact absurd hfe hiE
      exact apply_simple hbd hd hca (by simp) (by rw [hfrom2]; exact hki)
        (fun p1 c1 =>
          (applyPieceBranch_king_normal b m hW hB p1 c1).elim
            (fun cst h => ⟨cst, _, h⟩))
        (by rw [hto2]; exact hmyC) (by rw [hto2]; decide)

theorem epFlag_false_of_ne {b : ChessBoard} {m : Move}
    (h : ∀ e, b.en_passant_target = some e → m.toSq ≠ e) :
    epFlag b m Piece.Pawn = false := by
  rcases hepT : b.en_passant_target with _ | e
  · exact epFlag_pawn_none hepT
  · exact epFlag_pawn_ne hepT (h e hepT)

theorem master_pawn_case {b : ChessBoard} (hbd : BoundedBoards b)
    (hd : DisjointBoards b) (hep : EpOK b) (hca : CacheAgrees b) {m : Move}
    (hm : m ∈ generate_moves_pawn b) :
    ∃ b2, apply_move b m = some b2 ∧ CacheAgrees b2 := by
  obtain ⟨i, hpi, hrest⟩ := mem_generate_moves_pawn.mp hm
  rcases hrest with ⟨t, htb, hsub⟩ | ⟨e, t, hepT, hbs, hmeq⟩
  · cases hnm : b.next_move with
    | White =>
      have hpiW : (b.pieces Color.White Piece.Pawn).testBit i = true := by
        rw [← hnm]
        exact hpi
      have hi64 : i < 64 := testBit_true_lt_64 (hbd _ _) hpi
      obtain ⟨ht64, hgeo⟩ := pawnGenData_white_moves hbd hnm htb
      have hflt : ∀ {m2 : Move}, m2.toSq = t → epFlag b m2 Piece.Pawn = false := by
        intro m2 hm2
        refine epFlag_false_of_ne ?_
        intro e2 hsome hteq
        rw [hm2] at hteq
        subst hteq
        simp only [EpOK, hsome, hnm] at hep
        obtain ⟨hr5, hallE, hbp⟩ := hep
        simp only [idxRank] at hr5
        rcases hgeo with ⟨hte, hallF⟩ | ⟨hi16, hte, -, -⟩ | ⟨-, hoppT⟩
        · have hei : t - 8 = i := by omega
          rw [hei] at hbp
          rw [disjoint_testBit hd (by simp) hpiW] at hbp
          exact Bool.false_ne_true hbp
        · omega
        · obtain ⟨p, hp⟩ := pieces_of_testBit_iff.mp hoppT
          rw [all_true_of_piece hp] at hallE
          exact absurd hallE (by simp)
      rcases hsub with ⟨hrank, hm4⟩ | ⟨hrank, hmeq⟩
      · rcases hgeo with ⟨hte, hallF⟩ | ⟨hi16, hte, -, -⟩ | ⟨hcap7, hoppT⟩
        · rcases hm4 with rfl | rfl | rfl | rfl <;>
            exact apply_pawn_promo hbd hd hca hpi
              (by show ¬distance_to t i > 10; simp only [distance_to]; split <;> omega)
              rfl (by decide)
              (hflt rfl) (Or.inl hallF) ht64
        · exact absurd (show t > 55 ∨ t < 8 from hrank) (by omega)
        · rcases hm4 with rfl | rfl | rfl | rfl <;>
            exact apply_pawn_promo hbd hd hca hpi
              (by show ¬distance_to t i > 10; simp only [distance_to]; split <;> omega)
              rfl (by decide)
              (hflt rfl) (Or.inr hoppT) ht64
      · subst hmeq
        rcases hgeo with ⟨hte, hallF⟩ | ⟨hi16, hte, -, hallF⟩ | ⟨hcap7, hoppT⟩
        · exact apply_pawn_quiet hbd hd hca hpi
            (fun p1 c1 => ⟨b.castling_options, none, 0,
              applyPieceBranch_pawn_none
                (by show ¬distance_to t i > 10; simp only [distance_to]; split <;> omega)
                rfl p1 c1⟩)
            (hflt rfl) hallF ht64
        · exact apply_pawn_quiet hbd hd hca hpi
            (fun p1 c1 => ⟨b.castling_options, some (i + 8), 0,
              applyPieceBranch_pawn_far_white hnm
                (by show distance_to t i > 10; simp only [distance_to]; split <;> omega)
                (show i + 8 < 64 by omega) p1 c1⟩)
            (hflt rfl) hallF ht64
        · exact apply_pawn_cap hbd hd hca hpi
            (by show ¬distance_to t i > 10; simp only [distance_to]; split <;> omega)
            rfl (hflt rfl) hoppT ht64
    | Black =>
      have hpiB : (b.pieces Color.Black Piece.Pawn).testBit i = true := by
        rw [← hnm]
        exact hpi
      have hi64 : i < 64 := testBit_true_lt_64 (hbd _ _) hpi
      obtain ⟨ht64, hgeo⟩ := pawnGenData_black_moves hbd hnm htb
      have hflt : ∀ {m2 : Move}, m2.toSq = t → epFlag b m2 Piece.Pawn = false := by
        intro m2 hm2
        refine epFlag_false_of_ne ?_
        intro e2 hsome hteq
        rw [hm2] at hteq
        subst hteq
        simp only [EpOK, hsome, hnm] at hep
        obtain ⟨hr2, hallE, hwp⟩ := hep
        simp only [idxRank] at hr2
        rcases hgeo with ⟨hte, hallF⟩ | ⟨hi47, hte, -, -⟩ | ⟨-, hoppT⟩
        · have hei : t + 8 = i := by omega
          rw [hei] at hwp
          rw [disjoint_testBit hd (by simp) hpiB] at hwp
          exact Bool.false_ne_true hwp
        · omega
        · obtain ⟨p, hp⟩ := pieces_of_testBit_iff.mp hoppT
          rw [all_true_of_piece hp] at hallE
          exact absurd hallE (by simp)
      rcases hsub with ⟨hrank, hm4⟩ | ⟨hrank, hmeq⟩
      · rcases hgeo with ⟨hte, hallF⟩ | ⟨hi47, hte, -, -⟩ | ⟨hcap7, hoppT⟩
        · rcases hm4 with rfl | rfl | rfl | rfl <;>
            exact apply_pawn_promo hbd hd hca hpi
              (by show ¬distance_to t i > 10; simp only [distance_to]; split <;> omega)
              rfl (by decide)
              (hflt rfl) (Or.inl hallF) ht64
        · exact absurd (show t > 55 ∨ t < 8 from hrank) (by omega)
        · rcases hm4 with rfl | rfl | rfl | rfl <;>
            exact apply_pawn_promo hbd hd hca hpi
              (by show ¬distance_to t i > 10; simp only [distance_to]; split <;> omega)
              rfl (by decide)
              (hflt rfl) (Or.inr hoppT) ht64
      · subst hmeq
        rcases hgeo with ⟨hte, hallF⟩ | ⟨hi47, hte, -, hallF⟩ | ⟨hcap7, hoppT⟩
        · exact apply_pawn_quiet hbd hd hca hpi
            (fun p1 c1 => ⟨b.castling_options, none, 0,
              applyPieceBranch_pawn_none
                (by show ¬distance_to t i > 10; simp only [distance_to]; split <;> omega)
                rfl p1 c1⟩)
            (hflt rfl) hallF ht64
        · exact apply_pawn_quiet hbd hd hca hpi
            (fun p1 c1 => ⟨b.castling_options, some (i - 8), 0,
              applyPieceBranch_pawn_far_black hnm
                (by show distance_to t i > 10; simp only [distance_to]; split <;> omega)
                (show 8 ≤ i by omega) p1 c1⟩)
            (hflt rfl) hallF ht64
        · exact apply_pawn_cap hbd hd hca hpi
            (by show ¬distance_to t i > 10; simp only [distance_to]; split <;> omega)
            rfl (hflt rfl) hoppT ht64
  · subst hmeq
    obtain ⟨hte, hattE⟩ := bitscan_and_idxBB hbs
    subst hte
    cases hnm : b.next_move with
    | White =>
      obtain ⟨he64, hor⟩ := pawnGenData_white_att hnm hattE
      simp only [EpOK, hepT, hnm] at hep
      obtain ⟨hr5, hallE, hbp⟩ := hep
      simp only [idxRank] at hr5
      exact apply_pawn_ep_white hbd hd hca hnm hpi hepT rfl
        (by show ¬distance_to t i > 10; simp only [distance_to]; split <;> omega)
        rfl hallE hbp (show 8 ≤ t by omega) he64 (show t - 8 ≠ i by omega)
    | Black =>
      obtain ⟨he64, hor⟩ := pawnGenData_black_att hnm hattE
      simp only [EpOK, hepT, hnm] at hep
      obtain ⟨hr2, hallE, hwp⟩ := hep
      simp only [idxRank] at hr2
      exact apply_pawn_ep_black hbd hd hca hnm hpi hepT rfl
        (by show ¬distance_to t i > 10; simp only [distance_to]; split <;> omega)
        rfl hallE hwp (show t + 8 < 64 by omega) (show t + 8 ≠ i by omega)

theorem apply_move_cache_master {b : ChessBoard} (hbd : BoundedBoards b)
    (hd : DisjointBoards b) (hcst : CastlingOK b) (hep : EpOK b)
    (hca : CacheAgrees b) {m : Move} (hm : m ∈ moves b) :
    ∃ b2, apply_move b m = some b2 ∧ CacheAgrees b2 := by
  rw [moves] at hm
  rcases List.mem_append.mp hm with hm1 | hmK
  · rcases List.mem_append.mp hm1 with hm2 | hmN
    · rcases List.mem_append.mp hm2 with hm3 | hmP
      · rcases List.mem_append.mp hm3 with hmR | hmB
        · exact master_rook_case hbd hd hca hmR
        · exact master_bishop_case hbd hd hca hmB
      · exact master_pawn_case hbd hd hep hca hmP
    · exact master_knight_case hbd hd hca hmN
  · exact master_king_case hbd hd hcst hca hmK

/-- C9 (counterexample). The claim's hypotheses do not suffice: on a position
whose cache agrees with its boards but whose castling flag is set without the
rook, the emitted castle `e1g1` applies successfully, and the resulting
position's cache disagrees with its boards (the rook-toggle of the castle
branch sets the h1 bit of the white rook board while the cache holds `none`
there). -/
theorem castle_no_rook_breaks_cache :
    CacheAgrees castleNoRookBoard ∧
    Move.mk Idx.E1 Idx.G1 none ∈ moves castleNoRookBoard ∧
    ∀ b2, apply_move castleNoRookBoard (Move.mk Idx.E1 Idx.G1 none) = some b2 →
      ¬CacheAgrees b2 := by
  refine ⟨by unfold CacheAgrees; decide, by decide, ?_⟩
  intro b2 h hagree
  have hmap : (apply_move castleNoRookBoard (Move.mk Idx.E1 Idx.G1 none)).map
      (fun b3 => (b3.piece_cache Idx.H1, scanPieceAt b3.pieces Idx.H1)) =
      some (none, some (Color.White, Piece.Rook)) := by decide
  rw [h] at hmap
  simp only [Option.map_some', Option.some.injEq, Prod.mk.injEq] at hmap
  have h2 := hagree Idx.H1 (by decide)
  rw [hmap.1, hmap.2] at h2
  exact absurd h2 (by simp)

/-- C9 (amended). On a well-formed position (bounded, disjoint boards, the
castling-rights and en-passant invariants), applying any pseudo-legal move
preserves agreement of the piece-at cache with the twelve bitboards. -/
theorem apply_move_preserves_cache (b : ChessBoard) (hwf : WellFormed b)
    (hca : CacheAgrees b) (m : Move) (hm : m ∈ moves b) (b2 : ChessBoard)
    (h : apply_move b m = some b2) : CacheAgrees b2 := by
  obtain ⟨hbd, hd, hcst, hep⟩ := hwf
  obtain ⟨b3, h3, hca3⟩ := apply_move_cache_master hbd hd hcst hep hca hm
  rw [h] at h3
  injection h3 with h4
  rw [h4]
  exact hca3

/-- Witness for `apply_move_preserves_cache`: the standard opening position,
move `e2e4`; all hypotheses discharged by evaluation. -/
theorem apply_move_preserves_cache_witness :
    ∃ b2, apply_move ChessBoard.STANDARD (Move.mk Idx.E2 Idx.E4 none) = some b2 ∧
      CacheAgrees b2 := by
  have h : ∃ b2, apply_move ChessBoard.STANDARD (Move.mk Idx.E2 Idx.E4 none) =
      some b2 := by
    rw [Option.isSome_iff_exists.symm]
    decide
  obtain ⟨b2, hb2⟩ := h
  refine ⟨b2, hb2, apply_move_preserves_cache ChessBoard.STANDARD
    ⟨?_, ?_, ?_, ?_⟩ ?_ _ ?_ _ hb2⟩
  · unfold BoundedBoards
    decide
  · unfold DisjointBoards
    decide
  · unfold CastlingOK
    decide
  · exact True.intro
  · unfold CacheAgrees
    decide
  · decide

/-- C10. `apply_move` returns `none` (the unwrap panic) whenever the from
square's cache entry is empty, and it is total — `isSome` — for every
pseudo-legal move of a well-formed position whose cache agrees with its
boards. -/
theorem apply_move_totality :
    (∀ (b : ChessBoard) (m : Move), b.piece_cache m.fromSq = none →
      apply_move b m = none) ∧
    (∀ (b : ChessBoard) (m : Move), WellFormed b → CacheAgrees b → m ∈ moves b →
      (apply_move b m).isSome = true) := by
  constructor
  · intro b m h
    simp [apply_move, h]
  · intro b m hwf hca hm
    obtain ⟨hbd, hd, hcst, hep⟩ := hwf
    obtain ⟨b2, h2, -⟩ := apply_move_cache_master hbd hd hcst hep hca hm
    rw [h2]
    rfl

/-- Witness for `apply_move_totality`: the empty board panics on `e2e4` (no
piece on e2), and the standard position applies `e2e4` successfully. -/
theorem apply_move_totality_witness :
    apply_move ChessBoard.EMPTY (Move.mk Idx.E2 Idx.E4 none) = none ∧
    (apply_move ChessBoard.STANDARD (Move.mk Idx.E2 Idx.E4 none)).isSome = true :=
  ⟨apply_move_totality.1 ChessBoard.EMPTY _ rfl,
   apply_move_totality.2 ChessBoard.STANDARD _
     ⟨by unfold BoundedBoards; decide, by unfold DisjointBoards; decide,
      by unfold CastlingOK; decide, True.intro⟩
     (by unfold CacheAgrees; decide) (by decide)⟩

end Chessgen
